import Mathlib

/-
Verification of the mol2chemfig geometric layout engine
(files mol2chemfig/bond.py and mol2chemfig/molecule.py).

Python floats are modelled as real numbers, Python ints as integers,
Python lists as Lean lists, Python dicts and sets as association lists
and membership-tested lists.  Fallible Python operations (TypeError,
ValueError, ZeroDivisionError, KeyError, raised MCFError) are modelled
with an Except monad.
-/

open scoped Classical

noncomputable section

/-- Python round: round half to even (banker's rounding), as applied to a real
number, returning an integer (the source always wraps round in int). -/
def pyRound (x : ℝ) : ℤ :=
  if x - ⌊x⌋ < 1/2 then ⌊x⌋
  else if 1/2 < x - ⌊x⌋ then ⌊x⌋ + 1
  else if Even ⌊x⌋ then ⌊x⌋ else ⌊x⌋ + 1

/-- Python float modulo for a positive real divisor: the result lies in
the interval from 0 (inclusive) to the divisor (exclusive), as in
angle % 360 in the source. -/
def rmod (a b : ℝ) : ℝ := a - b * ⌊a / b⌋

theorem rmod_def (a b : ℝ) : rmod a b = a - b * ⌊a / b⌋ := rfl

theorem rmod_eq_fract_mul (a b : ℝ) (hb : b ≠ 0) :
    rmod a b = b * Int.fract (a / b) := by
  rw [rmod, Int.fract, mul_sub, ← mul_div_assoc, mul_div_cancel_left₀ _ hb]

theorem rmod_add_int_mul (a : ℝ) (k : ℤ) :
    rmod (a + 360 * k) 360 = rmod a 360 := by
  rw [rmod_eq_fract_mul _ _ (by norm_num), rmod_eq_fract_mul _ _ (by norm_num)]
  have : (a + 360 * k) / 360 = a / 360 + k := by ring
  rw [this, Int.fract_add_int]

theorem rmod_nonneg (a : ℝ) : 0 ≤ rmod a 360 := by
  rw [rmod_eq_fract_mul _ _ (by norm_num)]
  have := Int.fract_nonneg (a / 360)
  nlinarith

theorem rmod_lt (a : ℝ) : rmod a 360 < 360 := by
  rw [rmod_eq_fract_mul _ _ (by norm_num)]
  have := Int.fract_lt_one (a / 360)
  nlinarith

theorem rmod_rmod_add (a c : ℝ) :
    rmod (rmod a 360 + c) 360 = rmod (a + c) 360 := by
  have h : rmod a 360 + c = (a + c) + 360 * (((-⌊a / 360⌋ : ℤ) : ℝ)) := by
    rw [rmod]; push_cast; ring
  rw [h, rmod_add_int_mul]

theorem pyRound_intCast (n : ℤ) : pyRound (n : ℝ) = n := by
  simp [pyRound]

/-- Error conditions a Python run of the modelled code can raise. -/
inductive PyError where
  | typeError          -- unsupported operand comparison, e.g. min over None
  | valueError         -- list.remove of a missing element
  | zeroDivisionError  -- division by (exact) zero
  | keyError           -- missing dict key
  | indexError         -- list index out of range
  | mcfInvalidEntryAtom  -- MCFError: invalid entry atom number
  | mcfInvalidExitAtom   -- MCFError: invalid exit atom number
  | mcfBondDoesNotExist  -- MCFError: referenced cross bond does not exist
  deriving DecidableEq

/-- bond.compare_positions: distance and angle between the coordinates of
two atoms.  Translated branch for branch from bond.py. -/
def compare_positions (x1 y1 x2 y2 : ℝ) : ℝ × ℝ :=
  let xdiff := x2 - x1
  let ydiff := y2 - y1
  let length := Real.sqrt (xdiff ^ 2 + ydiff ^ 2)
  let angle :=
    if xdiff = 0 then
      if ydiff < 0 then (270 : ℝ) else 90
    else
      let raw_angle := Real.arctan |ydiff / xdiff| * 180 / Real.pi
      if 0 ≤ ydiff then
        if 0 < xdiff then raw_angle else 180 - raw_angle
      else
        if 0 < xdiff then -raw_angle else 180 + raw_angle
  (length, angle)

/-- The claim of C1, as stated: the angle is in [0, 360), and vertical
segments give exactly 90 or 270. -/
def claimC1At (x1 y1 x2 y2 : ℝ) : Prop :=
  (0 ≤ (compare_positions x1 y1 x2 y2).2 ∧ (compare_positions x1 y1 x2 y2).2 < 360) ∧
  (x2 - x1 = 0 →
    ((0 ≤ y2 - y1 → (compare_positions x1 y1 x2 y2).2 = 90) ∧
     (y2 - y1 < 0 → (compare_positions x1 y1 x2 y2).2 = 270)))

theorem arctan_nonneg_of_nonneg {x : ℝ} (h : 0 ≤ x) : 0 ≤ Real.arctan x := by
  have := Real.arctan_strictMono.monotone h
  rwa [Real.arctan_zero] at this

theorem compare_positions_at_fourth_quadrant :
    (compare_positions 0 0 1 (-1)).2 = -45 := by
  have hpi := Real.pi_ne_zero
  simp only [compare_positions]
  norm_num
  field_simp
  ring

/-- C1 counterexample: for the displacement (1, -1) the returned angle is
-45, which is not in [0, 360).  The claimed range is wrong for the fourth
quadrant, where the source returns a negative angle. -/
theorem c1_counterexample : ¬ claimC1At 0 0 1 (-1) := by
  intro h
  have h2 := h.1.1
  rw [compare_positions_at_fourth_quadrant] at h2
  norm_num at h2

/-- C1 amended: the returned angle always lies in the interval (-90, 270],
and for vertical segments (xdiff = 0) it is exactly 90 when ydiff is
nonnegative and exactly 270 when ydiff is negative. -/
theorem c1_amended (x1 y1 x2 y2 : ℝ) :
    (-90 < (compare_positions x1 y1 x2 y2).2 ∧ (compare_positions x1 y1 x2 y2).2 ≤ 270) ∧
    (x2 - x1 = 0 →
      ((0 ≤ y2 - y1 → (compare_positions x1 y1 x2 y2).2 = 90) ∧
       (y2 - y1 < 0 → (compare_positions x1 y1 x2 y2).2 = 270))) := by
  have hpi := Real.pi_pos
  simp only [compare_positions]
  by_cases hx : x2 - x1 = 0
  · by_cases hy : y2 - y1 < 0
    · rw [if_pos hx, if_pos hy]
      exact ⟨⟨by norm_num, by norm_num⟩,
        fun _ => ⟨fun h => absurd hy (not_lt.mpr h), fun _ => rfl⟩⟩
    · rw [if_pos hx, if_neg hy]
      exact ⟨⟨by norm_num, by norm_num⟩,
        fun _ => ⟨fun _ => rfl, fun h => absurd h hy⟩⟩
  · rw [if_neg hx]
    have harc_nonneg : 0 ≤ Real.arctan |((y2 - y1) / (x2 - x1))| * 180 / Real.pi := by
      have h1 : 0 ≤ Real.arctan |((y2 - y1) / (x2 - x1))| :=
        arctan_nonneg_of_nonneg (abs_nonneg _)
      positivity
    have harc_lt : Real.arctan |((y2 - y1) / (x2 - x1))| * 180 / Real.pi < 90 := by
      have h1 : Real.arctan |((y2 - y1) / (x2 - x1))| < Real.pi / 2 :=
        Real.arctan_lt_pi_div_two _
      rw [div_lt_iff₀ hpi]
      nlinarith
    refine ⟨?_, fun h => absurd h hx⟩
    by_cases hy : 0 ≤ y2 - y1
    · rw [if_pos hy]
      by_cases hxp : 0 < x2 - x1
      · rw [if_pos hxp]; constructor <;> nlinarith
      · rw [if_neg hxp]; constructor <;> nlinarith
    · rw [if_neg hy]
      by_cases hxp : 0 < x2 - x1
      · rw [if_pos hxp]; constructor <;> nlinarith
      · rw [if_neg hxp]; constructor <;> nlinarith

/-- C1 amended witness: at the concrete vertical displacement (0, 1) the
angle is exactly 90 and lies in the amended range. -/
theorem c1_amended_witness :
    (-90 < (compare_positions 0 0 0 1).2 ∧ (compare_positions 0 0 0 1).2 ≤ 270) ∧
    (compare_positions 0 0 0 1).2 = 90 := by
  have h := c1_amended 0 0 0 1
  refine ⟨h.1, ?_⟩
  have := (h.2 (by norm_num)).1 (by norm_num)
  exact this

/-! ## Data model: atoms and bonds -/

/-- The bond type strings of bond.py, as an enumeration.  The value
`unspecified` stands for Python None (link bonds are constructed with
bond_type=None before set_link assigns the link type). -/
inductive BondType where
  | single | double | triple | aromatic
  | upto | downto | either | upfrom | downfrom
  | link | decorated | unspecified
  deriving DecidableEq

/-- Style tags collected in Bond.tikz_styles. -/
inductive TikzStyle where
  | cross | double | triple | leftSide | rightSide
  deriving DecidableEq

/-- Keys of the Bond.tikz_values dictionary. -/
inductive TikzKey where
  | bgstart | bgend | valStart | valEnd
  deriving DecidableEq

/-- atom.Atom, restricted to the attributes the verified operations read:
index, coordinates, neighbor indices and the accumulated bond angle list.
Presentation-only attributes (element, hydrogens, charge, radical) are
omitted. -/
structure Atom where
  idx : ℕ
  x : ℝ
  y : ℝ
  neighbors : List ℕ
  bond_angles : List ℝ

/-- bond.Bond.  The marker string is modelled as the optional sorted pair
of 1-based atom ids it is rendered from (Python empty string = none). -/
structure Bond where
  start_atom : Atom
  end_atom : Atom
  bond_type : BondType
  angle : ℝ
  length : ℝ
  to_phantom : Bool := false
  is_trunk : Bool := false
  is_last : Bool := false
  clockwise : ℤ := 0
  tikz_styles : List TikzStyle := []
  tikz_values : List (TikzKey × ℤ) := []
  marker : Option (ℕ × ℕ) := none

/-- Bond.invert: draw a bond backwards.  A deep copy with start and end
swapped, the angle rotated by 180 degrees (Python float modulo 360), and
the to-variants of stereo types replaced by the from-variants. -/
def Bond.invert (b : Bond) : Bond :=
  let c : Bond := { b with
    start_atom := b.end_atom
    end_atom := b.start_atom
    angle := rmod (b.angle + 180) 360 }
  if b.bond_type = BondType.upto then { c with bond_type := BondType.upfrom }
  else if b.bond_type = BondType.downto then { c with bond_type := BondType.downfrom }
  else c

theorem rmod_add_360 (a : ℝ) : rmod (a + 360) 360 = rmod a 360 := by
  have h : a + 360 = a + 360 * ((1 : ℤ) : ℝ) := by norm_num
  rw [h, rmod_add_int_mul]

theorem invert_start_atom (b : Bond) : b.invert.start_atom = b.end_atom := by
  simp only [Bond.invert]
  split_ifs <;> rfl

theorem invert_end_atom (b : Bond) : b.invert.end_atom = b.start_atom := by
  simp only [Bond.invert]
  split_ifs <;> rfl

theorem invert_angle (b : Bond) : b.invert.angle = rmod (b.angle + 180) 360 := by
  simp only [Bond.invert]
  split_ifs <;> rfl

/-- C6: double inversion restores the start atom, the end atom, and the
angle up to its modulo-360 representative. -/
theorem c6_invert_invert (b : Bond) :
    b.invert.invert.start_atom = b.start_atom ∧
    b.invert.invert.end_atom = b.end_atom ∧
    b.invert.invert.angle = rmod b.angle 360 := by
  refine ⟨?_, ?_, ?_⟩
  · rw [invert_start_atom, invert_end_atom]
  · rw [invert_end_atom, invert_start_atom]
  · rw [invert_angle, invert_angle, rmod_rmod_add]
    have h : b.angle + 180 + 180 = b.angle + 360 := by ring
    rw [h, rmod_add_360]

/-- The claim of C7 at a bond b, as stated: inversion swaps the atoms,
rotates the angle by 180 degrees, and exchanges upto with upfrom and
downto with downfrom in both directions. -/
def claimC7At (b : Bond) : Prop :=
  b.invert.start_atom = b.end_atom ∧
  b.invert.end_atom = b.start_atom ∧
  b.invert.angle = rmod (b.angle + 180) 360 ∧
  (b.bond_type = BondType.upto → b.invert.bond_type = BondType.upfrom) ∧
  (b.bond_type = BondType.upfrom → b.invert.bond_type = BondType.upto) ∧
  (b.bond_type = BondType.downto → b.invert.bond_type = BondType.downfrom) ∧
  (b.bond_type = BondType.downfrom → b.invert.bond_type = BondType.downto)

/-- A concrete bond carrying the upfrom stereo type, as produced by
inverting an upto bond. -/
def upfromBond : Bond :=
  { start_atom := { idx := 0, x := 0, y := 0, neighbors := [1], bond_angles := [0] }
    end_atom := { idx := 1, x := 1, y := 0, neighbors := [0], bond_angles := [180] }
    bond_type := BondType.upfrom
    angle := 0
    length := 1 }

/-- C7 counterexample: inverting a bond whose type is upfrom leaves the
type upfrom; the source only remaps upto to upfrom and downto to
downfrom, never the reverse direction. -/
theorem c7_counterexample : ¬ claimC7At upfromBond := by
  intro h
  have h5 := h.2.2.2.2.1 rfl
  simp [Bond.invert, upfromBond] at h5

/-- C7 amended: invert swaps start and end atoms, rotates the angle by
180 degrees modulo 360, maps upto to upfrom and downto to downfrom, and
leaves every other bond type (including upfrom and downfrom) unchanged. -/
theorem c7_amended (b : Bond) :
    b.invert.start_atom = b.end_atom ∧
    b.invert.end_atom = b.start_atom ∧
    b.invert.angle = rmod (b.angle + 180) 360 ∧
    (b.bond_type = BondType.upto → b.invert.bond_type = BondType.upfrom) ∧
    (b.bond_type = BondType.downto → b.invert.bond_type = BondType.downfrom) ∧
    (b.bond_type ≠ BondType.upto → b.bond_type ≠ BondType.downto →
      b.invert.bond_type = b.bond_type) := by
  refine ⟨invert_start_atom b, invert_end_atom b, invert_angle b, ?_, ?_, ?_⟩
  · intro h; simp [Bond.invert, h]
  · intro h; simp [Bond.invert, h]
  · intro h1 h2; simp [Bond.invert, h1, h2]

end

/-! ## Molecule.parseTree: spanning-tree construction

The molecule is abstracted to what parseTree reads: the set of atom
indices (the keys of the atoms dict) and each atom's neighbor list.
parseTree returns a tree of bonds; a node records the bond's start atom
(none for the dummy first bond), its end atom, and its to_phantom flag.
Trees and forests are a mutual inductive pair so that all recursions are
structural. -/

structure MolGraph where
  atoms : List ℕ
  neighbors : ℕ → List ℕ

/-- The seen_atoms and seen_bonds sets of Molecule, as membership lists. -/
structure DFSState where
  seenAtoms : List ℕ
  seenBonds : List (ℕ × ℕ)
  deriving DecidableEq

mutual
inductive PTree where
  | node (startIdx : Option ℕ) (endIdx : ℕ) (phantom : Bool) (children : PForest)
  deriving DecidableEq
inductive PForest where
  | nil
  | cons (t : PTree) (f : PForest)
  deriving DecidableEq
end

def PForest.append : PForest → PForest → PForest
  | .nil, g => g
  | .cons t f, g => .cons t (f.append g)

def PForest.len : PForest → ℕ
  | .nil => 0
  | .cons _ f => f.len + 1

mutual
/-- End atoms of the non-phantom bonds of a tree, in preorder. -/
def nonPhantomEnds : PTree → List ℕ
  | .node _ e ph cs => (if ph then [] else [e]) ++ nonPhantomEndsF cs
def nonPhantomEndsF : PForest → List ℕ
  | .nil => []
  | .cons t f => nonPhantomEnds t ++ nonPhantomEndsF f
end

mutual
/-- Every phantom node of the tree is a leaf and its end atom is a member
of the list s. -/
def PhantomsOK (s : List ℕ) : PTree → Prop
  | .node _ e ph cs => (ph = true → cs = .nil ∧ e ∈ s) ∧ PhantomsOKF s cs
def PhantomsOKF (s : List ℕ) : PForest → Prop
  | .nil => True
  | .cons t f => PhantomsOK s t ∧ PhantomsOKF s f
end

/-- The ends of an optional tree (a failed parseTree branch has none). -/
def endsOfOpt : Option PTree → List ℕ
  | none => []
  | some t => nonPhantomEnds t

/-- One iteration of the neighbor loop of parseTree: skip the atom we
came from, recurse, and attach a non-null result at the end of the
descendants. -/
def childStep (rec : ℕ → DFSState → Option PTree × DFSState) (skip : Option ℕ)
    (acc : PForest × DFSState) (ni : ℕ) : PForest × DFSState :=
  if skip = some ni then acc
  else
    match rec ni acc.2 with
    | (some t, st2) => (acc.1.append (.cons t .nil), st2)
    | (none, st2) => (acc.1, st2)

/-- Molecule.parseTree, fuel-indexed so that the recursion is structural.
The fuel bound never triggers when the fuel exceeds the number of unseen
atoms (parseTree recurses only after marking a fresh atom seen). -/
def parseTreeAux (g : MolGraph) : ℕ → Option ℕ → ℕ → DFSState → Option PTree × DFSState
  | 0, _, _, st => (none, st)
  | fuel + 1, startIdx, endIdx, st =>
    match startIdx with
    | none =>
      let st1 : DFSState := { st with seenAtoms := endIdx :: st.seenAtoms }
      let res := (g.neighbors endIdx).foldl
        (childStep (fun ni st2 => parseTreeAux g fuel (some endIdx) ni st2) none)
        (.nil, st1)
      (some (.node none endIdx false res.1), res.2)
    | some s =>
      if (s, endIdx) ∈ st.seenBonds ∨ (endIdx, s) ∈ st.seenBonds then (none, st)
      else
        let st1 : DFSState := { st with seenBonds := (s, endIdx) :: st.seenBonds }
        if endIdx ∈ st1.seenAtoms then
          (some (.node (some s) endIdx true .nil), st1)
        else
          let st2 : DFSState := { st1 with seenAtoms := endIdx :: st1.seenAtoms }
          let res := (g.neighbors endIdx).foldl
            (childStep (fun ni st3 => parseTreeAux g fuel (some endIdx) ni st3) (some s))
            (.nil, st2)
          (some (.node (some s) endIdx false res.1), res.2)

/-- The call self.parseTree(start_atom=None, end_atom=self.entry_atom)
made by Molecule with fresh seen sets, with sufficient fuel. -/
def parseTree (g : MolGraph) (entry : ℕ) : Option PTree × DFSState :=
  parseTreeAux g (g.atoms.length + 1) none entry ⟨[], []⟩

/-! ### Basic lemmas about forests and the DFS state -/

theorem PForest.append_nil : ∀ (f : PForest), f.append .nil = f
  | .nil => rfl
  | .cons t f => by rw [PForest.append, PForest.append_nil f]

theorem PForest.append_assoc : ∀ (a b c : PForest),
    (a.append b).append c = a.append (b.append c)
  | .nil, _, _ => rfl
  | .cons t f, b, c => by
    rw [PForest.append, PForest.append, PForest.append, PForest.append_assoc f b c]

theorem nonPhantomEndsF_append : ∀ (a b : PForest),
    nonPhantomEndsF (a.append b) = nonPhantomEndsF a ++ nonPhantomEndsF b
  | .nil, _ => rfl
  | .cons t f, b => by
    rw [PForest.append, nonPhantomEndsF, nonPhantomEndsF, nonPhantomEndsF_append f b,
      List.append_assoc]

theorem PhantomsOKF_append : ∀ {a : PForest} {s : List ℕ} {b : PForest},
    PhantomsOKF s a → PhantomsOKF s b → PhantomsOKF s (a.append b)
  | .nil, _, _, _, hb => hb
  | .cons t f, _, _, ha, hb => ⟨ha.1, PhantomsOKF_append ha.2 hb⟩

mutual
theorem PhantomsOK_mono {s s' : List ℕ} (hsub : ∀ x ∈ s, x ∈ s') :
    ∀ {t : PTree}, PhantomsOK s t → PhantomsOK s' t
  | .node st e ph cs, h => by
    rw [PhantomsOK] at h ⊢
    exact ⟨fun hp => ⟨(h.1 hp).1, hsub _ (h.1 hp).2⟩, PhantomsOKF_mono hsub h.2⟩
theorem PhantomsOKF_mono {s s' : List ℕ} (hsub : ∀ x ∈ s, x ∈ s') :
    ∀ {f : PForest}, PhantomsOKF s f → PhantomsOKF s' f
  | .nil, _ => trivial
  | .cons t f, h => ⟨PhantomsOK_mono hsub h.1, PhantomsOKF_mono hsub h.2⟩
end

/-- One DFS state extends another: both seen sets grew by some prefix. -/
def StExt (st st' : DFSState) : Prop :=
  (∃ u, st'.seenAtoms = u ++ st.seenAtoms) ∧ (∃ v, st'.seenBonds = v ++ st.seenBonds)

theorem StExt.refl (st : DFSState) : StExt st st :=
  ⟨⟨[], rfl⟩, ⟨[], rfl⟩⟩

theorem StExt.trans {a b c : DFSState} (h1 : StExt a b) (h2 : StExt b c) : StExt a c := by
  obtain ⟨⟨u1, hu1⟩, ⟨v1, hv1⟩⟩ := h1
  obtain ⟨⟨u2, hu2⟩, ⟨v2, hv2⟩⟩ := h2
  exact ⟨⟨u2 ++ u1, by rw [hu2, hu1, List.append_assoc]⟩,
         ⟨v2 ++ v1, by rw [hv2, hv1, List.append_assoc]⟩⟩

theorem StExt.mem_atoms {a b : DFSState} (h : StExt a b) {x : ℕ}
    (hx : x ∈ a.seenAtoms) : x ∈ b.seenAtoms := by
  obtain ⟨⟨u, hu⟩, _⟩ := h
  rw [hu]; exact List.mem_append_right _ hx

theorem StExt.mem_bonds {a b : DFSState} (h : StExt a b) {p : ℕ × ℕ}
    (hp : p ∈ a.seenBonds) : p ∈ b.seenBonds := by
  obtain ⟨_, ⟨v, hv⟩⟩ := h
  rw [hv]; exact List.mem_append_right _ hp

/-! ### Reduction lemmas for one neighbor-loop step -/

theorem childStep_skip {rec : ℕ → DFSState → Option PTree × DFSState} {skip : Option ℕ}
    {acc : PForest × DFSState} {ni : ℕ} (h : skip = some ni) :
    childStep rec skip acc ni = acc := by
  simp [childStep, h]

theorem childStep_attach {rec : ℕ → DFSState → Option PTree × DFSState} {skip : Option ℕ}
    {acc : PForest × DFSState} {ni : ℕ} {t : PTree} {st2 : DFSState}
    (h : ¬ skip = some ni) (h2 : rec ni acc.2 = (some t, st2)) :
    childStep rec skip acc ni = (acc.1.append (.cons t .nil), st2) := by
  simp [childStep, h, h2]

theorem childStep_drop {rec : ℕ → DFSState → Option PTree × DFSState} {skip : Option ℕ}
    {acc : PForest × DFSState} {ni : ℕ} {st2 : DFSState}
    (h : ¬ skip = some ni) (h2 : rec ni acc.2 = (none, st2)) :
    childStep rec skip acc ni = (acc.1, st2) := by
  simp [childStep, h, h2]

theorem childStep_snd {rec : ℕ → DFSState → Option PTree × DFSState} {skip : Option ℕ}
    {acc : PForest × DFSState} {ni : ℕ} :
    (childStep rec skip acc ni).2 = if skip = some ni then acc.2 else (rec ni acc.2).2 := by
  by_cases h : skip = some ni
  · rw [childStep_skip h, if_pos h]
  · rw [if_neg h]
    rcases h2 : rec ni acc.2 with ⟨t?, st2⟩
    cases t?
    · rw [childStep_drop h h2]
    · rw [childStep_attach h h2]

/-! ### Unconditional state lemmas for parseTreeAux -/

theorem foldl_childStep_ext {rec : ℕ → DFSState → Option PTree × DFSState} {skip : Option ℕ}
    (hrec : ∀ ni st, StExt st ((rec ni st).2)) :
    ∀ (nis : List ℕ) (acc : PForest × DFSState),
      StExt acc.2 ((nis.foldl (childStep rec skip) acc).2)
  | [], acc => StExt.refl _
  | ni :: nis, acc => by
    rw [List.foldl_cons]
    refine StExt.trans ?_ (foldl_childStep_ext hrec nis (childStep rec skip acc ni))
    rw [childStep_snd]
    by_cases h : skip = some ni
    · rw [if_pos h]; exact StExt.refl _
    · rw [if_neg h]; exact hrec ni acc.2

theorem parseTreeAux_ext (g : MolGraph) :
    ∀ (fuel : ℕ) (s? : Option ℕ) (e : ℕ) (st : DFSState),
      StExt st ((parseTreeAux g fuel s? e st).2)
  | 0, _, _, st => StExt.refl st
  | (fuel + 1), none, e, st => by
    simp only [parseTreeAux]
    refine StExt.trans (b := { st with seenAtoms := e :: st.seenAtoms })
      ⟨⟨[e], rfl⟩, ⟨[], rfl⟩⟩ ?_
    exact foldl_childStep_ext (fun ni st2 => parseTreeAux_ext g fuel (some e) ni st2) _ _
  | (fuel + 1), some s, e, st => by
    simp only [parseTreeAux]
    split
    · exact StExt.refl st
    · split
      · exact ⟨⟨[], rfl⟩, ⟨[(s, e)], rfl⟩⟩
      · refine StExt.trans
          (b := ⟨e :: st.seenAtoms, (s, e) :: st.seenBonds⟩) ⟨⟨[e], rfl⟩, ⟨[(s, e)], rfl⟩⟩ ?_
        exact foldl_childStep_ext (fun ni st3 => parseTreeAux_ext g fuel (some e) ni st3) _ _

theorem foldl_childStep_ends {rec : ℕ → DFSState → Option PTree × DFSState} {skip : Option ℕ}
    (hrec : ∀ ni st, ((rec ni st).2).seenAtoms
      = (endsOfOpt (rec ni st).1).reverse ++ st.seenAtoms) :
    ∀ (nis : List ℕ) (acc : PForest × DFSState),
      ∃ fnew, (nis.foldl (childStep rec skip) acc).1 = acc.1.append fnew ∧
        ((nis.foldl (childStep rec skip) acc).2).seenAtoms
          = (nonPhantomEndsF fnew).reverse ++ acc.2.seenAtoms
  | [], acc => ⟨.nil, by simp [PForest.append_nil], by rw [nonPhantomEndsF]; simp⟩
  | ni :: nis, acc => by
    rw [List.foldl_cons]
    by_cases h : skip = some ni
    · rw [childStep_skip h]
      exact foldl_childStep_ends hrec nis acc
    · rcases h2 : rec ni acc.2 with ⟨t?, st2⟩
      cases t? with
      | none =>
        rw [childStep_drop h h2]
        obtain ⟨fnew, hf1, hf2⟩ := foldl_childStep_ends hrec nis (acc.1, st2)
        refine ⟨fnew, hf1, ?_⟩
        have hst2 : st2.seenAtoms = acc.2.seenAtoms := by
          have := hrec ni acc.2
          rw [h2] at this
          simpa [endsOfOpt] using this
        rw [hf2, hst2]
      | some t =>
        rw [childStep_attach h h2]
        obtain ⟨fnew, hf1, hf2⟩ :=
          foldl_childStep_ends hrec nis ((acc.1.append (.cons t .nil)), st2)
        refine ⟨PForest.cons t fnew, ?_, ?_⟩
        · rw [hf1, PForest.append_assoc]
          rfl
        · have hst2 : st2.seenAtoms = (nonPhantomEnds t).reverse ++ acc.2.seenAtoms := by
            have := hrec ni acc.2
            rw [h2] at this
            simpa [endsOfOpt] using this
          rw [hf2, hst2, nonPhantomEndsF, List.reverse_append, List.append_assoc]

theorem parseTreeAux_ends (g : MolGraph) :
    ∀ (fuel : ℕ) (s? : Option ℕ) (e : ℕ) (st : DFSState),
      ((parseTreeAux g fuel s? e st).2).seenAtoms
        = (endsOfOpt (parseTreeAux g fuel s? e st).1).reverse ++ st.seenAtoms
  | 0, _, _, st => by simp [parseTreeAux, endsOfOpt]
  | (fuel + 1), none, e, st => by
    simp only [parseTreeAux]
    obtain ⟨fnew, hf1, hf2⟩ := foldl_childStep_ends
      (fun ni st2 => parseTreeAux_ends g fuel (some e) ni st2)
      (g.neighbors e) (.nil, { st with seenAtoms := e :: st.seenAtoms })
    rw [hf2]
    have hfnil : (PForest.nil.append fnew) = fnew := rfl
    rw [hfnil] at hf1
    rw [hf1]
    simp [endsOfOpt, nonPhantomEnds, nonPhantomEndsF]
  | (fuel + 1), some s, e, st => by
    simp only [parseTreeAux]
    split
    · simp [endsOfOpt]
    · split
      · simp [endsOfOpt, nonPhantomEnds, nonPhantomEndsF]
      · obtain ⟨fnew, hf1, hf2⟩ := foldl_childStep_ends
          (fun ni st3 => parseTreeAux_ends g fuel (some e) ni st3)
          (g.neighbors e) (.nil, ⟨e :: st.seenAtoms, (s, e) :: st.seenBonds⟩)
        rw [hf2]
        have hfnil : (PForest.nil.append fnew) = fnew := rfl
        rw [hfnil] at hf1
        rw [hf1]
        simp [endsOfOpt, nonPhantomEnds, nonPhantomEndsF]

theorem foldl_childStep_inv {rec : ℕ → DFSState → Option PTree × DFSState} {skip : Option ℕ}
    (P : DFSState → Prop) :
    ∀ (nis : List ℕ), (∀ ni ∈ nis, ∀ st, P st → P ((rec ni st).2)) →
      ∀ (acc : PForest × DFSState), P acc.2 →
        P ((nis.foldl (childStep rec skip) acc).2)
  | [], _, acc, hacc => by simpa using hacc
  | ni :: nis, hrec, acc, hacc => by
    rw [List.foldl_cons]
    refine foldl_childStep_inv P nis (fun x hx => hrec x (List.mem_cons_of_mem _ hx)) _ ?_
    rw [childStep_snd]
    by_cases h : skip = some ni
    · rwa [if_pos h]
    · rw [if_neg h]
      exact hrec ni (List.mem_cons_self _ _) acc.2 hacc

theorem parseTreeAux_nodup (g : MolGraph) :
    ∀ (fuel : ℕ) (s e : ℕ) (st : DFSState), st.seenAtoms.Nodup →
      ((parseTreeAux g fuel (some s) e st).2).seenAtoms.Nodup
  | 0, _, _, _, h => h
  | (fuel + 1), s, e, st, h => by
    simp only [parseTreeAux]
    split
    · exact h
    · split
      · exact h
      · rename_i hguard hseen
        refine foldl_childStep_inv (fun st' => st'.seenAtoms.Nodup) (g.neighbors e)
          (fun ni _ st3 h3 => parseTreeAux_nodup g fuel e ni st3 h3) _ ?_
        refine List.Nodup.cons ?_ h
        exact hseen

/-! ### Fuel accounting -/

/-- The number of graph atoms not yet seen: the fuel measure. -/
def unseen (g : MolGraph) (st : DFSState) : ℕ :=
  g.atoms.countP (fun a => !decide (a ∈ st.seenAtoms))

theorem unseen_mono (g : MolGraph) {st st' : DFSState} (h : StExt st st') :
    unseen g st' ≤ unseen g st := by
  refine List.countP_mono_left ?_
  intro a _ ha
  simp only [Bool.not_eq_true', decide_eq_false_iff_not] at ha ⊢
  intro hmem
  exact ha (h.mem_atoms hmem)

theorem countP_unseen_cons_lt {l seen : List ℕ} {e : ℕ}
    (he : e ∈ l) (hns : e ∉ seen) :
    l.countP (fun a => !decide (a ∈ e :: seen)) + 1 ≤ l.countP (fun a => !decide (a ∈ seen)) := by
  have e0 : (if (false : Bool) = true then (1 : ℕ) else 0) = 0 := by norm_num
  have e1 : (if (true : Bool) = true then (1 : ℕ) else 0) = 1 := by norm_num
  induction l with
  | nil => simp at he
  | cons a l ih =>
    rw [List.countP_cons, List.countP_cons]
    have hmono : l.countP (fun x => !decide (x ∈ e :: seen))
        ≤ l.countP (fun x => !decide (x ∈ seen)) := by
      refine List.countP_mono_left ?_
      intro x _ hx
      simp only [Bool.not_eq_true', decide_eq_false_iff_not] at hx ⊢
      intro hmem
      exact hx (List.mem_cons_of_mem _ hmem)
    by_cases hmem : a ∈ e :: seen
    · have h1 : (!decide (a ∈ e :: seen)) = false := by simp [hmem]
      rcases List.mem_cons.mp hmem with hae | hmem2
      · have h2 : (!decide (a ∈ seen)) = true := by rw [hae]; simp [hns]
        rw [h1, h2, e0, e1]
        omega
      · have h2 : (!decide (a ∈ seen)) = false := by simp [hmem2]
        have hel : e ∈ l := by
          rcases List.mem_cons.mp he with hea | h
          · rw [hea] at hns; exact absurd hmem2 hns
          · exact h
        rw [h1, h2, e0]
        have := ih hel
        omega
    · have h1 : (!decide (a ∈ e :: seen)) = true := by simp [hmem]
      have h2 : (!decide (a ∈ seen)) = true := by
        have h3 : a ∉ seen := fun hc => hmem (List.mem_cons_of_mem _ hc)
        simp [h3]
      have hel : e ∈ l := by
        rcases List.mem_cons.mp he with hea | h
        · rw [hea] at hmem; exact absurd (List.mem_cons_self _ _) hmem
        · exact h
      rw [h1, h2, e1]
      have := ih hel
      omega

theorem unseen_cons_lt (g : MolGraph) (st : DFSState) {e : ℕ} (b : List (ℕ × ℕ))
    (he : e ∈ g.atoms) (hns : e ∉ st.seenAtoms) :
    unseen g ⟨e :: st.seenAtoms, b⟩ + 1 ≤ unseen g st :=
  countP_unseen_cons_lt he hns

theorem unseen_empty (g : MolGraph) : unseen g ⟨[], []⟩ = g.atoms.length := by
  unfold unseen
  rw [List.countP_eq_length]
  intro a _
  simp

/-! ### The DFS closure argument -/

/-- Both endpoints of every seen bond have been seen as atoms. -/
def BondsINV (st : DFSState) : Prop :=
  ∀ p ∈ st.seenBonds, p.1 ∈ st.seenAtoms ∧ p.2 ∈ st.seenAtoms

theorem foldl_childStep_closure (g : MolGraph) (fuel : ℕ) (e : ℕ) (skip : Option ℕ)
    (rec : ℕ → DFSState → Option PTree × DFSState)
    (hrec_ext : ∀ ni st, StExt st ((rec ni st).2))
    (hrec_main : ∀ ni ∈ g.neighbors e, ∀ st : DFSState,
      unseen g st + 1 ≤ fuel → e ∈ st.seenAtoms → (∀ x ∈ st.seenAtoms, x ∈ g.atoms) →
      BondsINV st →
      BondsINV ((rec ni st).2) ∧ ni ∈ ((rec ni st).2).seenAtoms ∧
        (∀ x ∈ ((rec ni st).2).seenAtoms, x ∈ g.atoms) ∧
        (∀ a, a ∈ ((rec ni st).2).seenAtoms → a ∉ st.seenAtoms →
          ∀ nj ∈ g.neighbors a, nj ∈ ((rec ni st).2).seenAtoms)) :
    ∀ (l : List ℕ), (∀ x ∈ l, x ∈ g.neighbors e) →
      ∀ (acc : PForest × DFSState),
        BondsINV acc.2 → e ∈ acc.2.seenAtoms → (∀ x ∈ acc.2.seenAtoms, x ∈ g.atoms) →
        unseen g acc.2 + 1 ≤ fuel →
        BondsINV ((l.foldl (childStep rec skip) acc).2) ∧
        (∀ x ∈ ((l.foldl (childStep rec skip) acc).2).seenAtoms, x ∈ g.atoms) ∧
        (∀ ni ∈ l, skip = some ni ∨ ni ∈ ((l.foldl (childStep rec skip) acc).2).seenAtoms) ∧
        (∀ a, a ∈ ((l.foldl (childStep rec skip) acc).2).seenAtoms → a ∉ acc.2.seenAtoms →
          ∀ nj ∈ g.neighbors a, nj ∈ ((l.foldl (childStep rec skip) acc).2).seenAtoms)
  | [], _, acc, hinv, _, hsub, _ => by
    refine ⟨by simpa using hinv, by simpa using hsub, by simp, ?_⟩
    simp only [List.foldl_nil]
    intro a ha hna
    exact absurd ha hna
  | ni :: l, hl, acc, hinv, he, hsub, hfuel => by
    rw [List.foldl_cons]
    by_cases h : skip = some ni
    · rw [childStep_skip h]
      have ih := foldl_childStep_closure g fuel e skip rec hrec_ext hrec_main l
        (fun x hx => hl x (List.mem_cons_of_mem _ hx)) acc hinv he hsub hfuel
      refine ⟨ih.1, ih.2.1, ?_, ih.2.2.2⟩
      intro x hx
      rcases List.mem_cons.mp hx with rfl | hx2
      · exact Or.inl h
      · exact ih.2.2.1 x hx2
    · have hacc2 : (childStep rec skip acc ni).2 = (rec ni acc.2).2 := by
        rw [childStep_snd, if_neg h]
      have hmain := hrec_main ni (hl ni (List.mem_cons_self _ _)) acc.2 hfuel he hsub hinv
      have hext := hrec_ext ni acc.2
      have hinv2 : BondsINV (childStep rec skip acc ni).2 := by rw [hacc2]; exact hmain.1
      have he2 : e ∈ (childStep rec skip acc ni).2.seenAtoms := by
        rw [hacc2]; exact hext.mem_atoms he
      have hsub2 : ∀ x ∈ (childStep rec skip acc ni).2.seenAtoms, x ∈ g.atoms := by
        rw [hacc2]; exact hmain.2.2.1
      have hfuel2 : unseen g (childStep rec skip acc ni).2 + 1 ≤ fuel := by
        rw [hacc2]
        have := unseen_mono g hext
        omega
      have ih := foldl_childStep_closure g fuel e skip rec hrec_ext hrec_main l
        (fun x hx => hl x (List.mem_cons_of_mem _ hx)) (childStep rec skip acc ni)
        hinv2 he2 hsub2 hfuel2
      have hfoldext : StExt (childStep rec skip acc ni).2
          ((l.foldl (childStep rec skip) (childStep rec skip acc ni)).2) :=
        foldl_childStep_ext hrec_ext l _
      refine ⟨ih.1, ih.2.1, ?_, ?_⟩
      · intro x hx
        rcases List.mem_cons.mp hx with rfl | hx2
        · refine Or.inr (hfoldext.mem_atoms ?_)
          rw [hacc2]; exact hmain.2.1
        · exact ih.2.2.1 x hx2
      · intro a ha hna nj hnj
        by_cases hast : a ∈ (childStep rec skip acc ni).2.seenAtoms
        · have hast2 : a ∈ ((rec ni acc.2).2).seenAtoms := by rwa [hacc2] at hast
          have := hmain.2.2.2 a hast2 hna nj hnj
          refine hfoldext.mem_atoms ?_
          rwa [hacc2]
        · exact ih.2.2.2 a ha hast nj hnj

theorem parseTreeAux_main (g : MolGraph)
    (hclosed : ∀ a ∈ g.atoms, ∀ b ∈ g.neighbors a, b ∈ g.atoms) :
    ∀ (fuel : ℕ) (s e : ℕ) (st : DFSState),
      unseen g st + 1 ≤ fuel →
      s ∈ st.seenAtoms →
      (∀ x ∈ st.seenAtoms, x ∈ g.atoms) →
      BondsINV st →
      e ∈ g.atoms →
      BondsINV ((parseTreeAux g fuel (some s) e st).2) ∧
      e ∈ ((parseTreeAux g fuel (some s) e st).2).seenAtoms ∧
      (∀ x ∈ ((parseTreeAux g fuel (some s) e st).2).seenAtoms, x ∈ g.atoms) ∧
      (∀ a, a ∈ ((parseTreeAux g fuel (some s) e st).2).seenAtoms → a ∉ st.seenAtoms →
        ∀ nj ∈ g.neighbors a, nj ∈ ((parseTreeAux g fuel (some s) e st).2).seenAtoms)
  | 0, s, e, st, hfuel, _, _, _, _ => by omega
  | (fuel + 1), s, e, st, hfuel, hs, hsub, hinv, he => by
    simp only [parseTreeAux]
    split
    · rename_i hguard
      refine ⟨hinv, ?_, hsub, ?_⟩
      · rcases hguard with hg | hg
        · exact (hinv _ hg).2
        · exact (hinv _ hg).1
      · intro a ha hna
        exact absurd ha hna
    · rename_i hguard
      split
      · rename_i hseen
        refine ⟨?_, hseen, hsub, ?_⟩
        · intro p hp
          rcases List.mem_cons.mp hp with rfl | hp2
          · exact ⟨hs, hseen⟩
          · exact hinv p hp2
        · intro a ha hna
          exact absurd ha hna
      · rename_i hnseen
        have hEseen : e ∉ st.seenAtoms := hnseen
        have hfuel2 : unseen g (⟨e :: st.seenAtoms, (s, e) :: st.seenBonds⟩ : DFSState) + 1 ≤ fuel := by
          have h1 := unseen_cons_lt g st ((s, e) :: st.seenBonds) he hEseen
          omega
        have hinv2 : BondsINV (⟨e :: st.seenAtoms, (s, e) :: st.seenBonds⟩ : DFSState) := by
          intro p hp
          rcases List.mem_cons.mp hp with rfl | hp2
          · exact ⟨List.mem_cons_of_mem _ hs, List.mem_cons_self _ _⟩
          · exact ⟨List.mem_cons_of_mem _ (hinv p hp2).1, List.mem_cons_of_mem _ (hinv p hp2).2⟩
        have hsub2 : ∀ x ∈ (⟨e :: st.seenAtoms, (s, e) :: st.seenBonds⟩ : DFSState).seenAtoms,
            x ∈ g.atoms := by
          intro x hx
          rcases List.mem_cons.mp hx with rfl | hx2
          · exact he
          · exact hsub x hx2
        have hfold := foldl_childStep_closure g fuel e (some s)
          (fun ni st3 => parseTreeAux g fuel (some e) ni st3)
          (fun ni st3 => parseTreeAux_ext g fuel (some e) ni st3)
          (fun ni hni st3 hf3 he3 hs3 hi3 =>
            parseTreeAux_main g hclosed fuel e ni st3 hf3 he3 hs3 hi3 (hclosed e he ni hni))
          (g.neighbors e) (fun x hx => hx)
          (.nil, ⟨e :: st.seenAtoms, (s, e) :: st.seenBonds⟩)
          hinv2 (List.mem_cons_self _ _) hsub2 hfuel2
        have hfoldext : StExt (⟨e :: st.seenAtoms, (s, e) :: st.seenBonds⟩ : DFSState)
            (((g.neighbors e).foldl
              (childStep (fun ni st3 => parseTreeAux g fuel (some e) ni st3) (some s))
              (.nil, ⟨e :: st.seenAtoms, (s, e) :: st.seenBonds⟩)).2) :=
          foldl_childStep_ext (fun ni st3 => parseTreeAux_ext g fuel (some e) ni st3) _ _
        refine ⟨hfold.1, ?_, hfold.2.1, ?_⟩
        · exact hfoldext.mem_atoms (List.mem_cons_self _ _)
        · intro a ha hna nj hnj
          by_cases hae : a = e
          · subst hae
            rcases hfold.2.2.1 nj hnj with hskip | hmem
            · have hnjs : nj = s := (Option.some.inj hskip).symm
              subst hnjs
              exact hfoldext.mem_atoms (List.mem_cons_of_mem _ hs)
            · exact hmem
          · have hna2 : a ∉ (⟨e :: st.seenAtoms, (s, e) :: st.seenBonds⟩ : DFSState).seenAtoms := by
              intro hc
              rcases List.mem_cons.mp hc with rfl | hc2
              · exact hae rfl
              · exact hna hc2
            exact hfold.2.2.2 a ha hna2 nj hnj

/-! ### Phantom bonds are leaves whose end atoms were already seen -/

theorem foldl_childStep_phantoms {rec : ℕ → DFSState → Option PTree × DFSState} {skip : Option ℕ}
    (hrec_ext : ∀ ni st, StExt st ((rec ni st).2))
    (hrec_ph : ∀ ni st t, (rec ni st).1 = some t →
      PhantomsOK ((rec ni st).2).seenAtoms t) :
    ∀ (l : List ℕ) (acc : PForest × DFSState),
      PhantomsOKF acc.2.seenAtoms acc.1 →
      PhantomsOKF ((l.foldl (childStep rec skip) acc).2).seenAtoms
        ((l.foldl (childStep rec skip) acc).1)
  | [], acc, hacc => by simpa using hacc
  | ni :: l, acc, hacc => by
    rw [List.foldl_cons]
    by_cases h : skip = some ni
    · rw [childStep_skip h]
      exact foldl_childStep_phantoms hrec_ext hrec_ph l acc hacc
    · rcases h2 : rec ni acc.2 with ⟨t?, st2⟩
      cases t? with
      | none =>
        rw [childStep_drop h h2]
        refine foldl_childStep_phantoms hrec_ext hrec_ph l (acc.1, st2) ?_
        have hext : StExt acc.2 st2 := by
          have := hrec_ext ni acc.2
          rwa [h2] at this
        exact PhantomsOKF_mono (fun x hx => hext.mem_atoms hx) hacc
      | some t =>
        rw [childStep_attach h h2]
        refine foldl_childStep_phantoms hrec_ext hrec_ph l (acc.1.append (.cons t .nil), st2) ?_
        have hext : StExt acc.2 st2 := by
          have := hrec_ext ni acc.2
          rwa [h2] at this
        refine PhantomsOKF_append (PhantomsOKF_mono (fun x hx => hext.mem_atoms hx) hacc) ?_
        have hph : PhantomsOK st2.seenAtoms t := by
          have := hrec_ph ni acc.2 t
          rw [h2] at this
          exact this rfl
        exact ⟨hph, trivial⟩

theorem parseTreeAux_phantoms (g : MolGraph) :
    ∀ (fuel : ℕ) (s? : Option ℕ) (e : ℕ) (st : DFSState) (t : PTree),
      (parseTreeAux g fuel s? e st).1 = some t →
      PhantomsOK ((parseTreeAux g fuel s? e st).2).seenAtoms t
  | 0, _, _, _, _, ht => by simp [parseTreeAux] at ht
  | (fuel + 1), none, e, st, t, ht => by
    simp only [parseTreeAux] at ht ⊢
    obtain rfl := Option.some.inj ht
    rw [PhantomsOK]
    refine ⟨fun hp => by simp at hp, ?_⟩
    exact foldl_childStep_phantoms
      (fun ni st2 => parseTreeAux_ext g fuel (some e) ni st2)
      (fun ni st2 t2 h2 => parseTreeAux_phantoms g fuel (some e) ni st2 t2 h2)
      (g.neighbors e) (.nil, { st with seenAtoms := e :: st.seenAtoms }) trivial
  | (fuel + 1), some s, e, st, t, ht => by
    simp only [parseTreeAux] at ht ⊢
    split at ht
    · simp at ht
    · rename_i hguard
      split at ht
      · rename_i hseen
        obtain rfl := Option.some.inj ht
        rw [if_neg hguard, if_pos hseen]
        rw [PhantomsOK]
        exact ⟨fun _ => ⟨rfl, hseen⟩, trivial⟩
      · rename_i hnseen
        obtain rfl := Option.some.inj ht
        rw [if_neg hguard, if_neg hnseen]
        rw [PhantomsOK]
        refine ⟨fun hp => by simp at hp, ?_⟩
        exact foldl_childStep_phantoms
          (fun ni st3 => parseTreeAux_ext g fuel (some e) ni st3)
          (fun ni st3 t3 h3 => parseTreeAux_phantoms g fuel (some e) ni st3 t3 h3)
          (g.neighbors e) (.nil, ⟨e :: st.seenAtoms, (s, e) :: st.seenBonds⟩) trivial

/-! ### The top-level parseTree call -/

theorem parseTree_closure (g : MolGraph)
    (hclosed : ∀ a ∈ g.atoms, ∀ b ∈ g.neighbors a, b ∈ g.atoms)
    (entry : ℕ) (hentry : entry ∈ g.atoms) :
    entry ∈ ((parseTree g entry).2).seenAtoms ∧
    (∀ x ∈ ((parseTree g entry).2).seenAtoms, x ∈ g.atoms) ∧
    (∀ a, a ∈ ((parseTree g entry).2).seenAtoms →
      ∀ nj ∈ g.neighbors a, nj ∈ ((parseTree g entry).2).seenAtoms) := by
  unfold parseTree
  simp only [parseTreeAux]
  have hst1 : ({ (⟨[], []⟩ : DFSState) with seenAtoms := entry :: ([] : List ℕ) } : DFSState)
      = (⟨[entry], []⟩ : DFSState) := rfl
  have hfuel1 : unseen g (⟨[entry], []⟩ : DFSState) + 1 ≤ g.atoms.length := by
    have h1 : unseen g (⟨entry :: ([] : List ℕ), []⟩ : DFSState) + 1
        ≤ unseen g (⟨[], []⟩ : DFSState) :=
      unseen_cons_lt g ⟨[], []⟩ [] hentry (by simp)
    rw [unseen_empty] at h1
    exact h1
  have hinv1 : BondsINV (⟨[entry], []⟩ : DFSState) := by
    intro p hp
    simp at hp
  have hsub1 : ∀ x ∈ (⟨[entry], []⟩ : DFSState).seenAtoms, x ∈ g.atoms := by
    intro x hx
    rcases List.mem_cons.mp hx with rfl | hx2
    · exact hentry
    · simp at hx2
  have hfold := foldl_childStep_closure g g.atoms.length entry none
    (fun ni st2 => parseTreeAux g g.atoms.length (some entry) ni st2)
    (fun ni st2 => parseTreeAux_ext g g.atoms.length (some entry) ni st2)
    (fun ni hni st2 hf2 he2 hs2 hi2 =>
      parseTreeAux_main g hclosed g.atoms.length entry ni st2 hf2 he2 hs2 hi2
        (hclosed entry hentry ni hni))
    (g.neighbors entry) (fun x hx => hx)
    (.nil, ⟨[entry], []⟩) hinv1 (List.mem_cons_self _ _) hsub1 hfuel1
  have hfoldext : StExt (⟨[entry], []⟩ : DFSState)
      (((g.neighbors entry).foldl
        (childStep (fun ni st2 => parseTreeAux g g.atoms.length (some entry) ni st2) none)
        (.nil, ⟨[entry], []⟩)).2) :=
    foldl_childStep_ext (fun ni st2 => parseTreeAux_ext g g.atoms.length (some entry) ni st2) _ _
  refine ⟨hfoldext.mem_atoms (List.mem_cons_self _ _), hfold.2.1, ?_⟩
  intro a ha nj hnj
  by_cases hae : a = entry
  · subst hae
    rcases hfold.2.2.1 nj hnj with hskip | hmem
    · simp at hskip
    · exact hmem
  · have hna : a ∉ (⟨[entry], []⟩ : DFSState).seenAtoms := by
      intro hc
      rcases List.mem_cons.mp hc with rfl | hc2
      · exact hae rfl
      · simp at hc2
    exact hfold.2.2.2 a ha hna nj hnj

theorem parseTree_nodup (g : MolGraph) (entry : ℕ) :
    ((parseTree g entry).2).seenAtoms.Nodup := by
  unfold parseTree
  simp only [parseTreeAux]
  refine foldl_childStep_inv (fun st' => st'.seenAtoms.Nodup) (g.neighbors entry)
    (fun ni _ st2 h2 => parseTreeAux_nodup g g.atoms.length entry ni st2 h2) _ ?_
  simp

/-- C2: for a connected molecule, the tree built by parseTree contains
every atom exactly once as the end atom of a non-phantom bond (the list
of non-phantom end atoms has no duplicates and coincides with the atom
set), and every ring-closure (phantom) bond is a leaf whose end atom is
one of those already-placed atoms. -/
theorem c2_tree_completeness (g : MolGraph) (entry : ℕ)
    (hclosed : ∀ a ∈ g.atoms, ∀ b ∈ g.neighbors a, b ∈ g.atoms)
    (hentry : entry ∈ g.atoms)
    (hconn : ∀ a ∈ g.atoms, Relation.ReflTransGen (fun x y => y ∈ g.neighbors x) entry a) :
    ∃ t, (parseTree g entry).1 = some t ∧
      (nonPhantomEnds t).Nodup ∧
      (∀ a, a ∈ nonPhantomEnds t ↔ a ∈ g.atoms) ∧
      PhantomsOK (nonPhantomEnds t) t := by
  have hPT : parseTree g entry = parseTreeAux g (g.atoms.length + 1) none entry ⟨[], []⟩ := rfl
  obtain ⟨t, ht⟩ : ∃ t, (parseTree g entry).1 = some t := by
    rw [hPT]
    simp only [parseTreeAux]
    exact ⟨_, rfl⟩
  have hends := parseTreeAux_ends g (g.atoms.length + 1) none entry ⟨[], []⟩
  rw [← hPT, ht] at hends
  have hmemiff : ∀ a, a ∈ ((parseTree g entry).2).seenAtoms ↔ a ∈ nonPhantomEnds t := by
    intro a
    rw [hends]
    simp [endsOfOpt]
  have hclo := parseTree_closure g hclosed entry hentry
  have hnodup := parseTree_nodup g entry
  have hreach : ∀ a, Relation.ReflTransGen (fun x y => y ∈ g.neighbors x) entry a →
      a ∈ ((parseTree g entry).2).seenAtoms := by
    intro a h
    induction h with
    | refl => exact hclo.1
    | tail hpre hstep ih => exact hclo.2.2 _ ih _ hstep
  refine ⟨t, ht, ?_, ?_, ?_⟩
  · have : ((parseTree g entry).2).seenAtoms.Nodup := hnodup
    rw [hends] at this
    simp only [endsOfOpt] at this
    rw [List.append_nil] at this
    exact List.nodup_reverse.mp this
  · intro a
    constructor
    · intro ha
      exact hclo.2.1 a ((hmemiff a).mpr ha)
    · intro ha
      exact (hmemiff a).mp (hreach a (hconn a ha))
  · have hph := parseTreeAux_phantoms g (g.atoms.length + 1) none entry ⟨[], []⟩ t
    rw [← hPT] at hph
    have := hph ht
    exact PhantomsOK_mono (fun x hx => (hmemiff x).mp hx) this

/-- A four-atom molecule with bonds 1-2, 2-3, 2-4, 3-1 (0-based indices
0-1, 1-2, 1-3, 2-0): a triangle with one extra branch, connected. -/
def houseGraph : MolGraph :=
  { atoms := [0, 1, 2, 3]
    neighbors := fun i =>
      if i = 0 then [1, 2] else if i = 1 then [0, 2, 3]
      else if i = 2 then [1, 0] else if i = 3 then [1] else [] }

/-- C2 witness: the house molecule is connected from entry atom 0 and the
theorem applies to it. -/
theorem c2_tree_completeness_witness :
    (∀ a ∈ houseGraph.atoms, ∀ b ∈ houseGraph.neighbors a, b ∈ houseGraph.atoms) ∧
    (0 ∈ houseGraph.atoms) ∧
    (∃ t, (parseTree houseGraph 0).1 = some t ∧
      (nonPhantomEnds t).Nodup ∧
      (∀ a, a ∈ nonPhantomEnds t ↔ a ∈ houseGraph.atoms) ∧
      PhantomsOK (nonPhantomEnds t) t) := by
  have hclosed : ∀ a ∈ houseGraph.atoms, ∀ b ∈ houseGraph.neighbors a, b ∈ houseGraph.atoms := by
    decide
  have hentry : 0 ∈ houseGraph.atoms := by decide
  have hstep1 : Relation.ReflTransGen (fun x y => y ∈ houseGraph.neighbors x) 0 1 :=
    Relation.ReflTransGen.single (by decide)
  have hstep2 : Relation.ReflTransGen (fun x y => y ∈ houseGraph.neighbors x) 0 2 :=
    Relation.ReflTransGen.single (by decide)
  have hstep3 : Relation.ReflTransGen (fun x y => y ∈ houseGraph.neighbors x) 0 3 :=
    Relation.ReflTransGen.tail hstep1 (by decide)
  have hconn : ∀ a ∈ houseGraph.atoms,
      Relation.ReflTransGen (fun x y => y ∈ houseGraph.neighbors x) 0 a := by
    intro a ha
    have ha4 : a = 0 ∨ a = 1 ∨ a = 2 ∨ a = 3 := by
      simpa [houseGraph] using ha
    rcases ha4 with rfl | rfl | rfl | rfl
    · exact Relation.ReflTransGen.refl
    · exact hstep1
    · exact hstep2
    · exact hstep3
  exact ⟨hclosed, hentry, c2_tree_completeness houseGraph 0 hclosed hentry hconn⟩

/-! ## Molecule.default_exit_bond

treebonds walks the tree in preorder (root excluded); default_exit_bond
scores each non-phantom bond with (distance from the entry atom along the
parent chain, number of descendants, bond).  Walking the parent chain
until the end atom is the entry atom counts exactly the tree depth of the
bond, so the scores are built here with a depth accumulator.  Python
list.sort with key el[0] is a stable sort on the distance alone, and
scored[-1][-1] takes the bond of the last entry. -/

mutual
def scoredT (d : ℕ) : PTree → List (ℕ × ℕ × PTree)
  | .node s e ph cs =>
    (if ph then [] else [(d, cs.len, .node s e ph cs)]) ++ scoredF (d + 1) cs
def scoredF (d : ℕ) : PForest → List (ℕ × ℕ × PTree)
  | .nil => []
  | .cons t f => scoredT d t ++ scoredF d f
end

/-- The scored list of Molecule.default_exit_bond: all non-phantom bonds
of the tree except the dummy root, in preorder. -/
def moleculeScored : PTree → List (ℕ × ℕ × PTree)
  | .node _ _ _ cs => scoredF 1 cs

/-- The scored list after Python list.sort(key = el[0]): a stable merge
sort comparing distances only. -/
def scored_sorted (t : PTree) : List (ℕ × ℕ × PTree) :=
  (moleculeScored t).mergeSort (fun a b => decide (a.1 ≤ b.1))

/-- Molecule.default_exit_bond: the bond component of scored[-1]. -/
def default_exit_bond (t : PTree) : Option PTree :=
  (scored_sorted t).getLast?.map (fun el => el.2.2)

/-- Scanning a list while keeping the latest element whose key is at
least the running maximum: the element the stable sort puts last. -/
def pickLastMax {α : Type} (key : α → ℕ) (c : α) : List α → α
  | [] => c
  | x :: t => pickLastMax key (if key c ≤ key x then x else c) t

theorem pickLastMax_dominated {α : Type} (key : α → ℕ) :
    ∀ (l : List α) (c : α), (∀ x ∈ l, key x < key c) → pickLastMax key c l = c
  | [], _, _ => rfl
  | x :: t, c, h => by
    rw [pickLastMax, if_neg (by have := h x (List.mem_cons_self _ _); omega)]
    exact pickLastMax_dominated key t c (fun y hy => h y (List.mem_cons_of_mem _ hy))

theorem pickLastMax_seed_irrel {α : Type} (key : α → ℕ) :
    ∀ (l : List α) (c1 c2 : α),
      (∃ z ∈ l, key c1 ≤ key z) → (∃ z ∈ l, key c2 ≤ key z) →
      pickLastMax key c1 l = pickLastMax key c2 l
  | [], _, _, h1, _ => by simp at h1
  | x :: t, c1, c2, h1, h2 => by
    rw [pickLastMax, pickLastMax]
    by_cases hx1 : key c1 ≤ key x
    · by_cases hx2 : key c2 ≤ key x
      · rw [if_pos hx1, if_pos hx2]
      · rw [if_pos hx1, if_neg hx2]
        obtain ⟨z, hz, hzk⟩ := h2
        have hzx : z ≠ x := fun hc => by rw [hc] at hzk; omega
        have hzt : z ∈ t := by
          rcases List.mem_cons.mp hz with hc | hc
          · exact absurd hc hzx
          · exact hc
        exact pickLastMax_seed_irrel key t x c2 ⟨z, hzt, by omega⟩ ⟨z, hzt, hzk⟩
    · by_cases hx2 : key c2 ≤ key x
      · rw [if_neg hx1, if_pos hx2]
        obtain ⟨z, hz, hzk⟩ := h1
        have hzx : z ≠ x := fun hc => by rw [hc] at hzk; omega
        have hzt : z ∈ t := by
          rcases List.mem_cons.mp hz with hc | hc
          · exact absurd hc hzx
          · exact hc
        exact pickLastMax_seed_irrel key t c1 x ⟨z, hzt, hzk⟩ ⟨z, hzt, by omega⟩
      · rw [if_neg hx1, if_neg hx2]
        obtain ⟨z1, hz1, hzk1⟩ := h1
        obtain ⟨z2, hz2, hzk2⟩ := h2
        have hz1t : z1 ∈ t := by
          rcases List.mem_cons.mp hz1 with hc | hc
          · rw [hc] at hzk1; omega
          · exact hc
        have hz2t : z2 ∈ t := by
          rcases List.mem_cons.mp hz2 with hc | hc
          · rw [hc] at hzk2; omega
          · exact hc
        exact pickLastMax_seed_irrel key t c1 c2 ⟨z1, hz1t, hzk1⟩ ⟨z2, hz2t, hzk2⟩

theorem pickLastMax_mem {α : Type} (key : α → ℕ) :
    ∀ (l : List α) (c : α), pickLastMax key c l ∈ c :: l
  | [], c => List.mem_cons_self _ _
  | x :: t, c => by
    rw [pickLastMax]
    by_cases hx : key c ≤ key x
    · rw [if_pos hx]
      have := pickLastMax_mem key t x
      rcases List.mem_cons.mp this with h | h
      · rw [h]; exact List.mem_cons_of_mem _ (List.mem_cons_self _ _)
      · exact List.mem_cons_of_mem _ (List.mem_cons_of_mem _ h)
    · rw [if_neg hx]
      have := pickLastMax_mem key t c
      rcases List.mem_cons.mp this with h | h
      · rw [h]; exact List.mem_cons_self _ _
      · exact List.mem_cons_of_mem _ (List.mem_cons_of_mem _ h)

theorem pickLastMax_max {α : Type} (key : α → ℕ) :
    ∀ (l : List α) (c : α) (x : α), x ∈ c :: l → key x ≤ key (pickLastMax key c l)
  | [], c, x, hx => by
    rcases List.mem_cons.mp hx with he | h
    · rw [he, pickLastMax]
    · simp at h
  | y :: t, c, x, hx => by
    rw [pickLastMax]
    have hcy : key c ≤ key (if key c ≤ key y then y else c) := by
      split <;> omega
    have hyy : key y ≤ key (if key c ≤ key y then y else c) := by
      split <;> omega
    have hseed : key (if key c ≤ key y then y else c)
        ≤ key (pickLastMax key (if key c ≤ key y then y else c) t) :=
      pickLastMax_max key t _ _ (List.mem_cons_self _ _)
    rcases List.mem_cons.mp hx with he | h
    · rw [he]; omega
    · rcases List.mem_cons.mp h with he2 | h2
      · rw [he2]; omega
      · exact pickLastMax_max key t _ x (List.mem_cons_of_mem _ h2)

theorem key_le_trans {α : Type} (key : α → ℕ) :
    ∀ (a b c : α), (fun u v => decide (key u ≤ key v)) a b →
      (fun u v => decide (key u ≤ key v)) b c → (fun u v => decide (key u ≤ key v)) a c := by
  intro a b c hab hbc
  simp only [decide_eq_true_eq] at hab hbc ⊢
  omega

theorem key_le_total {α : Type} (key : α → ℕ) :
    ∀ (a b : α), (fun u v => decide (key u ≤ key v)) a b
      || (fun u v => decide (key u ≤ key v)) b a := by
  intro a b
  simp only [Bool.or_eq_true, decide_eq_true_eq]
  omega

/-- The last element of the stable sort by key alone is the last
occurrence of the running maximum in the original order. -/
theorem mergeSort_getLast_eq_pickLastMax {α : Type} (key : α → ℕ) :
    ∀ (l : List α) (a : α),
      ((a :: l).mergeSort (fun u v => decide (key u ≤ key v))).getLast?
        = some (pickLastMax key a l)
  | [], a => by simp [List.mergeSort_singleton, pickLastMax]
  | b :: l, a => by
    obtain ⟨l₁, l₂, h₁, h₂, h₃⟩ :=
      List.mergeSort_cons (key_le_trans key) (key_le_total key) a (b :: l)
    rcases l₂ with _ | ⟨z, l₂'⟩
    · rw [h₁]
      have hlast : (l₁ ++ [a]).getLast? = some a := by
        simp [List.getLast?_append]
      rw [hlast]
      have hdom : ∀ x ∈ b :: l, key x < key a := by
        intro x hx
        have hx2 : x ∈ List.mergeSort (b :: l) (fun u v => decide (key u ≤ key v)) :=
          List.mem_mergeSort.mpr hx
        rw [h₂, List.append_nil] at hx2
        have := h₃ x hx2
        simp only [Bool.not_eq_true', decide_eq_false_iff_not] at this
        omega
      rw [pickLastMax, if_neg (by have := hdom b (List.mem_cons_self _ _); omega),
        pickLastMax_dominated key l a
          (fun y hy => hdom y (List.mem_cons_of_mem _ hy))]
    · have hzmem : z ∈ b :: l := by
        have hz2 : z ∈ List.mergeSort (b :: l) (fun u v => decide (key u ≤ key v)) := by
          rw [h₂]
          exact List.mem_append_right _ (List.mem_cons_self _ _)
        exact List.mem_mergeSort.mp hz2
      have haz : key a ≤ key z := by
        have hs := List.sorted_mergeSort (key_le_trans key) (key_le_total key) (a :: b :: l)
        rw [h₁] at hs
        have hs2 := (List.pairwise_append.mp hs).2.1
        have := List.rel_of_pairwise_cons hs2 (List.mem_cons_self _ _)
        simpa using this
      have hLHS : ((a :: b :: l).mergeSort (fun u v => decide (key u ≤ key v))).getLast?
          = ((b :: l).mergeSort (fun u v => decide (key u ≤ key v))).getLast? := by
        rw [h₁, h₂, List.getLast?_append_cons, List.getLast?_cons_cons,
          List.getLast?_append_cons]
      rw [hLHS, mergeSort_getLast_eq_pickLastMax key l b]
      rw [pickLastMax]
      by_cases hab : key a ≤ key b
      · rw [if_pos hab]
      · rw [if_neg hab]
        have hzb : z ∈ l := by
          rcases List.mem_cons.mp hzmem with he | h
          · rw [he] at haz; omega
          · exact h
        rw [pickLastMax_seed_irrel key l a b ⟨z, hzb, haz⟩ ⟨z, hzb, by omega⟩]

/-- The tree parseTree builds for the house molecule with entry atom 0. -/
def houseTree : PTree := (parseTree houseGraph 0).1.getD (.node none 0 false .nil)

/-- The tree bond 1-2 of the house molecule (depth 2, one phantom
descendant closing the ring). -/
def houseBond12 : PTree :=
  .node (some 1) 2 false (.cons (.node (some 2) 0 true .nil) .nil)

/-- The tree bond 1-3 of the house molecule (depth 2, no descendants). -/
def houseBond13 : PTree := .node (some 1) 3 false .nil

/-- The claim of C3, as stated: the returned bond maximizes the pair
(depth from the entry atom, number of descendants) lexicographically over
all non-phantom tree bonds. -/
def claimC3At (t : PTree) : Prop :=
  ∃ r ∈ moleculeScored t, default_exit_bond t = some r.2.2 ∧
    ∀ x ∈ moleculeScored t, x.1 < r.1 ∨ (x.1 = r.1 ∧ x.2.1 ≤ r.2.1)

theorem houseScored : moleculeScored houseTree =
    [(1, 2, .node (some 0) 1 false (.cons houseBond12 (.cons houseBond13 .nil))),
     (2, 1, houseBond12), (2, 0, houseBond13)] := rfl

/-- C3 counterexample: in the house molecule (bonds 1-2, 2-3, 2-4, 3-1,
entry atom 1), bonds 2-3 and 2-4 both have depth 2; bond 2-3 has one
descendant and bond 2-4 none, yet default_exit_bond returns bond 2-4:
the sort key is the depth alone, so the descendant count is never a
tiebreak; the stable sort leaves the later tree bond last. -/
theorem c3_counterexample : ¬ claimC3At houseTree := by
  have hsorted : scored_sorted houseTree = moleculeScored houseTree :=
    List.mergeSort_of_sorted (by rw [houseScored]; decide)
  have hdef : default_exit_bond houseTree = some houseBond13 := by
    rw [default_exit_bond, hsorted, houseScored]
    rfl
  rintro ⟨r, hrmem, hrdef, hrmax⟩
  rw [hdef] at hrdef
  have hr : r.2.2 = houseBond13 := (Option.some.inj hrdef).symm
  rw [houseScored] at hrmem
  have hrval : r = (2, 0, houseBond13) := by
    rcases List.mem_cons.mp hrmem with he | hrmem2
    · rw [he] at hr; exact absurd hr (by decide)
    · rcases List.mem_cons.mp hrmem2 with he | hrmem3
      · rw [he] at hr; exact absurd hr (by decide)
      · rcases List.mem_cons.mp hrmem3 with he | h
        · exact he
        · simp at h
  have := hrmax (2, 1, houseBond12) (by rw [houseScored]; simp)
  rw [hrval] at this
  simp at this

/-- C3 amended: default_exit_bond returns the bond of a scored entry of
maximal depth from the entry atom; among entries of equal maximal depth
the one occurring last in tree preorder wins (Python sorts stably on the
depth alone), and the descendant count is not used as a tiebreak. -/
theorem c3_amended (t : PTree) (hd : ℕ × ℕ × PTree) (tl : List (ℕ × ℕ × PTree))
    (h : moleculeScored t = hd :: tl) :
    default_exit_bond t = some (pickLastMax (fun el => el.1) hd tl).2.2 ∧
    (pickLastMax (fun el => el.1) hd tl) ∈ moleculeScored t ∧
    (∀ x ∈ moleculeScored t, x.1 ≤ (pickLastMax (fun el => el.1) hd tl).1) := by
  have hlast := mergeSort_getLast_eq_pickLastMax (fun el : ℕ × ℕ × PTree => el.1) tl hd
  refine ⟨?_, ?_, ?_⟩
  · rw [default_exit_bond, scored_sorted, h, hlast]
    rfl
  · rw [h]
    exact pickLastMax_mem _ tl hd
  · intro x hx
    rw [h] at hx
    exact pickLastMax_max _ tl hd x hx

/-- C3 amended witness: the amended statement applied to the concrete
house molecule. -/
theorem c3_amended_witness :
    moleculeScored houseTree =
      (1, 2, .node (some 0) 1 false (.cons houseBond12 (.cons houseBond13 .nil)))
        :: [(2, 1, houseBond12), (2, 0, houseBond13)] ∧
    (default_exit_bond houseTree = some (pickLastMax (fun el => el.1)
      (1, 2, .node (some 0) 1 false (.cons houseBond12 (.cons houseBond13 .nil)))
      [(2, 1, houseBond12), (2, 0, houseBond13)]).2.2 ∧
    (pickLastMax (fun el => el.1)
      (1, 2, .node (some 0) 1 false (.cons houseBond12 (.cons houseBond13 .nil)))
      [(2, 1, houseBond12), (2, 0, houseBond13)]) ∈ moleculeScored houseTree ∧
    (∀ x ∈ moleculeScored houseTree, x.1 ≤ (pickLastMax (fun el => el.1)
      (1, 2, .node (some 0) 1 false (.cons houseBond12 (.cons houseBond13 .nil)))
      [(2, 1, houseBond12), (2, 0, houseBond13)]).1)) :=
  ⟨houseScored, c3_amended houseTree _ _ houseScored⟩

/-! ## User options and Molecule.pickFirstLastAtoms -/

/-- The subset of the user option dictionary that the verified code
reads.  entry_atom and exit_atom are 1-based atom numbers or None. -/
structure Options where
  rotate : ℝ := 0
  flip_horizontal : Bool := false
  flip_vertical : Bool := false
  aromatic_circles : Bool := false
  fancy_bonds : Bool := false
  entry_atom : Option ℤ := none
  exit_atom : Option ℤ := none
  cross_bond : List (ℤ × ℤ) := []
  markers : Bool := false

/-- Python self.atoms.get(k): the atoms dict keyed by 0-based index. -/
def dictGetAtom (atoms : List Atom) (k : ℤ) : Option Atom :=
  atoms.find? (fun a => decide ((a.idx : ℤ) = k))

/-- The entry half of Molecule.pickFirstLastAtoms: resolve the 1-based
user entry atom number, or default to the first atom of the list sorted
stably by neighbor count. -/
def pickEntryAtom (options : Options) (atoms : List Atom) : Except PyError Atom :=
  match options.entry_atom with
  | some n =>
    match dictGetAtom atoms (n - 1) with
    | none => .error .mcfInvalidEntryAtom
    | some a => .ok a
  | none =>
    match atoms.mergeSort (fun a b => decide (a.neighbors.length ≤ b.neighbors.length)) with
    | [] => .error .indexError
    | a :: _ => .ok a

/-- The exit half of Molecule.pickFirstLastAtoms. -/
def pickExitAtom (options : Options) (atoms : List Atom) : Except PyError (Option Atom) :=
  match options.exit_atom with
  | some n =>
    match dictGetAtom atoms (n - 1) with
    | none => .error .mcfInvalidExitAtom
    | some a => .ok (some a)
  | none => .ok none

/-- Molecule.pickFirstLastAtoms: entry resolution runs first, then exit
resolution; either failure raises MCFError. -/
def pickFirstLastAtoms (options : Options) (atoms : List Atom) :
    Except PyError (Atom × Option Atom) := do
  let entry_atom ← pickEntryAtom options atoms
  let exit_atom ← pickExitAtom options atoms
  return (entry_atom, exit_atom)

/-- The neighbor graph of the molecule, as read by parseTree. -/
def graphOfAtoms (atoms : List Atom) : MolGraph :=
  { atoms := atoms.map (fun a => a.idx)
    neighbors := fun i =>
      ((atoms.find? (fun a => decide (a.idx = i))).map (fun a => a.neighbors)).getD [] }

/-- The prefix of Molecule construction relevant to entry and exit atom
validation: pickFirstLastAtoms runs first, and only on success does the
tree construction (and hence any rendering) take place. -/
def moleculeTreeStage (options : Options) (atoms : List Atom) :
    Except PyError (Atom × Option Atom × PTree) := do
  let (entry_atom, exit_atom) ← pickFirstLastAtoms options atoms
  match (parseTree (graphOfAtoms atoms) entry_atom.idx).1 with
  | some t => return (entry_atom, exit_atom, t)
  | none => Except.error PyError.indexError

theorem except_bind_error {α β : Type} (e : PyError) (f : α → Except PyError β) :
    (Except.error e >>= f) = Except.error e := rfl

theorem except_bind_ok {α β : Type} (a : α) (f : α → Except PyError β) :
    (Except.ok a >>= f) = f a := rfl

theorem pickEntryAtom_of_some {options : Options} (atoms : List Atom) {n : ℤ}
    (hn : options.entry_atom = some n) :
    pickEntryAtom options atoms =
      (match dictGetAtom atoms (n - 1) with
       | none => .error .mcfInvalidEntryAtom
       | some a => .ok a) := by
  unfold pickEntryAtom
  rw [hn]

theorem pickEntryAtom_of_none {options : Options} (atoms : List Atom)
    (hn : options.entry_atom = none) :
    pickEntryAtom options atoms =
      (match atoms.mergeSort (fun a b => decide (a.neighbors.length ≤ b.neighbors.length)) with
       | [] => .error .indexError
       | a :: _ => .ok a) := by
  unfold pickEntryAtom
  rw [hn]

theorem pickExitAtom_of_some {options : Options} (atoms : List Atom) {n : ℤ}
    (hn : options.exit_atom = some n) :
    pickExitAtom options atoms =
      (match dictGetAtom atoms (n - 1) with
       | none => .error .mcfInvalidExitAtom
       | some a => .ok (some a)) := by
  unfold pickExitAtom
  rw [hn]

theorem pickFirstLastAtoms_eq (options : Options) (atoms : List Atom) :
    pickFirstLastAtoms options atoms =
      (pickEntryAtom options atoms >>= fun entry_atom =>
        pickExitAtom options atoms >>= fun exit_atom =>
          Except.ok (entry_atom, exit_atom)) := rfl

theorem moleculeTreeStage_eq (options : Options) (atoms : List Atom) :
    moleculeTreeStage options atoms =
      (pickFirstLastAtoms options atoms >>= fun p =>
        match (parseTree (graphOfAtoms atoms) p.1.idx).1 with
        | some t => Except.ok (p.1, p.2, t)
        | none => Except.error PyError.indexError) := rfl

theorem dictGetAtom_none_of_out_of_range {atoms : List Atom} {N : ℕ}
    (hkeys : atoms.map (fun a => a.idx) = List.range N) {n : ℤ}
    (hbad : n < 1 ∨ n > N) : dictGetAtom atoms (n - 1) = none := by
  rw [dictGetAtom, List.find?_eq_none]
  intro a ha
  simp only [decide_eq_true_eq]
  intro hc
  have hidx : a.idx ∈ List.range N := by
    rw [← hkeys]
    exact List.mem_map_of_mem _ ha
  have hlt : a.idx < N := List.mem_range.mp hidx
  omega

theorem dictGetAtom_some_of_in_range {atoms : List Atom} {N : ℕ}
    (hkeys : atoms.map (fun a => a.idx) = List.range N) {n : ℤ}
    (hgood : 1 ≤ n ∧ n ≤ N) : ∃ a, dictGetAtom atoms (n - 1) = some a := by
  have hmem : (n - 1).toNat ∈ List.range N := by
    rw [List.mem_range]
    omega
  rw [← hkeys] at hmem
  obtain ⟨a, ha, hai⟩ := List.mem_map.mp hmem
  have hsome : (dictGetAtom atoms (n - 1)).isSome := by
    rw [dictGetAtom, List.find?_isSome]
    refine ⟨a, ha, ?_⟩
    simp only [decide_eq_true_eq]
    omega
  obtain ⟨a2, ha2⟩ := Option.isSome_iff_exists.mp hsome
  exact ⟨a2, ha2⟩

/-- C9: if the user-specified entry atom number, or (with a resolvable
entry atom) the user-specified exit atom number, lies outside 1..N, then
Molecule construction fails with the corresponding MCFError already in
pickFirstLastAtoms, before any tree is built, and the construction
pipeline produces no result. -/
theorem c9_invalid_entry_exit (options : Options) (atoms : List Atom) (N : ℕ)
    (hkeys : atoms.map (fun a => a.idx) = List.range N)
    (hbad : (∃ n : ℤ, options.entry_atom = some n ∧ (n < 1 ∨ n > N)) ∨
      (((options.entry_atom = none ∧ 0 < N) ∨
        (∃ k : ℤ, options.entry_atom = some k ∧ 1 ≤ k ∧ k ≤ N)) ∧
       (∃ m : ℤ, options.exit_atom = some m ∧ (m < 1 ∨ m > N)))) :
    ∃ e, pickFirstLastAtoms options atoms = .error e ∧
      moleculeTreeStage options atoms = .error e ∧
      (e = PyError.mcfInvalidEntryAtom ∨ e = PyError.mcfInvalidExitAtom) := by
  rcases hbad with ⟨n, hn, hout⟩ | ⟨hentry, m, hm, hout⟩
  · have hentryerr : pickEntryAtom options atoms = .error .mcfInvalidEntryAtom := by
      rw [pickEntryAtom_of_some atoms hn, dictGetAtom_none_of_out_of_range hkeys hout]
    refine ⟨PyError.mcfInvalidEntryAtom, ?_, ?_, Or.inl rfl⟩
    · rw [pickFirstLastAtoms_eq, hentryerr, except_bind_error]
    · rw [moleculeTreeStage_eq, pickFirstLastAtoms_eq, hentryerr, except_bind_error,
        except_bind_error]
  · have hexiterr : pickExitAtom options atoms = .error PyError.mcfInvalidExitAtom := by
      rw [pickExitAtom_of_some atoms hm, dictGetAtom_none_of_out_of_range hkeys hout]
    have hentryok : ∃ a, pickEntryAtom options atoms = .ok a := by
      rcases hentry with ⟨hnone, hN⟩ | ⟨k, hk, hk1, hk2⟩
      · have hlen : atoms.length = N := by
          have := congrArg List.length hkeys
          simpa using this
        have hms : (atoms.mergeSort
            (fun a b => decide (a.neighbors.length ≤ b.neighbors.length))).length = N := by
          rw [List.length_mergeSort, hlen]
        rcases hsorted : atoms.mergeSort
            (fun a b => decide (a.neighbors.length ≤ b.neighbors.length)) with _ | ⟨a, rest⟩
        · rw [hsorted] at hms
          simp at hms
          omega
        · refine ⟨a, ?_⟩
          rw [pickEntryAtom_of_none atoms hnone, hsorted]
      · obtain ⟨a, ha⟩ := dictGetAtom_some_of_in_range hkeys ⟨hk1, hk2⟩
        refine ⟨a, ?_⟩
        rw [pickEntryAtom_of_some atoms hk, ha]
    obtain ⟨a, ha⟩ := hentryok
    refine ⟨PyError.mcfInvalidExitAtom, ?_, ?_, Or.inr rfl⟩
    · rw [pickFirstLastAtoms_eq, ha, except_bind_ok, hexiterr, except_bind_error]
    · rw [moleculeTreeStage_eq, pickFirstLastAtoms_eq, ha, except_bind_ok, hexiterr,
        except_bind_error, except_bind_error]

/-- Two concrete atoms with indices 0 and 1 standing one unit apart. -/
def twoAtoms : List Atom :=
  [{ idx := 0, x := 0, y := 0, neighbors := [1], bond_angles := [0] },
   { idx := 1, x := 1, y := 0, neighbors := [0], bond_angles := [180] }]

/-- C9 witness: asking for entry atom 5 of a two-atom molecule fails with
the invalid-entry MCFError before tree construction. -/
theorem c9_invalid_entry_exit_witness :
    (twoAtoms.map (fun a => a.idx) = List.range 2) ∧
    ∃ e, pickFirstLastAtoms { entry_atom := some 5 } twoAtoms = .error e ∧
      moleculeTreeStage { entry_atom := some 5 } twoAtoms = .error e ∧
      (e = PyError.mcfInvalidEntryAtom ∨ e = PyError.mcfInvalidExitAtom) := by
  have hkeys : twoAtoms.map (fun a => a.idx) = List.range 2 := by
    rfl
  exact ⟨hkeys, c9_invalid_entry_exit { entry_atom := some 5 } twoAtoms 2 hkeys
    (Or.inl ⟨5, rfl, by norm_num⟩)⟩

/-! ## Bond.set_cross and its angle-neighborhood queries -/

/-- Bond.cotan100: one hundred times the cotangent of an angle in
degrees, rounded.  Python raises ZeroDivisionError when the tangent is
exactly zero. -/
noncomputable def cotan100 (angle : ℝ) : Except PyError ℤ :=
  let t := Real.tan (angle * Real.pi / 180)
  if t = 0 then .error .zeroDivisionError
  else .ok (pyRound (100 / t))

/-- Bond._adjoining_angles: the narrowest angles on either side among the
other bonds attached to the given atom.  Returns (None, None) when no
other bonds attach; raises ValueError when the reference angle is missing
from the atom's angle list (list.remove).  The final int(round(.)) calls
of the source are identities on the already-rounded integers. -/
noncomputable def adjoining_angles (b : Bond) (atom : Atom) (inversion_angle : ℝ) :
    Except PyError (Option ℤ × Option ℤ) :=
  let raw_angles := atom.bond_angles.map (fun a => pyRound a % 360)
  let reference_angle := pyRound (b.angle - inversion_angle) % 360
  if reference_angle ∈ raw_angles then
    let raw2 := raw_angles.erase reference_angle
    if raw2 = [] then .ok (none, none)
    else
      let angles := (raw2.map (fun a => (a - reference_angle) % 360)).mergeSort
        (fun x y => decide (x ≤ y))
      .ok (some angles.headI, some (angles.getLast?.getD 0))
  else .error .valueError

/-- Bond.upstream_angles, as the pair (left, right). -/
noncomputable def upstream_angles (b : Bond) : Except PyError (Option ℤ × Option ℤ) := do
  let p ← adjoining_angles b b.start_atom 0
  return (p.1, p.2.map (fun x => 360 - x))

/-- Bond.downstream_angles, as the pair (left, right). -/
noncomputable def downstream_angles (b : Bond) : Except PyError (Option ℤ × Option ℤ) := do
  let p ← adjoining_angles b b.end_atom 180
  return (p.2.map (fun x => 360 - x), p.1)

/-- Python min over the two values of the angle dictionary: min raises
TypeError as soon as a None is involved. -/
def pyMinPair (p : Option ℤ × Option ℤ) : Except PyError ℤ :=
  match p with
  | (some a, some b) => .ok (min a b)
  | _ => .error .typeError

/-- Python dict update for one key of tikz_values. -/
def dictUpdate (d : List (TikzKey × ℤ)) (k : TikzKey) (v : ℤ) : List (TikzKey × ℤ) :=
  if d.any (fun p => decide (p.1 = k)) then d.map (fun p => if p.1 = k then (k, v) else p)
  else d ++ [(k, v)]

/-- Python set.add for tikz_styles. -/
def addStyle (s : TikzStyle) (styles : List TikzStyle) : List TikzStyle :=
  if s ∈ styles then styles else s :: styles

/-- Bond.set_cross: mark the bond as a crossing stroke, computing the
background gap lengths from the narrowest adjoining angles. -/
noncomputable def set_cross (b : Bond) (last : Bool) : Except PyError Bond := do
  let start_angles ← upstream_angles b
  let end_angles ← downstream_angles b
  let start_angle ← pyMinPair start_angles
  let c1 ← cotan100 (start_angle : ℝ)
  let start := max 10 c1
  let end_angle ← pyMinPair end_angles
  let c2 ← cotan100 (end_angle : ℝ)
  let endv := max 10 c2
  return { b with
    tikz_styles := addStyle .cross b.tikz_styles
    tikz_values := dictUpdate (dictUpdate b.tikz_values .bgstart start) .bgend endv
    is_last := last }

/-! ## C10: the implicit precondition of set_cross -/

/-- The reference angle of the upstream side (inversion 0). -/
noncomputable def startRef (b : Bond) : ℤ := pyRound (b.angle - 0) % 360

/-- The reference angle of the downstream side (inversion 180). -/
noncomputable def endRef (b : Bond) : ℤ := pyRound (b.angle - 180) % 360

/-- The rounded angle list of the start atom. -/
noncomputable def startRawAngles (b : Bond) : List ℤ :=
  b.start_atom.bond_angles.map (fun a => pyRound a % 360)

/-- The rounded angle list of the end atom. -/
noncomputable def endRawAngles (b : Bond) : List ℤ :=
  b.end_atom.bond_angles.map (fun a => pyRound a % 360)

/-- The other bonds at the start atom (after removing this bond's own
reference angle). -/
noncomputable def startOthers (b : Bond) : List ℤ := (startRawAngles b).erase (startRef b)

/-- The other bonds at the end atom. -/
noncomputable def endOthers (b : Bond) : List ℤ := (endRawAngles b).erase (endRef b)

theorem adjoining_angles_start_eq (b : Bond) (hmem : startRef b ∈ startRawAngles b) :
    adjoining_angles b b.start_atom 0 =
      (if startOthers b = [] then .ok (none, none)
       else
        .ok (some (((startOthers b).map
              (fun a => (a - startRef b) % 360)).mergeSort (fun x y => decide (x ≤ y))).headI,
          some ((((startOthers b).map
              (fun a => (a - startRef b) % 360)).mergeSort
                (fun x y => decide (x ≤ y))).getLast?.getD 0))) := by
  rw [adjoining_angles]
  rw [if_pos (by exact hmem)]
  rfl

theorem adjoining_angles_end_eq (b : Bond) (hmem : endRef b ∈ endRawAngles b) :
    adjoining_angles b b.end_atom 180 =
      (if endOthers b = [] then .ok (none, none)
       else
        .ok (some (((endOthers b).map
              (fun a => (a - endRef b) % 360)).mergeSort (fun x y => decide (x ≤ y))).headI,
          some ((((endOthers b).map
              (fun a => (a - endRef b) % 360)).mergeSort
                (fun x y => decide (x ≤ y))).getLast?.getD 0))) := by
  rw [adjoining_angles]
  rw [if_pos (by exact hmem)]
  rfl

theorem upstream_angles_eq (b : Bond) :
    upstream_angles b = (adjoining_angles b b.start_atom 0 >>= fun p =>
      Except.ok (p.1, p.2.map (fun x => 360 - x))) := rfl

theorem downstream_angles_eq (b : Bond) :
    downstream_angles b = (adjoining_angles b b.end_atom 180 >>= fun p =>
      Except.ok (p.2.map (fun x => 360 - x), p.1)) := rfl

theorem set_cross_eq (b : Bond) (last : Bool) :
    set_cross b last =
      (upstream_angles b >>= fun start_angles =>
       downstream_angles b >>= fun end_angles =>
       pyMinPair start_angles >>= fun start_angle =>
       cotan100 (start_angle : ℝ) >>= fun c1 =>
       pyMinPair end_angles >>= fun end_angle =>
       cotan100 (end_angle : ℝ) >>= fun c2 =>
       Except.ok { b with
         tikz_styles := addStyle .cross b.tikz_styles
         tikz_values := dictUpdate (dictUpdate b.tikz_values .bgstart (max 10 c1))
           .bgend (max 10 c2)
         is_last := last }) := rfl

theorem upstream_angles_of_empty (b : Bond) (hmem : startRef b ∈ startRawAngles b)
    (hempty : startOthers b = []) : upstream_angles b = .ok (none, none) := by
  rw [upstream_angles_eq, adjoining_angles_start_eq b hmem, if_pos hempty, except_bind_ok]
  rfl

theorem downstream_angles_of_empty (b : Bond) (hmem : endRef b ∈ endRawAngles b)
    (hempty : endOthers b = []) : downstream_angles b = .ok (none, none) := by
  rw [downstream_angles_eq, adjoining_angles_end_eq b hmem, if_pos hempty, except_bind_ok]
  rfl

theorem upstream_angles_of_nonempty (b : Bond) (hmem : startRef b ∈ startRawAngles b)
    (hne : startOthers b ≠ []) :
    ∃ u v : ℤ, upstream_angles b = .ok (some u, some v) := by
  rw [upstream_angles_eq, adjoining_angles_start_eq b hmem, if_neg hne, except_bind_ok]
  exact ⟨_, _, rfl⟩

theorem downstream_angles_of_nonempty (b : Bond) (hmem : endRef b ∈ endRawAngles b)
    (hne : endOthers b ≠ []) :
    ∃ u v : ℤ, downstream_angles b = .ok (some u, some v) := by
  rw [downstream_angles_eq, adjoining_angles_end_eq b hmem, if_neg hne, except_bind_ok]
  exact ⟨_, _, rfl⟩

/-- C10 amended: set_cross returns normally only if both the start atom
and the end atom carry at least one other bond angle.  If the start atom
has none, min over the None pair raises TypeError.  If the end atom has
none, set_cross still fails before returning, with that TypeError unless
an exactly-zero cotangent denominator on the start side raises
ZeroDivisionError first; in no case is a reported MCFError produced. -/
theorem c10_amended (b : Bond)
    (hmemS : startRef b ∈ startRawAngles b) (hmemE : endRef b ∈ endRawAngles b) :
    (∀ (last : Bool) (b2 : Bond), set_cross b last = .ok b2 →
      startOthers b ≠ [] ∧ endOthers b ≠ []) ∧
    (startOthers b = [] → upstream_angles b = .ok (none, none) ∧
      ∀ last : Bool, set_cross b last = .error PyError.typeError) ∧
    (endOthers b = [] → downstream_angles b = .ok (none, none) ∧
      ∀ last : Bool, ∃ e, set_cross b last = .error e ∧
        (e = PyError.typeError ∨ e = PyError.zeroDivisionError)) := by
  have hdownOK : ∃ p, downstream_angles b = .ok p := by
    by_cases hE : endOthers b = []
    · exact ⟨_, downstream_angles_of_empty b hmemE hE⟩
    · obtain ⟨u, v, h⟩ := downstream_angles_of_nonempty b hmemE hE
      exact ⟨_, h⟩
  have hstartEmpty : startOthers b = [] →
      ∀ last : Bool, set_cross b last = .error PyError.typeError := by
    intro hS last
    obtain ⟨p, hp⟩ := hdownOK
    rw [set_cross_eq, upstream_angles_of_empty b hmemS hS, except_bind_ok, hp,
      except_bind_ok]
    rfl
  have hendEmpty : endOthers b = [] →
      ∀ last : Bool, ∃ e, set_cross b last = .error e ∧
        (e = PyError.typeError ∨ e = PyError.zeroDivisionError) := by
    intro hE last
    by_cases hS : startOthers b = []
    · exact ⟨_, hstartEmpty hS last, Or.inl rfl⟩
    · obtain ⟨u, v, hup⟩ := upstream_angles_of_nonempty b hmemS hS
      rw [set_cross_eq, hup, except_bind_ok, downstream_angles_of_empty b hmemE hE,
        except_bind_ok]
      have hmin : pyMinPair (some u, some v) = .ok (min u v) := rfl
      rw [hmin, except_bind_ok]
      rcases hcot : cotan100 ((min u v : ℤ) : ℝ) with e | c
      · rw [except_bind_error]
        refine ⟨e, rfl, Or.inr ?_⟩
        rw [cotan100] at hcot
        split at hcot
        · exact (Except.error.inj hcot).symm
        · exact absurd hcot (by simp)
      · rw [except_bind_ok]
        exact ⟨PyError.typeError, rfl, Or.inl rfl⟩
  refine ⟨?_, fun hS => ⟨upstream_angles_of_empty b hmemS hS, hstartEmpty hS⟩,
    fun hE => ⟨downstream_angles_of_empty b hmemE hE, hendEmpty hE⟩⟩
  intro last b2 hok
  constructor
  · intro hS
    rw [hstartEmpty hS last] at hok
    exact absurd hok (by simp)
  · intro hE
    obtain ⟨e, he, _⟩ := hendEmpty hE last
    rw [he] at hok
    exact absurd hok (by simp)

/-- A start atom with a second bond at the same rounded angle 0. -/
def zeroGapStart : Atom :=
  { idx := 0, x := 0, y := 0, neighbors := [1, 2], bond_angles := [0, 0] }

/-- An end atom that carries only this bond's own angle. -/
def soloEnd : Atom :=
  { idx := 1, x := 1, y := 0, neighbors := [0], bond_angles := [180] }

/-- A bond at angle 0 whose start atom has a duplicate-angle sibling bond
and whose end atom has no other bond. -/
def bZero : Bond :=
  { start_atom := zeroGapStart, end_atom := soloEnd, bond_type := .single
    angle := 0, length := 1 }

theorem pyRound_real_zero : pyRound (0 : ℝ) = 0 := by
  rw [show (0 : ℝ) = ((0 : ℤ) : ℝ) by norm_num, pyRound_intCast]

theorem pyRound_real_180 : pyRound (180 : ℝ) = 180 := by
  rw [show (180 : ℝ) = ((180 : ℤ) : ℝ) by norm_num, pyRound_intCast]

theorem bZero_startRaw : startRawAngles bZero = [0, 0] := by
  simp [startRawAngles, bZero, zeroGapStart, pyRound_real_zero]

theorem bZero_startRef : startRef bZero = 0 := by
  rw [startRef]
  norm_num [bZero, pyRound_real_zero]

theorem bZero_endRaw : endRawAngles bZero = [180] := by
  simp [endRawAngles, bZero, soloEnd, pyRound_real_180]

theorem bZero_endRef : endRef bZero = 180 := by
  rw [endRef]
  have h1 : bZero.angle - 180 = ((-180 : ℤ) : ℝ) := by
    norm_num [bZero]
  rw [h1, pyRound_intCast]
  decide

theorem bZero_startOthers : startOthers bZero = [0] := by
  rw [startOthers, bZero_startRaw, bZero_startRef]
  decide

theorem bZero_endOthers : endOthers bZero = [] := by
  rw [endOthers, bZero_endRaw, bZero_endRef]
  decide

theorem bZero_memS : startRef bZero ∈ startRawAngles bZero := by
  rw [bZero_startRaw, bZero_startRef]
  decide

theorem bZero_memE : endRef bZero ∈ endRawAngles bZero := by
  rw [bZero_endRaw, bZero_endRef]
  decide

theorem bZero_upstream : upstream_angles bZero = .ok (some 0, some 360) := by
  rw [upstream_angles_eq, adjoining_angles_start_eq bZero bZero_memS,
    if_neg (by rw [bZero_startOthers]; simp), bZero_startOthers, bZero_startRef]
  simp [except_bind_ok, List.mergeSort_singleton]

theorem bZero_set_cross : set_cross bZero false = .error PyError.zeroDivisionError := by
  rw [set_cross_eq, bZero_upstream, except_bind_ok,
    downstream_angles_of_empty bZero bZero_memE bZero_endOthers, except_bind_ok]
  have hmin : pyMinPair (some 0, some 360) = .ok 0 := rfl
  rw [hmin, except_bind_ok]
  have hcot : cotan100 ((0 : ℤ) : ℝ) = .error PyError.zeroDivisionError := by
    rw [cotan100]
    have harg : ((0 : ℤ) : ℝ) * Real.pi / 180 = 0 := by
      push_cast
      ring
    rw [harg, Real.tan_zero, if_pos rfl]
  rw [hcot, except_bind_error]

/-- The claim of C10 at a bond b, as stated: whenever either endpoint of
the bond has no other attached bond, set_cross fails with the min-over-
None TypeError. -/
def claimC10At (b : Bond) : Prop :=
  ∀ last : Bool, (startOthers b = [] ∨ endOthers b = []) →
    set_cross b last = .error PyError.typeError

/-- C10 counterexample: for a bond whose end atom has no other bond but
whose start atom carries a second bond at the same rounded angle, the
zero start gap makes cotan100 divide by an exactly-zero tangent, so
set_cross raises ZeroDivisionError before the min-over-None TypeError is
reached. -/
theorem c10_counterexample : ¬ claimC10At bZero := by
  intro h
  have := h false (Or.inr bZero_endOthers)
  rw [bZero_set_cross] at this
  exact absurd this (by simp)

/-- C10 amended witness: the amended statement applied to the concrete
degenerate bond. -/
theorem c10_amended_witness :
    (startRef bZero ∈ startRawAngles bZero) ∧ (endRef bZero ∈ endRawAngles bZero) ∧
    ((∀ (last : Bool) (b2 : Bond), set_cross bZero last = .ok b2 →
      startOthers bZero ≠ [] ∧ endOthers bZero ≠ []) ∧
    (startOthers bZero = [] → upstream_angles bZero = .ok (none, none) ∧
      ∀ last : Bool, set_cross bZero last = .error PyError.typeError) ∧
    (endOthers bZero = [] → downstream_angles bZero = .ok (none, none) ∧
      ∀ last : Bool, ∃ e, set_cross bZero last = .error e ∧
        (e = PyError.typeError ∨ e = PyError.zeroDivisionError))) :=
  ⟨bZero_memS, bZero_memE, c10_amended bZero bZero_memS bZero_memE⟩

/-! ## Molecule.process_cross_bonds

The molecule tree with its Bond payloads, as a mutual tree/forest pair.
The exit bond is addressed by its path of child indices from the root;
Python object identity between the bonds dict and the tree nodes is
modelled through the directed edge (start index, end index), which is
unique per tree by construction. -/

mutual
inductive BondTree where
  | node (bond : Bond) (children : BondForest)
inductive BondForest where
  | nil
  | cons (t : BondTree) (f : BondForest)
end

def bondOf : BondTree → Bond
  | .node b _ => b

def childrenOf : BondTree → BondForest
  | .node _ cs => cs

def BondForest.length : BondForest → ℕ
  | .nil => 0
  | .cons _ f => f.length + 1

/-- Python descendants[-1]. -/
def BondForest.last? : BondForest → Option BondTree
  | .nil => none
  | .cons t .nil => some t
  | .cons _ (.cons t2 f) => BondForest.last? (.cons t2 f)

def BondForest.push : BondForest → BondTree → BondForest
  | .nil, n => .cons n .nil
  | .cons t f, n => .cons t (f.push n)

mutual
def BondTree.nodeAt : BondTree → List ℕ → Option BondTree
  | t, [] => some t
  | .node _ cs, i :: p => BondForest.nodeAtF cs i p
def BondForest.nodeAtF : BondForest → ℕ → List ℕ → Option BondTree
  | .nil, _, _ => none
  | .cons t _, 0, p => t.nodeAt p
  | .cons _ f, (i + 1), p => BondForest.nodeAtF f i p
end

mutual
/-- Replace the bond payload of the node at the given path, keeping the
whole tree shape and every other payload. -/
def BondTree.updateBondAt : BondTree → List ℕ → Bond → BondTree
  | .node _ cs, [], nb => .node nb cs
  | .node b cs, i :: p, nb => .node b (BondForest.updateBondAtF cs i p nb)
def BondForest.updateBondAtF : BondForest → ℕ → List ℕ → Bond → BondForest
  | .nil, _, _, _ => .nil
  | .cons t f, 0, p, nb => .cons (t.updateBondAt p nb) f
  | .cons t f, (i + 1), p, nb => .cons t (BondForest.updateBondAtF f i p nb)
end

mutual
def BondTree.countNodes : BondTree → ℕ
  | .node _ cs => BondForest.countNodesF cs + 1
def BondForest.countNodesF : BondForest → ℕ
  | .nil => 0
  | .cons t f => t.countNodes + BondForest.countNodesF f
end

mutual
/-- Apply a bond transformation to every node (models mutating a shared
Bond object found through the dict). -/
def BondTree.mapBond (f : Bond → Bond) : BondTree → BondTree
  | .node b cs => .node (f b) (BondForest.mapBondF f cs)
def BondForest.mapBondF (f : Bond → Bond) : BondForest → BondForest
  | .nil => .nil
  | .cons t fo => .cons (BondTree.mapBond f t) (BondForest.mapBondF f fo)
end

mutual
/-- Append a new child at the end of the descendants of the node at the
given path. -/
def BondTree.pushChildAt : BondTree → List ℕ → BondTree → BondTree
  | .node b cs, [], n => .node b (cs.push n)
  | .node b cs, i :: p, n => .node b (BondForest.pushChildAtF cs i p n)
def BondForest.pushChildAtF : BondForest → ℕ → List ℕ → BondTree → BondForest
  | .nil, _, _, _ => .nil
  | .cons t f, 0, p, n => .cons (t.pushChildAt p n) f
  | .cons t f, (i + 1), p, n => .cons t (BondForest.pushChildAtF f i p n)
end

/-- The bond_mapping dict of bond.py.  Note the dict literal first maps
4 to aromatic and then Indigo.EITHER, whose value is also 4, to either:
the later entry wins.  Indigo.UP is 5 and Indigo.DOWN is 6. -/
def bond_mapping (k : ℤ) : Option BondType :=
  if k = 1 then some .single
  else if k = 2 then some .double
  else if k = 3 then some .triple
  else if k = 4 then some .either
  else if k = 5 then some .upto
  else if k = 6 then some .downto
  else none

/-- Bond.__init__: stereo flip under a single-axis mirror, bond type
resolution, geometry from the atom coordinates plus the global rotation,
and the optional marker (modelled as the sorted pair of 1-based ids). -/
noncomputable def mkBond (options : Options) (start_atom end_atom : Atom)
    (bond_type : Option ℤ) (stereo : ℤ) : Bond :=
  let stereo1 :=
    if (stereo = 5 ∨ stereo = 6) ∧ options.flip_vertical ≠ options.flip_horizontal
    then 5 + 6 - stereo else stereo
  let bt : BondType :=
    if stereo1 = 5 ∨ stereo1 = 6 ∨ stereo1 = 4 then (bond_mapping stereo1).getD .unspecified
    else
      match bond_type with
      | some k => (bond_mapping k).getD .unspecified
      | none => .unspecified
  let la := compare_positions start_atom.x start_atom.y end_atom.x end_atom.y
  let marker :=
    if options.markers then
      some (min (start_atom.idx + 1) (end_atom.idx + 1),
            max (start_atom.idx + 1) (end_atom.idx + 1))
    else none
  { start_atom := start_atom
    end_atom := end_atom
    bond_type := bt
    angle := la.2 + options.rotate
    length := la.1
    marker := marker }

/-- Bond.set_link: degrade to an invisible connector. -/
def set_link (b : Bond) : Bond :=
  { b with bond_type := .link, tikz_styles := [], tikz_values := [], marker := none }

/-- Bond.clone: a copy keeping the original atom references. -/
def clone (b : Bond) : Bond := b

/-- The directed edge of a bond: the unique identity of a tree-attached
bond object. -/
def edgeOf (b : Bond) : ℤ × ℤ := ((b.start_atom.idx : ℤ), (b.end_atom.idx : ℤ))

/-- Python dict lookup in the bonds dict. -/
def dictLookup (d : List ((ℤ × ℤ) × Bond)) (k : ℤ × ℤ) : Option Bond :=
  (d.find? (fun p => decide (p.1 = k))).map (fun p => p.2)

/-- Python dict write (mutation of the object stored under a key). -/
def dictSetBond (d : List ((ℤ × ℤ) × Bond)) (k : ℤ × ℤ) (b : Bond) :
    List ((ℤ × ℤ) × Bond) :=
  d.map (fun p => if p.1 = k then (k, b) else p)

/-- The Molecule state process_cross_bonds operates on: the bond tree,
the path of the exit bond inside it, the exit atom, the bonds dict and
the seen_bonds set. -/
structure MolTreeState where
  root : BondTree
  exitPath : List ℕ
  exitAtom : Atom
  bondsDict : List ((ℤ × ℤ) × Bond)
  seenBonds : List (ℤ × ℤ)

/-- The general branch of process_cross_bonds: demote the tree-attached
original to a link, and splice a crossing phantom copy (behind a
pen-moving pseudo link bond when needed) under the exit bond. -/
noncomputable def processCrossGeneral (options : Options) (st : MolTreeState)
    (combo : ℤ × ℤ) (bond : Bond) : Except PyError MolTreeState :=
  let root1 := st.root.mapBond (fun b => if edgeOf b = combo then set_link b else b)
  let dict1 := dictSetBond st.bondsDict combo (set_link bond)
  (set_cross (clone bond) false).bind (fun bc =>
    let bond_copy := { bc with to_phantom := true }
    if bond_copy.start_atom.idx ≠ st.exitAtom.idx then
      let pseudo0 := mkBond options st.exitAtom bond_copy.start_atom none 0
      let pseudo := { set_link pseudo0 with to_phantom := true }
      .ok { st with
        root := root1.pushChildAt st.exitPath
          (.node pseudo (.cons (.node bond_copy .nil) .nil))
        bondsDict := dict1 }
    else
      .ok { st with
        root := root1.pushChildAt st.exitPath (.node bond_copy .nil)
        bondsDict := dict1 })

/-- The combo search of process_cross_bonds: the declared pair is looked
up in seen_bonds in both orientations. -/
def resolveCombo (seenBonds : List (ℤ × ℤ)) (pair : ℤ × ℤ) : Option (ℤ × ℤ) :=
  if (pair.1 - 1, pair.2 - 1) ∈ seenBonds then some (pair.1 - 1, pair.2 - 1)
  else if (pair.2 - 1, pair.1 - 1) ∈ seenBonds then some (pair.2 - 1, pair.1 - 1)
  else none

/-- The very special case of process_cross_bonds: the bond is already the
exit bond's last descendant and is merely tagged with set_cross(last=True);
the tagged object is shared between the tree and the bonds dict. -/
noncomputable def processCrossSpecial (st : MolTreeState) (combo : ℤ × ℤ)
    (bond : Bond) (exitBond : BondTree) : Except PyError MolTreeState :=
  (set_cross bond true).bind (fun b2 =>
    .ok { st with
      root := st.root.updateBondAt
        (st.exitPath ++ [(childrenOf exitBond).length - 1]) b2
      bondsDict := dictSetBond st.bondsDict combo b2 })

/-- Dispatch between the special tagging case and the general splice. -/
noncomputable def processCrossBond (options : Options) (st : MolTreeState)
    (combo : ℤ × ℤ) (bond : Bond) : Except PyError MolTreeState :=
  match st.root.nodeAt st.exitPath with
  | none => .error .keyError
  | some exitBond =>
    match (childrenOf exitBond).last? with
    | some lastChild =>
      if edgeOf (bondOf lastChild) = edgeOf bond then
        processCrossSpecial st combo bond exitBond
      else
        processCrossGeneral options st combo bond
    | none => processCrossGeneral options st combo bond

/-- One iteration of the loop of Molecule.process_cross_bonds, for a
declared cross bond pair of 1-based atom numbers. -/
noncomputable def processCrossPair (options : Options) (st : MolTreeState) (pair : ℤ × ℤ) :
    Except PyError MolTreeState :=
  match resolveCombo st.seenBonds pair with
  | none => .error .mcfBondDoesNotExist
  | some combo =>
    match dictLookup st.bondsDict combo with
    | none => .error .keyError
    | some bond => processCrossBond options st combo bond

theorem processCrossPair_of_combo {options : Options} {st : MolTreeState} {pair : ℤ × ℤ}
    {c : ℤ × ℤ} (hc : resolveCombo st.seenBonds pair = some c) :
    processCrossPair options st pair =
      (match dictLookup st.bondsDict c with
       | none => .error .keyError
       | some bond => processCrossBond options st c bond) := by
  unfold processCrossPair
  rw [hc]

theorem processCrossBond_special {options : Options} {st : MolTreeState} {combo : ℤ × ℤ}
    {bond : Bond} {x : BondTree} {lc : BondTree}
    (hx : st.root.nodeAt st.exitPath = some x)
    (hlc : (childrenOf x).last? = some lc)
    (he : edgeOf (bondOf lc) = edgeOf bond) :
    processCrossBond options st combo bond = processCrossSpecial st combo bond x := by
  unfold processCrossBond
  rw [hx]
  show (match (childrenOf x).last? with
        | some lastChild =>
          if edgeOf (bondOf lastChild) = edgeOf bond then
            processCrossSpecial st combo bond x
          else processCrossGeneral options st combo bond
        | none => processCrossGeneral options st combo bond)
      = processCrossSpecial st combo bond x
  rw [hlc]
  show (if edgeOf (bondOf lc) = edgeOf bond then
          processCrossSpecial st combo bond x
        else processCrossGeneral options st combo bond)
      = processCrossSpecial st combo bond x
  rw [if_pos he]

theorem processCrossSpecial_of_ok {st : MolTreeState} {combo : ℤ × ℤ} {bond b2 : Bond}
    {x : BondTree} (h : set_cross bond true = .ok b2) :
    processCrossSpecial st combo bond x =
      .ok { st with
        root := st.root.updateBondAt (st.exitPath ++ [(childrenOf x).length - 1]) b2
        bondsDict := dictSetBond st.bondsDict combo b2 } := by
  unfold processCrossSpecial
  rw [h]
  rfl


/-! ### Frame lemmas: updateBondAt only touches one payload -/

def childLenOf (t : BondTree) : ℕ := (childrenOf t).length

theorem length_updateBondAtF :
    ∀ (f : BondForest) (i : ℕ) (p : List ℕ) (nb : Bond),
      (BondForest.updateBondAtF f i p nb).length = f.length
  | .nil, _, _, _ => rfl
  | .cons _ f, 0, _, _ => rfl
  | .cons t f, (i + 1), p, nb => by
    show (BondForest.updateBondAtF f i p nb).length + 1 = f.length + 1
    rw [length_updateBondAtF f i p nb]

mutual
theorem countNodes_updateBondAt :
    ∀ (t : BondTree) (p : List ℕ) (nb : Bond),
      (t.updateBondAt p nb).countNodes = t.countNodes
  | .node _ _, [], _ => rfl
  | .node b cs, i :: p, nb => by
    show BondForest.countNodesF (BondForest.updateBondAtF cs i p nb) + 1
      = BondForest.countNodesF cs + 1
    rw [countNodesF_updateBondAtF cs i p nb]
theorem countNodesF_updateBondAtF :
    ∀ (f : BondForest) (i : ℕ) (p : List ℕ) (nb : Bond),
      BondForest.countNodesF (BondForest.updateBondAtF f i p nb) = BondForest.countNodesF f
  | .nil, _, _, _ => rfl
  | .cons t f, 0, p, nb => by
    show (t.updateBondAt p nb).countNodes + BondForest.countNodesF f
      = t.countNodes + BondForest.countNodesF f
    rw [countNodes_updateBondAt t p nb]
  | .cons t f, (i + 1), p, nb => by
    show t.countNodes + BondForest.countNodesF (BondForest.updateBondAtF f i p nb)
      = t.countNodes + BondForest.countNodesF f
    rw [countNodesF_updateBondAtF f i p nb]
end

mutual
theorem updateBond_frame :
    ∀ (t : BondTree) (p q : List ℕ) (nb : Bond),
      (((t.updateBondAt p nb).nodeAt q).map childLenOf = ((t.nodeAt q).map childLenOf)) ∧
      (q ≠ p → ((t.updateBondAt p nb).nodeAt q).map bondOf = ((t.nodeAt q).map bondOf))
  | .node b cs, [], [], nb => by
    refine ⟨?_, fun h => absurd rfl h⟩
    show some (childLenOf (.node nb cs)) = some (childLenOf (.node b cs))
    rfl
  | .node b cs, [], j :: q, nb => by
    constructor
    · show ((BondForest.nodeAtF cs j q).map childLenOf)
        = ((BondForest.nodeAtF cs j q).map childLenOf)
      rfl
    · intro _
      rfl
  | .node b cs, i :: p, [], nb => by
    constructor
    · show some (childLenOf (.node b (BondForest.updateBondAtF cs i p nb)))
        = some (childLenOf (.node b cs))
      show some (BondForest.updateBondAtF cs i p nb).length = some cs.length
      rw [length_updateBondAtF]
    · intro _
      rfl
  | .node b cs, i :: p, j :: q, nb => by
    have hf := updateBondF_frame cs i p j q nb
    constructor
    · exact hf.1
    · intro hne
      refine hf.2 ?_
      intro hc
      exact hne (by rw [hc.1, hc.2])
theorem updateBondF_frame :
    ∀ (f : BondForest) (i : ℕ) (p : List ℕ) (j : ℕ) (q : List ℕ) (nb : Bond),
      (((BondForest.updateBondAtF f i p nb).nodeAtF j q).map childLenOf
        = ((f.nodeAtF j q).map childLenOf)) ∧
      (¬ (j = i ∧ q = p) →
        ((BondForest.updateBondAtF f i p nb).nodeAtF j q).map bondOf
          = ((f.nodeAtF j q).map bondOf))
  | .nil, _, _, j, _, _ => by
    constructor
    · cases j <;> rfl
    · intro _
      cases j <;> rfl
  | .cons t f, 0, p, 0, q, nb => by
    have ht := updateBond_frame t p q nb
    refine ⟨ht.1, fun h => ht.2 (fun hc => h ⟨rfl, hc⟩)⟩
  | .cons t f, 0, p, (j + 1), q, nb => ⟨rfl, fun _ => rfl⟩
  | .cons t f, (i + 1), p, 0, q, nb => ⟨rfl, fun _ => rfl⟩
  | .cons t f, (i + 1), p, (j + 1), q, nb => by
    have hf := updateBondF_frame f i p j q nb
    refine ⟨hf.1, fun h => hf.2 (fun hc => h ⟨by rw [hc.1], hc.2⟩)⟩
end

mutual
theorem updateBond_target :
    ∀ (t : BondTree) (p : List ℕ) (nb : Bond) (n : BondTree),
      t.nodeAt p = some n →
      (t.updateBondAt p nb).nodeAt p = some (.node nb (childrenOf n))
  | .node b cs, [], nb, n, h => by
    have hn : BondTree.node b cs = n := Option.some.inj h
    show some (BondTree.node nb cs) = some (.node nb (childrenOf n))
    rw [← hn]
    rfl
  | .node b cs, i :: p, nb, n, h => by
    show (BondForest.updateBondAtF cs i p nb).nodeAtF i p = some (.node nb (childrenOf n))
    exact updateBondF_target cs i p nb n h
theorem updateBondF_target :
    ∀ (f : BondForest) (i : ℕ) (p : List ℕ) (nb : Bond) (n : BondTree),
      f.nodeAtF i p = some n →
      (BondForest.updateBondAtF f i p nb).nodeAtF i p = some (.node nb (childrenOf n))
  | .nil, i, _, _, _, h => by cases i <;> exact absurd h (by simp [BondForest.nodeAtF])
  | .cons t f, 0, p, nb, n, h => updateBond_target t p nb n h
  | .cons t f, (i + 1), p, nb, n, h => updateBondF_target f i p nb n h
end

theorem last?_nodeAtF :
    ∀ (f : BondForest) (n : BondTree), f.last? = some n →
      f.nodeAtF (f.length - 1) [] = some n
  | .nil, _, h => by exact absurd h (by simp [BondForest.last?])
  | .cons (.node b cs) .nil, n, h => by
    have hn : BondTree.node b cs = n := Option.some.inj h
    rw [← hn]
    rfl
  | .cons t (.cons t2 f), n, h => by
    have hrec : (BondForest.cons t2 f).nodeAtF ((BondForest.cons t2 f).length - 1) []
        = some n := last?_nodeAtF (.cons t2 f) n h
    show (BondForest.cons t (.cons t2 f)).nodeAtF ((BondForest.cons t2 f).length + 1 - 1) []
      = some n
    have hlen : (BondForest.cons t2 f).length + 1 - 1 = (f.length + 1 - 1) + 1 := by
      show (BondForest.cons t2 f).length = f.length + 1 - 1 + 1
      rfl
    rw [hlen]
    show (BondForest.cons t2 f).nodeAtF (f.length + 1 - 1) [] = some n
    exact hrec

mutual
theorem nodeAt_append :
    ∀ (t : BondTree) (p q : List ℕ),
      t.nodeAt (p ++ q) = (t.nodeAt p).bind (fun n => n.nodeAt q)
  | .node b cs, [], q => by
    rfl
  | .node b cs, i :: p, q => by
    show BondForest.nodeAtF cs i (p ++ q)
      = (BondForest.nodeAtF cs i p).bind (fun n => n.nodeAt q)
    exact nodeAtF_append cs i p q
theorem nodeAtF_append :
    ∀ (f : BondForest) (i : ℕ) (p q : List ℕ),
      f.nodeAtF i (p ++ q) = (f.nodeAtF i p).bind (fun n => n.nodeAt q)
  | .nil, i, _, _ => by cases i <;> rfl
  | .cons t f, 0, p, q => nodeAt_append t p q
  | .cons t f, (i + 1), p, q => nodeAtF_append f i p q
end

theorem mem_addStyle (s : TikzStyle) (l : List TikzStyle) : s ∈ addStyle s l := by
  unfold addStyle
  split
  · assumption
  · exact List.mem_cons_self _ _

theorem set_cross_ok_shape {b b2 : Bond} {last : Bool} (h : set_cross b last = .ok b2) :
    b2.is_last = last ∧ TikzStyle.cross ∈ b2.tikz_styles ∧
    b2.start_atom = b.start_atom ∧ b2.end_atom = b.end_atom ∧
    b2.bond_type = b.bond_type ∧ b2.to_phantom = b.to_phantom ∧
    b2.angle = b.angle ∧ b2.length = b.length := by
  rw [set_cross_eq] at h
  rcases h1 : upstream_angles b with e | p1
  · rw [h1, except_bind_error] at h
    exact absurd h (by simp)
  rw [h1, except_bind_ok] at h
  rcases h2 : downstream_angles b with e | p2
  · rw [h2, except_bind_error] at h
    exact absurd h (by simp)
  rw [h2, except_bind_ok] at h
  rcases h3 : pyMinPair p1 with e | a1
  · rw [h3, except_bind_error] at h
    exact absurd h (by simp)
  rw [h3, except_bind_ok] at h
  rcases h4 : cotan100 ((a1 : ℤ) : ℝ) with e | c1
  · rw [h4, except_bind_error] at h
    exact absurd h (by simp)
  rw [h4, except_bind_ok] at h
  rcases h5 : pyMinPair p2 with e | a2
  · rw [h5, except_bind_error] at h
    exact absurd h (by simp)
  rw [h5, except_bind_ok] at h
  rcases h6 : cotan100 ((a2 : ℤ) : ℝ) with e | c2
  · rw [h6, except_bind_error] at h
    exact absurd h (by simp)
  rw [h6, except_bind_ok] at h
  have hb2 := Except.ok.inj h
  rw [← hb2]
  exact ⟨rfl, mem_addStyle _ _, rfl, rfl, rfl, rfl, rfl, rfl⟩

/-- C8: when the declared cross-bond pair resolves to a tree bond that is
already the last descendant of the exit bond, process_cross_bonds only
tags that bond via set_cross(last=True): the result replaces exactly one
bond payload in the tree (and the same shared object in the bonds dict),
creates no clone, link or pseudo bond, preserves the node count and the
whole tree shape, leaves every other bond and the seen_bonds set
untouched, and the tagged bond keeps its descendants while gaining the
cross style and the is_last flag. -/
theorem c8_cross_special (options : Options) (st : MolTreeState) (pair : ℤ × ℤ)
    (b eb lb : Bond) (cs lcs : BondForest) (b2 : Bond)
    (hseen : (pair.1 - 1, pair.2 - 1) ∈ st.seenBonds)
    (hdict : dictLookup st.bondsDict (pair.1 - 1, pair.2 - 1) = some b)
    (hexit : st.root.nodeAt st.exitPath = some (.node eb cs))
    (hlast : cs.last? = some (.node lb lcs))
    (hedge : edgeOf lb = edgeOf b)
    (hsc : set_cross b true = .ok b2) :
    processCrossPair options st pair = .ok { st with
        root := st.root.updateBondAt (st.exitPath ++ [cs.length - 1]) b2
        bondsDict := dictSetBond st.bondsDict (pair.1 - 1, pair.2 - 1) b2 } ∧
    (st.root.updateBondAt (st.exitPath ++ [cs.length - 1]) b2).countNodes
      = st.root.countNodes ∧
    (∀ q : List ℕ,
      ((st.root.updateBondAt (st.exitPath ++ [cs.length - 1]) b2).nodeAt q).map childLenOf
        = ((st.root.nodeAt q).map childLenOf)) ∧
    (∀ q : List ℕ, q ≠ st.exitPath ++ [cs.length - 1] →
      ((st.root.updateBondAt (st.exitPath ++ [cs.length - 1]) b2).nodeAt q).map bondOf
        = ((st.root.nodeAt q).map bondOf)) ∧
    ((st.root.updateBondAt (st.exitPath ++ [cs.length - 1]) b2).nodeAt
        (st.exitPath ++ [cs.length - 1]) = some (.node b2 lcs)) ∧
    b2.is_last = true ∧ TikzStyle.cross ∈ b2.tikz_styles ∧
    b2.start_atom = b.start_atom ∧ b2.end_atom = b.end_atom ∧
    b2.bond_type = b.bond_type ∧ b2.to_phantom = b.to_phantom := by
  have hcombo : resolveCombo st.seenBonds pair = some (pair.1 - 1, pair.2 - 1) := by
    rw [resolveCombo, if_pos hseen]
  have htarget : st.root.nodeAt (st.exitPath ++ [cs.length - 1]) = some (.node lb lcs) := by
    rw [nodeAt_append, hexit]
    show BondForest.nodeAtF cs (cs.length - 1) [] = some (.node lb lcs)
    exact last?_nodeAtF cs _ hlast
  have hshape := set_cross_ok_shape hsc
  refine ⟨?_, countNodes_updateBondAt _ _ _,
    fun q => (updateBond_frame st.root _ q b2).1,
    fun q hq => (updateBond_frame st.root _ q b2).2 hq,
    ?_, hshape.1, hshape.2.1, hshape.2.2.1, hshape.2.2.2.1, hshape.2.2.2.2.1,
    hshape.2.2.2.2.2.1⟩
  · rw [processCrossPair_of_combo hcombo, hdict]
    show processCrossBond options st (pair.1 - 1, pair.2 - 1) b = _
    rw [processCrossBond_special hexit (by exact hlast) (by exact hedge),
      processCrossSpecial_of_ok hsc]
    rfl
  · have := updateBond_target st.root (st.exitPath ++ [cs.length - 1]) b2 _ htarget
    rw [this]
    rfl

/-! ### A concrete molecule state exercising the special cross case -/

theorem pyRound_real_45 : pyRound (45 : ℝ) = 45 := by
  rw [show (45 : ℝ) = ((45 : ℤ) : ℝ) by norm_num, pyRound_intCast]

theorem pyRound_real_225 : pyRound (225 : ℝ) = 225 := by
  rw [show (225 : ℝ) = ((225 : ℤ) : ℝ) by norm_num, pyRound_intCast]

/-- The start atom of the crossing bond: one sibling bond at 45 degrees. -/
def crossAtomStart : Atom :=
  { idx := 2, x := 0, y := 0, neighbors := [3, 4], bond_angles := [0, 45] }

/-- The end atom of the crossing bond: one sibling bond at 225 degrees. -/
def crossAtomEnd : Atom :=
  { idx := 3, x := 1, y := 0, neighbors := [2], bond_angles := [180, 225] }

/-- The bond to tag as a cross. -/
def bCross : Bond :=
  { start_atom := crossAtomStart, end_atom := crossAtomEnd, bond_type := .single
    angle := 0, length := 1 }

theorem bCross_memS : startRef bCross ∈ startRawAngles bCross := by
  have h1 : startRawAngles bCross = [0, 45] := by
    simp [startRawAngles, bCross, crossAtomStart, pyRound_real_zero, pyRound_real_45]
  have h2 : startRef bCross = 0 := by
    rw [startRef]
    norm_num [bCross, pyRound_real_zero]
  rw [h1, h2]
  decide

theorem bCross_memE : endRef bCross ∈ endRawAngles bCross := by
  have h1 : endRawAngles bCross = [180, 225] := by
    simp [endRawAngles, bCross, crossAtomEnd, pyRound_real_180, pyRound_real_225]
  have h2 : endRef bCross = 180 := by
    rw [endRef]
    have h3 : bCross.angle - 180 = ((-180 : ℤ) : ℝ) := by norm_num [bCross]
    rw [h3, pyRound_intCast]
    decide
  rw [h1, h2]
  decide

theorem bCross_startOthers : startOthers bCross = [45] := by
  rw [startOthers]
  have h1 : startRawAngles bCross = [0, 45] := by
    simp [startRawAngles, bCross, crossAtomStart, pyRound_real_zero, pyRound_real_45]
  have h2 : startRef bCross = 0 := by
    rw [startRef]
    norm_num [bCross, pyRound_real_zero]
  rw [h1, h2]
  decide

theorem bCross_endOthers : endOthers bCross = [225] := by
  rw [endOthers]
  have h1 : endRawAngles bCross = [180, 225] := by
    simp [endRawAngles, bCross, crossAtomEnd, pyRound_real_180, pyRound_real_225]
  have h2 : endRef bCross = 180 := by
    rw [endRef]
    have h3 : bCross.angle - 180 = ((-180 : ℤ) : ℝ) := by norm_num [bCross]
    rw [h3, pyRound_intCast]
    decide
  rw [h1, h2]
  decide

theorem bCross_upstream : upstream_angles bCross = .ok (some 45, some 315) := by
  rw [upstream_angles_eq, adjoining_angles_start_eq bCross bCross_memS,
    if_neg (by rw [bCross_startOthers]; simp), bCross_startOthers]
  have h2 : startRef bCross = 0 := by
    rw [startRef]
    norm_num [bCross, pyRound_real_zero]
  rw [h2]
  simp [except_bind_ok, List.mergeSort_singleton]

theorem bCross_downstream : downstream_angles bCross = .ok (some 315, some 45) := by
  rw [downstream_angles_eq, adjoining_angles_end_eq bCross bCross_memE,
    if_neg (by rw [bCross_endOthers]; simp), bCross_endOthers]
  have h2 : endRef bCross = 180 := by
    rw [endRef]
    have h3 : bCross.angle - 180 = ((-180 : ℤ) : ℝ) := by norm_num [bCross]
    rw [h3, pyRound_intCast]
    decide
  rw [h2]
  simp [except_bind_ok, List.mergeSort_singleton]

theorem cotan100_45 : cotan100 ((45 : ℤ) : ℝ) = .ok 100 := by
  rw [cotan100]
  have harg : ((45 : ℤ) : ℝ) * Real.pi / 180 = Real.pi / 4 := by
    push_cast
    ring
  rw [harg, Real.tan_pi_div_four, if_neg one_ne_zero]
  have h1 : (100 : ℝ) / 1 = ((100 : ℤ) : ℝ) := by norm_num
  rw [h1, pyRound_intCast]

/-- The tagged result of set_cross on the concrete bond. -/
def bCross2 : Bond :=
  { bCross with
    tikz_styles := [TikzStyle.cross]
    tikz_values := [(TikzKey.bgstart, 100), (TikzKey.bgend, 100)]
    is_last := true }

theorem bCross_set_cross : set_cross bCross true = .ok bCross2 := by
  rw [set_cross_eq, bCross_upstream, except_bind_ok, bCross_downstream, except_bind_ok]
  have hminS : pyMinPair (some 45, some 315) = .ok 45 := rfl
  have hminE : pyMinPair (some 315, some 45) = .ok 45 := rfl
  rw [hminS, except_bind_ok, cotan100_45, except_bind_ok, hminE, except_bind_ok,
    cotan100_45, except_bind_ok]
  rfl

/-- The dummy root bond and the exit bond of the concrete state. -/
def dummyRootBond : Bond :=
  { start_atom := zeroGapStart, end_atom := soloEnd, bond_type := .unspecified
    angle := 0, length := 0 }

/-- The exit bond ends at the crossing bond's start atom. -/
def exitBondC : Bond :=
  { start_atom := soloEnd, end_atom := crossAtomStart, bond_type := .single
    angle := 0, length := 1 }

/-- A molecule state whose exit bond's last (only) descendant is the
declared cross bond itself. -/
def crossState : MolTreeState :=
  { root := .node dummyRootBond
      (.cons (.node exitBondC (.cons (.node bCross .nil) .nil)) .nil)
    exitPath := [0]
    exitAtom := crossAtomStart
    bondsDict := [((2, 3), bCross)]
    seenBonds := [(2, 3)] }

/-- C8 witness: the theorem applied to the concrete state with the cross
pair (3, 4) in 1-based numbering. -/
theorem c8_cross_special_witness :
    (((3 : ℤ), (4 : ℤ)).1 - 1, ((3 : ℤ), (4 : ℤ)).2 - 1) ∈ crossState.seenBonds ∧
    set_cross bCross true = .ok bCross2 ∧
    (processCrossPair {} crossState (3, 4) = .ok { crossState with
        root := crossState.root.updateBondAt
          (crossState.exitPath ++ [(BondForest.cons (.node bCross .nil) .nil).length - 1])
          bCross2
        bondsDict := dictSetBond crossState.bondsDict (3 - 1, 4 - 1) bCross2 } ∧
      (crossState.root.updateBondAt
        (crossState.exitPath ++ [(BondForest.cons (.node bCross .nil) .nil).length - 1])
        bCross2).countNodes = crossState.root.countNodes ∧
      bCross2.is_last = true ∧ TikzStyle.cross ∈ bCross2.tikz_styles) := by
  have hseen : (((3 : ℤ), (4 : ℤ)).1 - 1, ((3 : ℤ), (4 : ℤ)).2 - 1) ∈ crossState.seenBonds := by
    show ((2 : ℤ), (3 : ℤ)) ∈ [((2 : ℤ), (3 : ℤ))]
    exact List.mem_cons_self _ _
  have hdict : dictLookup crossState.bondsDict (((3 : ℤ), (4 : ℤ)).1 - 1,
      ((3 : ℤ), (4 : ℤ)).2 - 1) = some bCross := by
    show dictLookup [((2, 3), bCross)] (2, 3) = some bCross
    rw [dictLookup]
    simp
  have hexit : crossState.root.nodeAt crossState.exitPath
      = some (.node exitBondC (.cons (.node bCross .nil) .nil)) := rfl
  have hlast : (BondForest.cons (.node bCross .nil) .nil).last? = some (.node bCross .nil) := rfl
  have h := c8_cross_special {} crossState (3, 4) bCross exitBondC bCross
    (.cons (.node bCross .nil) .nil) .nil bCross2
    hseen hdict hexit hlast rfl bCross_set_cross
  exact ⟨hseen, bCross_set_cross, h.1, h.2.1, h.2.2.2.2.2.1, h.2.2.2.2.2.2.1⟩

/-! ### C4: molecule.Molecule.annotateRing -/

/-- Python list max (max of a nonempty list); headI seed makes it total. -/
def pyMaxList (l : List ℝ) : ℝ := l.foldl max l.headI

/-- Python list min (min of a nonempty list); headI seed makes it total. -/
def pyMinList (l : List ℝ) : ℝ := l.foldl min l.headI

/-- The atoms of a ring, collected from its bonds.  Python uses a set of
Atom objects; since atoms are fetched from the canonical per-index dict
self.atoms, set membership is equivalent to index equality, and the
center and min/max computations below are independent of set order, so a
first-occurrence list deduplicated by index is a faithful model. -/
def ringAtoms (bonds : List Bond) : List Atom :=
  bonds.foldl (fun acc b =>
    let acc1 := if acc.any (fun a => a.idx == b.start_atom.idx) then acc
      else acc ++ [b.start_atom]
    if acc1.any (fun a => a.idx == b.end_atom.idx) then acc1
      else acc1 ++ [b.end_atom]) []

/-- The ring center: componentwise mean of the ring atoms. -/
noncomputable def ringCenterOf (bonds : List Bond) : ℝ × ℝ :=
  (((ringAtoms bonds).map (fun a => a.x)).sum / (ringAtoms bonds).length,
   ((ringAtoms bonds).map (fun a => a.y)).sum / (ringAtoms bonds).length)

/-- The bond_lengths list of annotateRing. -/
def ringBondLengths (bonds : List Bond) : List ℝ := bonds.map (fun b => b.length)

/-- The center_distances list of annotateRing. -/
noncomputable def ringCenterDists (bonds : List Bond) : List ℝ :=
  (ringAtoms bonds).map (fun a =>
    (compare_positions a.x a.y (ringCenterOf bonds).1 (ringCenterOf bonds).2).1)

/-- bl_spread of annotateRing: (max - min) / max over the bond lengths.
The division raises ZeroDivisionError when the maximal bond length is 0
(a fully degenerate ring), so the result is fallible. -/
noncomputable def ringBlSpread (bonds : List Bond) : Except PyError ℝ :=
  if pyMaxList (ringBondLengths bonds) = 0 then Except.error PyError.zeroDivisionError
  else Except.ok
    ((pyMaxList (ringBondLengths bonds) - pyMinList (ringBondLengths bonds))
      / pyMaxList (ringBondLengths bonds))

/-- cd_spread of annotateRing: (max - min) / max over center distances.
The division raises ZeroDivisionError when the maximal center distance
is 0 (all ring atoms coincident), so the result is fallible. -/
noncomputable def ringCdSpread (bonds : List Bond) : Except PyError ℝ :=
  if pyMaxList (ringCenterDists bonds) = 0 then Except.error PyError.zeroDivisionError
  else Except.ok
    ((pyMaxList (ringCenterDists bonds) - pyMinList (ringCenterDists bonds))
      / pyMaxList (ringCenterDists bonds))

/-- bond.Bond.is_clockwise: assign the clockwise flag once, from the
kink between the ring-center direction and the bond angle. -/
noncomputable def Bond.is_clockwise (b : Bond) (center_x center_y rotate : ℝ) : Bond :=
  if b.clockwise ≠ 0 then b
  else
    if 180 < rmod ((compare_positions b.end_atom.x b.end_atom.y center_x center_y).2
        + rotate - b.angle) 360 then
      { b with clockwise := 1 }
    else
      { b with clockwise := -1 }

/-- The observable outcome of annotateRing on one ring. -/
inductive RingResult
  | skipped : RingResult
  | circled (center_x center_y : ℝ) (atom_angles : List (Atom × ℝ)) : RingResult
  | tagged (bonds : List Bond) : RingResult

/-- molecule.Molecule.annotateRing.  Rings of more than 8 bonds return
early; otherwise bl_spread is computed first and cd_spread second, each
able to raise ZeroDivisionError, and then either the ring is aromatized
(circled, which also appends the atom angles to the atoms' occupied
bond_angles) or every ring bond is tagged through is_clockwise. -/
noncomputable def annotateRing (bonds : List Bond) (is_aromatic aromatic_circles : Bool)
    (rotate : ℝ) : Except PyError RingResult :=
  if 8 < bonds.length then Except.ok RingResult.skipped
  else
    ringBlSpread bonds >>= fun bl =>
    ringCdSpread bonds >>= fun cd =>
    if is_aromatic = true ∧ (cd ≤ 5 / 100 ∧ bl ≤ 5 / 100) ∧ aromatic_circles = true then
      Except.ok (RingResult.circled (ringCenterOf bonds).1 (ringCenterOf bonds).2
        ((ringAtoms bonds).map (fun a =>
          (a, (compare_positions a.x a.y (ringCenterOf bonds).1 (ringCenterOf bonds).2).2))))
    else
      Except.ok (RingResult.tagged (bonds.map (fun b =>
        b.is_clockwise (ringCenterOf bonds).1 (ringCenterOf bonds).2 rotate)))

/-- is_symmetric of annotateRing, tolerance 0.05 = 5/100: both spread
computations succeed and stay within tolerance. -/
def ringSymmetricOk (bonds : List Bond) : Prop :=
  ∃ bl cd, ringBlSpread bonds = Except.ok bl ∧ ringCdSpread bonds = Except.ok cd ∧
    cd ≤ 5 / 100 ∧ bl ≤ 5 / 100

/-- The claim of C4 as stated: circled iff aromatic, symmetric and the
option is on; in EVERY other case, every ring bond gets a tag. -/
def claimC4At (bonds : List Bond) (is_aromatic aromatic_circles : Bool) (rotate : ℝ) : Prop :=
  ((∃ cx cy aa, annotateRing bonds is_aromatic aromatic_circles rotate
      = Except.ok (RingResult.circled cx cy aa)) ↔
    (is_aromatic = true ∧ ringSymmetricOk bonds ∧ aromatic_circles = true)) ∧
  (¬ (is_aromatic = true ∧ ringSymmetricOk bonds ∧ aromatic_circles = true) →
    ∃ tb, annotateRing bonds is_aromatic aromatic_circles rotate
        = Except.ok (RingResult.tagged tb) ∧
      tb.length = bonds.length ∧
      ∀ b ∈ tb, b.clockwise = 1 ∨ b.clockwise = -1)

theorem compare_positions_fst (x1 y1 x2 y2 : ℝ) :
    (compare_positions x1 y1 x2 y2).1 = Real.sqrt ((x2 - x1) ^ 2 + (y2 - y1) ^ 2) := rfl

/-- A schematic atom for concrete rings. -/
def c4Atom (n : ℕ) : Atom :=
  { idx := n, x := 0, y := 0, neighbors := [], bond_angles := [] }

/-- A schematic bond for concrete rings. -/
def c4Bond (i j : ℕ) : Bond :=
  { start_atom := c4Atom i, end_atom := c4Atom j, bond_type := BondType.single
    angle := 0, length := 1 }

/-- A nine-membered ring. -/
def bonds9 : List Bond :=
  [c4Bond 0 1, c4Bond 1 2, c4Bond 2 3, c4Bond 3 4, c4Bond 4 5,
   c4Bond 5 6, c4Bond 6 7, c4Bond 7 8, c4Bond 8 0]

/-- C4 counterexample: a non-aromatic nine-membered ring is neither
circled nor tagged - annotateRing skips it entirely, so the bonds do
not receive clockwise tags, refuting the claim's every-other-case
clause. -/
theorem c4_counterexample : ¬ claimC4At bonds9 false false 0 := by
  intro h
  have hcond : ¬ ((false : Bool) = true ∧ ringSymmetricOk bonds9 ∧ (false : Bool) = true) := by
    rintro ⟨h1, -⟩
    cases h1
  obtain ⟨tb, htb, -, -⟩ := h.2 hcond
  have hskip : annotateRing bonds9 false false 0 = Except.ok RingResult.skipped := by
    unfold annotateRing
    rw [if_pos]
    show 8 < (9 : ℕ)
    decide
  rw [hskip] at htb
  exact RingResult.noConfusion (Except.ok.inj htb)

/-- C4: corrected claim.  For rings of at most 8 bonds whose spread
computations both succeed and whose bonds carry well-formed clockwise
flags, the ring is circled iff it is aromatic, symmetric (both spreads
at most 5 percent) and the aromatic_circles option is on, and in every
other such case every ring bond receives a clockwise or
counter-clockwise tag; rings of more than 8 bonds are skipped entirely
and receive neither treatment; and a zero maximal bond length or a zero
maximal center distance makes annotateRing raise ZeroDivisionError
instead of tagging or circling. -/
theorem c4_amended (bonds : List Bond) (ia ac : Bool) (rotate : ℝ) (bl cd : ℝ)
    (hlen : bonds.length ≤ 8) (hne : bonds ≠ [])
    (hcw : ∀ b ∈ bonds, b.clockwise = 0 ∨ b.clockwise = 1 ∨ b.clockwise = -1)
    (hbl : ringBlSpread bonds = Except.ok bl)
    (hcd : ringCdSpread bonds = Except.ok cd) :
    ((∃ cx cy aa, annotateRing bonds ia ac rotate
        = Except.ok (RingResult.circled cx cy aa)) ↔
      (ia = true ∧ (cd ≤ 5 / 100 ∧ bl ≤ 5 / 100) ∧ ac = true)) ∧
    (¬ (ia = true ∧ (cd ≤ 5 / 100 ∧ bl ≤ 5 / 100) ∧ ac = true) →
      ∃ tb, annotateRing bonds ia ac rotate = Except.ok (RingResult.tagged tb) ∧
        tb.length = bonds.length ∧
        ∀ b ∈ tb, b.clockwise = 1 ∨ b.clockwise = -1) ∧
    (∀ bonds2 : List Bond, 8 < bonds2.length →
      annotateRing bonds2 ia ac rotate = Except.ok RingResult.skipped) ∧
    (∀ bonds3 : List Bond, ¬ 8 < bonds3.length → ∀ e,
      ringBlSpread bonds3 = Except.error e →
      annotateRing bonds3 ia ac rotate = Except.error e) ∧
    (∀ bonds4 : List Bond, ¬ 8 < bonds4.length → ∀ bl4,
      ringBlSpread bonds4 = Except.ok bl4 → ∀ e,
      ringCdSpread bonds4 = Except.error e →
      annotateRing bonds4 ia ac rotate = Except.error e) := by
  have hguard : ¬ (8 < bonds.length) := by omega
  have heq : annotateRing bonds ia ac rotate =
      (if ia = true ∧ (cd ≤ 5 / 100 ∧ bl ≤ 5 / 100) ∧ ac = true then
        Except.ok (RingResult.circled (ringCenterOf bonds).1 (ringCenterOf bonds).2
          ((ringAtoms bonds).map (fun a =>
            (a, (compare_positions a.x a.y (ringCenterOf bonds).1
              (ringCenterOf bonds).2).2))))
      else
        Except.ok (RingResult.tagged (bonds.map (fun b =>
          b.is_clockwise (ringCenterOf bonds).1 (ringCenterOf bonds).2 rotate)))) := by
    unfold annotateRing
    rw [if_neg hguard, hbl, except_bind_ok, hcd, except_bind_ok]
  have hskip : ∀ bonds2 : List Bond, 8 < bonds2.length →
      annotateRing bonds2 ia ac rotate = Except.ok RingResult.skipped := by
    intro bonds2 h2
    unfold annotateRing
    rw [if_pos h2]
  have hberr : ∀ bonds3 : List Bond, ¬ 8 < bonds3.length → ∀ e,
      ringBlSpread bonds3 = Except.error e →
      annotateRing bonds3 ia ac rotate = Except.error e := by
    intro bonds3 h3 e he
    unfold annotateRing
    rw [if_neg h3, he, except_bind_error]
  have hcerr : ∀ bonds4 : List Bond, ¬ 8 < bonds4.length → ∀ bl4,
      ringBlSpread bonds4 = Except.ok bl4 → ∀ e,
      ringCdSpread bonds4 = Except.error e →
      annotateRing bonds4 ia ac rotate = Except.error e := by
    intro bonds4 h4 bl4 hb4 e he
    unfold annotateRing
    rw [if_neg h4, hb4, except_bind_ok, he, except_bind_error]
  by_cases hcond : ia = true ∧ (cd ≤ 5 / 100 ∧ bl ≤ 5 / 100) ∧ ac = true
  · refine ⟨?_, ?_, hskip, hberr, hcerr⟩
    · rw [heq, if_pos hcond]
      refine iff_of_true ⟨_, _, _, rfl⟩ hcond
    · intro hn
      exact absurd hcond hn
  · refine ⟨?_, ?_, hskip, hberr, hcerr⟩
    · rw [heq, if_neg hcond]
      refine iff_of_false ?_ hcond
      rintro ⟨cx, cy, aa, hok⟩
      exact RingResult.noConfusion (Except.ok.inj hok)
    · intro _
      refine ⟨bonds.map (fun b =>
        b.is_clockwise (ringCenterOf bonds).1 (ringCenterOf bonds).2 rotate), ?_, ?_, ?_⟩
      · rw [heq, if_neg hcond]
      · exact List.length_map _ _
      · intro b hb
        rcases List.mem_map.mp hb with ⟨b0, hb0, rfl⟩
        rw [Bond.is_clockwise]
        by_cases h0 : b0.clockwise ≠ 0
        · rw [if_pos h0]
          rcases hcw b0 hb0 with h | h | h
          · exact absurd h h0
          · exact Or.inl h
          · exact Or.inr h
        · rw [if_neg h0]
          by_cases hk : 180 < rmod ((compare_positions b0.end_atom.x b0.end_atom.y
              (ringCenterOf bonds).1 (ringCenterOf bonds).2).2 + rotate - b0.angle) 360
          · rw [if_pos hk]
            exact Or.inl rfl
          · rw [if_neg hk]
            exact Or.inr rfl

/-- The first atom of the concrete witness ring, at the origin. -/
def c4wAtomA : Atom := { idx := 0, x := 0, y := 0, neighbors := [], bond_angles := [] }

/-- The second atom of the concrete witness ring, at (2, 0). -/
def c4wAtomB : Atom := { idx := 1, x := 2, y := 0, neighbors := [], bond_angles := [] }

/-- A two-bond concrete ring with non-degenerate geometry: atoms at
distance 2, both bonds of length 1, center (1, 0), both center
distances 1. -/
def c4wBonds : List Bond :=
  [{ start_atom := c4wAtomA, end_atom := c4wAtomB, bond_type := BondType.single
     angle := 0, length := 1 },
   { start_atom := c4wAtomB, end_atom := c4wAtomA, bond_type := BondType.single
     angle := 180, length := 1 }]

theorem c4w_ringAtoms : ringAtoms c4wBonds = [c4wAtomA, c4wAtomB] := rfl

theorem c4w_center_fst : (ringCenterOf c4wBonds).1 = 1 := by
  show ((ringAtoms c4wBonds).map (fun a => a.x)).sum / ((ringAtoms c4wBonds).length : ℝ) = 1
  rw [c4w_ringAtoms]
  norm_num [c4wAtomA, c4wAtomB]

theorem c4w_center_snd : (ringCenterOf c4wBonds).2 = 0 := by
  show ((ringAtoms c4wBonds).map (fun a => a.y)).sum / ((ringAtoms c4wBonds).length : ℝ) = 0
  rw [c4w_ringAtoms]
  norm_num [c4wAtomA, c4wAtomB]

theorem c4w_blSpread : ringBlSpread c4wBonds = Except.ok 0 := by
  have hl : ringBondLengths c4wBonds = [1, 1] := rfl
  have hmax : pyMaxList [(1 : ℝ), 1] = 1 := by
    simp [pyMaxList]
  have hmin : pyMinList [(1 : ℝ), 1] = 1 := by
    simp [pyMinList]
  rw [ringBlSpread, hl, hmax, hmin, if_neg (by norm_num)]
  norm_num

theorem c4w_centerDists : ringCenterDists c4wBonds = [1, 1] := by
  rw [ringCenterDists, c4w_ringAtoms]
  simp only [List.map_cons, List.map_nil]
  rw [c4w_center_fst, c4w_center_snd, compare_positions_fst, compare_positions_fst]
  norm_num [c4wAtomA, c4wAtomB, Real.sqrt_one]

theorem c4w_cdSpread : ringCdSpread c4wBonds = Except.ok 0 := by
  have hmax : pyMaxList [(1 : ℝ), 1] = 1 := by
    simp [pyMaxList]
  have hmin : pyMinList [(1 : ℝ), 1] = 1 := by
    simp [pyMinList]
  rw [ringCdSpread, c4w_centerDists, hmax, hmin, if_neg (by norm_num)]
  norm_num

/-- C4 witness: the corrected theorem applied to a concrete non-aromatic
ring of two bonds with non-degenerate geometry (both spreads evaluate
to ok 0). -/
theorem c4_amended_witness :
    c4wBonds.length ≤ 8 ∧ c4wBonds ≠ [] ∧
    (∀ b ∈ c4wBonds, b.clockwise = 0 ∨ b.clockwise = 1 ∨ b.clockwise = -1) ∧
    ringBlSpread c4wBonds = Except.ok 0 ∧
    ringCdSpread c4wBonds = Except.ok 0 ∧
    (((∃ cx cy aa, annotateRing c4wBonds false false 0
          = Except.ok (RingResult.circled cx cy aa)) ↔
        ((false : Bool) = true ∧ ((0 : ℝ) ≤ 5 / 100 ∧ (0 : ℝ) ≤ 5 / 100) ∧
          (false : Bool) = true)) ∧
      (¬ ((false : Bool) = true ∧ ((0 : ℝ) ≤ 5 / 100 ∧ (0 : ℝ) ≤ 5 / 100) ∧
          (false : Bool) = true) →
        ∃ tb, annotateRing c4wBonds false false 0 = Except.ok (RingResult.tagged tb) ∧
          tb.length = c4wBonds.length ∧
          ∀ b ∈ tb, b.clockwise = 1 ∨ b.clockwise = -1) ∧
      (∀ bonds2 : List Bond, 8 < bonds2.length →
        annotateRing bonds2 false false 0 = Except.ok RingResult.skipped) ∧
      (∀ bonds3 : List Bond, ¬ 8 < bonds3.length → ∀ e,
        ringBlSpread bonds3 = Except.error e →
        annotateRing bonds3 false false 0 = Except.error e) ∧
      (∀ bonds4 : List Bond, ¬ 8 < bonds4.length → ∀ bl4,
        ringBlSpread bonds4 = Except.ok bl4 → ∀ e,
        ringCdSpread bonds4 = Except.error e →
        annotateRing bonds4 false false 0 = Except.error e)) := by
  have h1 : c4wBonds.length ≤ 8 := by
    show (2 : ℕ) ≤ 8
    decide
  have h2 : c4wBonds ≠ [] := by
    intro h
    exact List.noConfusion h
  have h3 : ∀ b ∈ c4wBonds, b.clockwise = 0 ∨ b.clockwise = 1 ∨ b.clockwise = -1 := by
    intro b hb
    rcases List.mem_cons.mp hb with rfl | hb
    · exact Or.inl rfl
    rcases List.mem_cons.mp hb with rfl | hb
    · exact Or.inl rfl
    exact absurd hb (List.not_mem_nil b)
  exact ⟨h1, h2, h3, c4w_blSpread, c4w_cdSpread,
    c4_amended c4wBonds false false 0 0 0 h1 h2 h3 c4w_blSpread c4w_cdSpread⟩

/-! ### C5: molecule.Molecule.connect_fragments -/

/-- All atoms occurring in a pair list.  Python builds a set; only
membership in it is ever used, so a list model is faithful. -/
def bondedList (pairs : List (ℕ × ℕ)) : List ℕ :=
  pairs.flatMap (fun p => [p.1, p.2])

/-- connected_atoms and set(r) intersect: one of the pair's atoms is
already connected. -/
def pairTouches (conn : List ℕ) (r : ℕ × ℕ) : Bool :=
  conn.contains r.1 || conn.contains r.2

/-- connected_atoms |= set(r). -/
def addAtoms (conn : List ℕ) (r : ℕ × ℕ) : List ℕ :=
  let c1 := if conn.contains r.1 then conn else conn ++ [r.1]
  if c1.contains r.2 then c1 else c1 ++ [r.2]

/-- One for-loop pass of split_pairs over rest, distributing each pair
into connected_pairs (found) or unconnected. -/
def splitPass (conn : List ℕ) (found unconn rest : List (ℕ × ℕ)) :
    List ℕ × List (ℕ × ℕ) × List (ℕ × ℕ) :=
  match rest with
  | [] => (conn, found, unconn)
  | r :: rs =>
    if pairTouches conn r then splitPass (addAtoms conn r) (found ++ [r]) unconn rs
    else splitPass conn found (unconn ++ [r]) rs

/-- The while-True loop of split_pairs; each productive pass strictly
shrinks rest, so fuel rest.length + 1 always suffices. -/
def splitLoop : ℕ → List ℕ → List (ℕ × ℕ) → List (ℕ × ℕ) →
    List (ℕ × ℕ) × List (ℕ × ℕ)
  | 0, _, acc, rest => (acc, rest)
  | fuel + 1, conn, acc, rest =>
    let st := splitPass conn [] [] rest
    if st.2.2.length = rest.length then (acc ++ st.2.1, st.2.2)
    else splitLoop fuel st.1 (acc ++ st.2.1) st.2.2

/-- molecule.split_pairs: the pairs connected (directly or indirectly)
to the first pair, and the rest. -/
def split_pairs (pair_list : List (ℕ × ℕ)) : List (ℕ × ℕ) × List (ℕ × ℕ) :=
  match pair_list with
  | [] => ([], [])
  | first :: rest => splitLoop (rest.length + 1) (addAtoms [] first) [first] rest

/-- The while-True loop of molecule_fragments; each iteration consumes
at least one pair, so fuel pairs.length suffices. -/
def fragLoop : ℕ → List (ℕ × ℕ) → List (List (ℕ × ℕ)) → List (List (ℕ × ℕ))
  | 0, _, acc => acc
  | fuel + 1, pairs, acc =>
    let cu := split_pairs pairs
    if cu.2.isEmpty then acc ++ [cu.1] else fragLoop fuel cu.2 (acc ++ [cu.1])

/-- molecule.Molecule.molecule_fragments. -/
def molecule_fragments (pairs : List (ℕ × ℕ)) : List (List (ℕ × ℕ)) :=
  if pairs.length = 0 then []
  else if pairs.length = 1 then [pairs]
  else fragLoop pairs.length pairs []

/-- head[-1][-1]: second atom of the last pair of a fragment. -/
def pairListLast2 (frag : List (ℕ × ℕ)) : ℕ := (frag.getLast?.getD (0, 0)).2

/-- tail[0][0]: first atom of the first pair of a fragment. -/
def pairListFirst1 (frag : List (ℕ × ℕ)) : ℕ := frag.headI.1

/-- The links made between consecutive fragments. -/
def fragmentLinks (frags : List (List (ℕ × ℕ))) : List (ℕ × ℕ) :=
  if 1 < frags.length then
    (frags.zip frags.tail).map (fun ht => (pairListLast2 ht.1, pairListFirst1 ht.2))
  else []

/-- molecule.Molecule.connect_fragments, modelled as the list of
(start, end) atom index pairs passed to link_atoms, in call order.
Python iterates a set difference for the orphans; set order is
implementation-defined and nothing downstream depends on it, so the
atom key order is used here. -/
def connect_fragments (atoms : List ℕ) (pairs : List (ℕ × ℕ)) : List (ℕ × ℕ) :=
  let fragments := molecule_fragments pairs
  let unbonded := atoms.filter (fun a => !((bondedList pairs).contains a))
  let base := fragmentLinks fragments
  if unbonded.isEmpty then base
  else if !fragments.isEmpty then
    base ++ unbonded.map (fun a => (pairListLast2 (fragments.getLast?.getD []), a))
  else
    match unbonded with
    | [] => base
    | anchor :: restOrphans => base ++ restOrphans.map (fun a => (anchor, a))

/-- Undirected adjacency through a pair list. -/
def pairRel (E : List (ℕ × ℕ)) (a b : ℕ) : Prop := (a, b) ∈ E ∨ (b, a) ∈ E

/-- Connectivity (possibility of traversal) through a pair list. -/
def Conn (E : List (ℕ × ℕ)) : ℕ → ℕ → Prop := Relation.ReflTransGen (pairRel E)

theorem mem_bondedList {pairs : List (ℕ × ℕ)} {a : ℕ} :
    a ∈ bondedList pairs ↔ ∃ p ∈ pairs, a = p.1 ∨ a = p.2 := by
  unfold bondedList
  rw [List.mem_flatMap]
  constructor
  · rintro ⟨p, hp, hm⟩
    rcases List.mem_cons.mp hm with h | hm
    · exact ⟨p, hp, Or.inl h⟩
    rcases List.mem_cons.mp hm with h | hm
    · exact ⟨p, hp, Or.inr h⟩
    exact absurd hm (List.not_mem_nil a)
  · rintro ⟨p, hp, h | h⟩
    · exact ⟨p, hp, by rw [h]; exact List.mem_cons_self _ _⟩
    · exact ⟨p, hp, by rw [h]; exact List.mem_cons.mpr (Or.inr (List.mem_cons_self _ _))⟩

theorem pairTouches_iff {conn : List ℕ} {r : ℕ × ℕ} :
    pairTouches conn r = true ↔ r.1 ∈ conn ∨ r.2 ∈ conn := by
  unfold pairTouches
  rw [Bool.or_eq_true, List.elem_iff, List.elem_iff]

theorem mem_addAtoms {conn : List ℕ} {r : ℕ × ℕ} {a : ℕ} :
    a ∈ addAtoms conn r ↔ a ∈ conn ∨ a = r.1 ∨ a = r.2 := by
  unfold addAtoms
  by_cases h1 : conn.contains r.1
  · have h1m : r.1 ∈ conn := List.elem_iff.mp h1
    rw [if_pos h1]
    by_cases h2 : conn.contains r.2
    · have h2m : r.2 ∈ conn := List.elem_iff.mp h2
      rw [if_pos h2]
      constructor
      · exact fun h => Or.inl h
      · rintro (h | h | h)
        · exact h
        · rw [h]; exact h1m
        · rw [h]; exact h2m
    · rw [if_neg h2, List.mem_append, List.mem_singleton]
      constructor
      · rintro (h | h)
        · exact Or.inl h
        · exact Or.inr (Or.inr h)
      · rintro (h | h | h)
        · exact Or.inl h
        · rw [h]; exact Or.inl h1m
        · exact Or.inr h
  · rw [if_neg h1]
    by_cases h2 : (conn ++ [r.1]).contains r.2
    · have h2m : r.2 ∈ conn ++ [r.1] := List.elem_iff.mp h2
      rw [if_pos h2, List.mem_append, List.mem_singleton]
      constructor
      · rintro (h | h)
        · exact Or.inl h
        · exact Or.inr (Or.inl h)
      · rintro (h | h | h)
        · exact Or.inl h
        · exact Or.inr h
        · rw [h]
          rcases List.mem_append.mp h2m with h | h
          · exact Or.inl h
          · exact Or.inr (List.mem_singleton.mp h)
    · rw [if_neg h2, List.mem_append, List.mem_append, List.mem_singleton, List.mem_singleton]
      constructor
      · rintro ((h | h) | h)
        · exact Or.inl h
        · exact Or.inr (Or.inl h)
        · exact Or.inr (Or.inr h)
      · rintro (h | h | h)
        · exact Or.inl (Or.inl h)
        · exact Or.inl (Or.inr h)
        · exact Or.inr h

theorem conn_subset_addAtoms {conn : List ℕ} {r : ℕ × ℕ} {a : ℕ} (h : a ∈ conn) :
    a ∈ addAtoms conn r := mem_addAtoms.mpr (Or.inl h)

theorem pairRel_symm {E : List (ℕ × ℕ)} {a b : ℕ} (h : pairRel E a b) : pairRel E b a :=
  h.elim Or.inr Or.inl

theorem Conn_symm {E : List (ℕ × ℕ)} {a b : ℕ} (h : Conn E a b) : Conn E b a := by
  induction h with
  | refl => exact Relation.ReflTransGen.refl
  | tail hpre hstep ih => exact Relation.ReflTransGen.head (pairRel_symm hstep) ih

theorem Conn_mono {E1 E2 : List (ℕ × ℕ)} (hsub : ∀ p ∈ E1, p ∈ E2) {a b : ℕ}
    (h : Conn E1 a b) : Conn E2 a b := by
  refine Relation.ReflTransGen.mono ?_ h
  intro x y hxy
  exact hxy.elim (fun h => Or.inl (hsub _ h)) (fun h => Or.inr (hsub _ h))

theorem Conn_edge {E : List (ℕ × ℕ)} {a b : ℕ} (h : (a, b) ∈ E) : Conn E a b :=
  Relation.ReflTransGen.single (Or.inl h)

theorem Conn_trans {E : List (ℕ × ℕ)} {a b c : ℕ} (h1 : Conn E a b) (h2 : Conn E b c) :
    Conn E a c := Relation.ReflTransGen.trans h1 h2

theorem splitPass_nil (conn : List ℕ) (found unconn : List (ℕ × ℕ)) :
    splitPass conn found unconn [] = (conn, found, unconn) := rfl

theorem splitPass_cons (conn : List ℕ) (found unconn : List (ℕ × ℕ)) (r : ℕ × ℕ)
    (rs : List (ℕ × ℕ)) :
    splitPass conn found unconn (r :: rs) =
      if pairTouches conn r then splitPass (addAtoms conn r) (found ++ [r]) unconn rs
      else splitPass conn found (unconn ++ [r]) rs := rfl

theorem splitPass_spec (root : ℕ) (rest : List (ℕ × ℕ)) :
    ∀ conn found unconn,
    (∃ df, (splitPass conn found unconn rest).2.1 = found ++ df ∧ ∀ p ∈ df, p ∈ rest) ∧
    (∃ du, (splitPass conn found unconn rest).2.2 = unconn ++ du ∧ ∀ p ∈ du, p ∈ rest) ∧
    (∀ p ∈ rest, p ∈ (splitPass conn found unconn rest).2.1 ∨
      p ∈ (splitPass conn found unconn rest).2.2) ∧
    (∀ a ∈ conn, a ∈ (splitPass conn found unconn rest).1) ∧
    ((splitPass conn found unconn rest).2.1.length
      + (splitPass conn found unconn rest).2.2.length
      = found.length + unconn.length + rest.length) ∧
    (∀ B, (∀ a ∈ conn, Conn (B ++ found) a root) →
      (∀ p ∈ found, p.1 ∈ conn ∧ p.2 ∈ conn) →
      ((∀ a ∈ (splitPass conn found unconn rest).1,
          Conn (B ++ (splitPass conn found unconn rest).2.1) a root) ∧
        (∀ p ∈ (splitPass conn found unconn rest).2.1,
          p.1 ∈ (splitPass conn found unconn rest).1 ∧
          p.2 ∈ (splitPass conn found unconn rest).1))) ∧
    ((splitPass conn found unconn rest).2.1.length = found.length →
      ((splitPass conn found unconn rest).1 = conn ∧
        ∀ p ∈ rest, pairTouches conn p = false)) := by
  induction rest with
  | nil =>
    intro conn found unconn
    rw [splitPass_nil]
    refine ⟨⟨[], by simp, by simp⟩, ⟨[], by simp, by simp⟩, ?_, ?_, ?_, ?_, ?_⟩
    · intro p hp
      exact absurd hp (List.not_mem_nil p)
    · intro a ha
      exact ha
    · simp
    · intro B hc1 hc2
      exact ⟨hc1, hc2⟩
    · intro _
      refine ⟨rfl, ?_⟩
      intro p hp
      exact absurd hp (List.not_mem_nil p)
  | cons r rs ih =>
    intro conn found unconn
    rw [splitPass_cons]
    by_cases ht : pairTouches conn r = true
    · rw [if_pos ht]
      obtain ⟨⟨df, hdf, hdfm⟩, ⟨du, hdu, hdum⟩, hcov, hconnsub, hlen, hP6, hP7⟩ :=
        ih (addAtoms conn r) (found ++ [r]) unconn
      refine ⟨⟨r :: df, ?_, ?_⟩, ⟨du, hdu, ?_⟩, ?_, ?_, ?_, ?_, ?_⟩
      · rw [hdf, List.append_assoc]
        rfl
      · intro p hp
        rcases List.mem_cons.mp hp with h | h
        · rw [h]
          exact List.mem_cons_self _ _
        · exact List.mem_cons_of_mem _ (hdfm p h)
      · intro p hp
        exact List.mem_cons_of_mem _ (hdum p hp)
      · intro p hp
        rcases List.mem_cons.mp hp with h | h
        · left
          rw [h, hdf]
          exact List.mem_append.mpr (Or.inl (List.mem_append.mpr (Or.inr
            (List.mem_singleton.mpr rfl))))
        · exact hcov p h
      · intro a ha
        exact hconnsub a (conn_subset_addAtoms ha)
      · rw [hlen]
        simp [List.length_append]
        omega
      · intro B hc1 hc2
        refine hP6 B ?_ ?_
        · intro a ha
          have hsub : ∀ p ∈ B ++ found, p ∈ B ++ (found ++ [r]) := by
            intro p hp
            rcases List.mem_append.mp hp with h | h
            · exact List.mem_append.mpr (Or.inl h)
            · exact List.mem_append.mpr (Or.inr (List.mem_append.mpr (Or.inl h)))
          have hstep : ∀ b ∈ conn, Conn (B ++ (found ++ [r])) b root := by
            intro b hb
            exact Conn_mono hsub (hc1 b hb)
          have hredge : (r.1, r.2) ∈ B ++ (found ++ [r]) := by
            exact List.mem_append.mpr (Or.inr (List.mem_append.mpr (Or.inr
              (List.mem_singleton.mpr rfl))))
          rcases mem_addAtoms.mp ha with h | h | h
          · exact hstep a h
          · rcases pairTouches_iff.mp ht with h1 | h2
            · rw [h]
              exact hstep r.1 h1
            · rw [h]
              exact Relation.ReflTransGen.head (Or.inl hredge) (hstep r.2 h2)
          · rcases pairTouches_iff.mp ht with h1 | h2
            · rw [h]
              exact Relation.ReflTransGen.head (Or.inr hredge) (hstep r.1 h1)
            · rw [h]
              exact hstep r.2 h2
        · intro p hp
          rcases List.mem_append.mp hp with h | h
          · exact ⟨conn_subset_addAtoms (hc2 p h).1, conn_subset_addAtoms (hc2 p h).2⟩
          · rw [List.mem_singleton.mp h]
            exact ⟨mem_addAtoms.mpr (Or.inr (Or.inl rfl)),
              mem_addAtoms.mpr (Or.inr (Or.inr rfl))⟩
      · intro h
        exfalso
        rw [hdf] at h
        simp [List.length_append] at h
    · rw [if_neg ht]
      obtain ⟨⟨df, hdf, hdfm⟩, ⟨du, hdu, hdum⟩, hcov, hconnsub, hlen, hP6, hP7⟩ :=
        ih conn found (unconn ++ [r])
      have htf : pairTouches conn r = false := by
        cases hbt : pairTouches conn r
        · rfl
        · exact absurd hbt ht
      refine ⟨⟨df, hdf, ?_⟩, ⟨r :: du, ?_, ?_⟩, ?_, hconnsub, ?_, hP6, ?_⟩
      · intro p hp
        exact List.mem_cons_of_mem _ (hdfm p hp)
      · rw [hdu, List.append_assoc]
        rfl
      · intro p hp
        rcases List.mem_cons.mp hp with h | h
        · rw [h]
          exact List.mem_cons_self _ _
        · exact List.mem_cons_of_mem _ (hdum p h)
      · intro p hp
        rcases List.mem_cons.mp hp with h | h
        · right
          rw [h, hdu]
          exact List.mem_append.mpr (Or.inl (List.mem_append.mpr (Or.inr
            (List.mem_singleton.mpr rfl))))
        · exact hcov p h
      · rw [hlen]
        simp [List.length_append]
        omega
      · intro h
        obtain ⟨hconn, hforall⟩ := hP7 h
        refine ⟨hconn, ?_⟩
        intro p hp
        rcases List.mem_cons.mp hp with hh | hh
        · rw [hh]
          exact htf
        · exact hforall p hh

theorem splitLoop_succ (fuel : ℕ) (conn : List ℕ) (acc rest : List (ℕ × ℕ)) :
    splitLoop (fuel + 1) conn acc rest =
      if (splitPass conn [] [] rest).2.2.length = rest.length then
        (acc ++ (splitPass conn [] [] rest).2.1, (splitPass conn [] [] rest).2.2)
      else splitLoop fuel (splitPass conn [] [] rest).1
        (acc ++ (splitPass conn [] [] rest).2.1) (splitPass conn [] [] rest).2.2 := rfl

theorem splitLoop_spec (root : ℕ) :
    ∀ fuel : ℕ, ∀ rest : List (ℕ × ℕ), ∀ conn : List ℕ, ∀ acc : List (ℕ × ℕ),
    rest.length < fuel →
    (∀ a ∈ conn, Conn acc a root) →
    (∀ p ∈ acc, p.1 ∈ conn ∧ p.2 ∈ conn) →
    (∃ d, (splitLoop fuel conn acc rest).1 = acc ++ d ∧ ∀ p ∈ d, p ∈ rest) ∧
    (∀ p ∈ (splitLoop fuel conn acc rest).2, p ∈ rest) ∧
    (∀ p ∈ rest, p ∈ (splitLoop fuel conn acc rest).1 ∨
      p ∈ (splitLoop fuel conn acc rest).2) ∧
    (∃ conn2, (∀ a ∈ conn, a ∈ conn2) ∧
      (∀ a ∈ conn2, Conn (splitLoop fuel conn acc rest).1 a root) ∧
      (∀ p ∈ (splitLoop fuel conn acc rest).1, p.1 ∈ conn2 ∧ p.2 ∈ conn2) ∧
      (∀ p ∈ (splitLoop fuel conn acc rest).2, pairTouches conn2 p = false)) ∧
    (splitLoop fuel conn acc rest).2.length ≤ rest.length := by
  intro fuel
  induction fuel with
  | zero =>
    intro rest conn acc hfuel
    exact absurd hfuel (by omega)
  | succ f ih =>
    intro rest conn acc hfuel hI1 hI2
    obtain ⟨⟨df, hdf, hdfm⟩, ⟨du, hdu, hdum⟩, hcov, hconnsub, hlen, hP6, hP7⟩ :=
      splitPass_spec root rest conn [] []
    rw [List.nil_append] at hdf hdu
    rw [splitLoop_succ]
    by_cases hstop : (splitPass conn [] [] rest).2.2.length = rest.length
    · rw [if_pos hstop]
      have h0 : (splitPass conn [] [] rest).2.1.length = 0 := by
        simp at hlen
        omega
      have hnil : (splitPass conn [] [] rest).2.1 = [] := List.length_eq_zero.mp h0
      obtain ⟨hconnfix, hnotouch⟩ := hP7 (by rw [h0]; rfl)
      refine ⟨⟨[], by rw [hnil], by simp⟩, ?_, ?_, ?_, ?_⟩
      · intro p hp
        rw [hdu] at hp
        exact hdum p hp
      · intro p hp
        rcases hcov p hp with h | h
        · rw [hnil] at h
          exact absurd h (List.not_mem_nil p)
        · exact Or.inr h
      · refine ⟨conn, fun a ha => ha, ?_, ?_, ?_⟩
        · intro a ha
          rw [hnil, List.append_nil]
          exact hI1 a ha
        · intro p hp
          rw [hnil, List.append_nil] at hp
          exact hI2 p hp
        · intro p hp
          rw [hdu] at hp
          exact hnotouch p (hdum p hp)
      · rw [hstop]
    · rw [if_neg hstop]
      have hlt : (splitPass conn [] [] rest).2.2.length < rest.length := by
        simp at hlen
        omega
      have hI1n : ∀ a ∈ (splitPass conn [] [] rest).1,
          Conn (acc ++ (splitPass conn [] [] rest).2.1) a root := by
        refine (hP6 acc ?_ ?_).1
        · intro a ha
          rw [List.append_nil]
          exact hI1 a ha
        · intro p hp
          exact absurd hp (List.not_mem_nil p)
      have hI2n : ∀ p ∈ acc ++ (splitPass conn [] [] rest).2.1,
          p.1 ∈ (splitPass conn [] [] rest).1 ∧ p.2 ∈ (splitPass conn [] [] rest).1 := by
        intro p hp
        rcases List.mem_append.mp hp with h | h
        · exact ⟨hconnsub p.1 (hI2 p h).1, hconnsub p.2 (hI2 p h).2⟩
        · exact (hP6 acc (by intro a ha; rw [List.append_nil]; exact hI1 a ha)
            (by intro p hp; exact absurd hp (List.not_mem_nil p))).2 p h
      obtain ⟨⟨d2, hd2, hd2m⟩, hu2, hcov2, ⟨conn2, hc2sub, hc2conn, hc2pairs, hc2no⟩, hlen2⟩ :=
        ih (splitPass conn [] [] rest).2.2 (splitPass conn [] [] rest).1
          (acc ++ (splitPass conn [] [] rest).2.1) (by omega) hI1n hI2n
      refine ⟨⟨(splitPass conn [] [] rest).2.1 ++ d2, ?_, ?_⟩, ?_, ?_, ?_, ?_⟩
      · rw [hd2, List.append_assoc]
      · intro p hp
        rcases List.mem_append.mp hp with h | h
        · rw [hdf] at h
          exact hdfm p h
        · exact hdum p (by rw [← hdu]; exact hd2m p h)
      · intro p hp
        exact hdum p (by rw [← hdu]; exact hu2 p hp)
      · intro p hp
        rcases hcov p hp with h | h
        · left
          rw [hd2]
          exact List.mem_append.mpr (Or.inl (List.mem_append.mpr (Or.inr h)))
        · exact hcov2 p h
      · refine ⟨conn2, ?_, hc2conn, hc2pairs, hc2no⟩
        intro a ha
        exact hc2sub a (hconnsub a ha)
      · omega

theorem split_pairs_cons (first : ℕ × ℕ) (rest : List (ℕ × ℕ)) :
    split_pairs (first :: rest)
      = splitLoop (rest.length + 1) (addAtoms [] first) [first] rest := rfl

theorem split_pairs_spec (first : ℕ × ℕ) (rest : List (ℕ × ℕ)) :
    (∃ d, (split_pairs (first :: rest)).1 = first :: d ∧ ∀ p ∈ d, p ∈ rest) ∧
    (∀ p ∈ (split_pairs (first :: rest)).2, p ∈ rest) ∧
    (∀ p ∈ first :: rest,
      p ∈ (split_pairs (first :: rest)).1 ∨ p ∈ (split_pairs (first :: rest)).2) ∧
    (∀ p ∈ (split_pairs (first :: rest)).1,
      Conn (split_pairs (first :: rest)).1 p.1 first.1 ∧
      Conn (split_pairs (first :: rest)).1 p.2 first.1) ∧
    (∃ conn2, (∀ p ∈ (split_pairs (first :: rest)).1, p.1 ∈ conn2 ∧ p.2 ∈ conn2) ∧
      (∀ p ∈ (split_pairs (first :: rest)).2, pairTouches conn2 p = false)) ∧
    (split_pairs (first :: rest)).2.length ≤ rest.length := by
  have hI1 : ∀ a ∈ addAtoms [] first, Conn [first] a first.1 := by
    intro a ha
    rcases mem_addAtoms.mp ha with h | h | h
    · exact absurd h (List.not_mem_nil a)
    · rw [h]
      exact Relation.ReflTransGen.refl
    · rw [h]
      refine Relation.ReflTransGen.single (Or.inr ?_)
      exact List.mem_singleton.mpr rfl
  have hI2 : ∀ p ∈ [first], p.1 ∈ addAtoms [] first ∧ p.2 ∈ addAtoms [] first := by
    intro p hp
    rw [List.mem_singleton.mp hp]
    exact ⟨mem_addAtoms.mpr (Or.inr (Or.inl rfl)), mem_addAtoms.mpr (Or.inr (Or.inr rfl))⟩
  obtain ⟨⟨d, hd, hdm⟩, hu, hcov, ⟨conn2, hcsub, hcconn, hcpairs, hcno⟩, hlen⟩ :=
    splitLoop_spec first.1 (rest.length + 1) rest (addAtoms [] first) [first]
      (by omega) hI1 hI2
  rw [split_pairs_cons]
  refine ⟨⟨d, by rw [hd]; rfl, hdm⟩, hu, ?_, ?_, ⟨conn2, hcpairs, hcno⟩, hlen⟩
  · intro p hp
    rcases List.mem_cons.mp hp with h | h
    · left
      rw [h, hd]
      exact List.mem_append.mpr (Or.inl (List.mem_singleton.mpr rfl))
    · exact hcov p h
  · intro p hp
    have h := hcpairs p hp
    exact ⟨hcconn p.1 h.1, hcconn p.2 h.2⟩

theorem fragLoop_succ (fuel : ℕ) (pairs : List (ℕ × ℕ)) (acc : List (List (ℕ × ℕ))) :
    fragLoop (fuel + 1) pairs acc =
      if (split_pairs pairs).2.isEmpty then acc ++ [(split_pairs pairs).1]
      else fragLoop fuel (split_pairs pairs).2 (acc ++ [(split_pairs pairs).1]) := rfl

theorem fragLoop_spec :
    ∀ fuel : ℕ, ∀ pairs : List (ℕ × ℕ), ∀ acc : List (List (ℕ × ℕ)),
    pairs ≠ [] → pairs.length ≤ fuel →
    ∃ d, fragLoop fuel pairs acc = acc ++ d ∧ d ≠ [] ∧
      (∀ F ∈ d, F ≠ [] ∧ (∀ p ∈ F, p ∈ pairs) ∧
        (∀ p ∈ F, Conn F p.1 (pairListFirst1 F) ∧ Conn F p.2 (pairListFirst1 F))) ∧
      (∀ p ∈ pairs, ∃ F ∈ d, p ∈ F) ∧
      d.Pairwise (fun F G => ∀ a, a ∈ bondedList F → a ∉ bondedList G) := by
  intro fuel
  induction fuel with
  | zero =>
    intro pairs acc hne hlen
    exact absurd (List.length_eq_zero.mp (by omega)) hne
  | succ f ih =>
    intro pairs acc hne hlen
    match pairs, hne with
    | first :: rest, _ =>
      obtain ⟨⟨d0, hd0, hd0m⟩, hu, hcov, hintra, ⟨conn2, hcpairs, hcno⟩, hulen⟩ :=
        split_pairs_spec first rest
      have hcne : (split_pairs (first :: rest)).1 ≠ [] := by
        rw [hd0]
        exact List.cons_ne_nil _ _
      have hchead : pairListFirst1 (split_pairs (first :: rest)).1 = first.1 := by
        unfold pairListFirst1
        rw [hd0]
        rfl
      have hcmem : ∀ p ∈ (split_pairs (first :: rest)).1, p ∈ first :: rest := by
        intro p hp
        rw [hd0] at hp
        rcases List.mem_cons.mp hp with h | h
        · rw [h]
          exact List.mem_cons_self _ _
        · exact List.mem_cons_of_mem _ (hd0m p h)
      have hcfacts : (split_pairs (first :: rest)).1 ≠ [] ∧
          (∀ p ∈ (split_pairs (first :: rest)).1, p ∈ first :: rest) ∧
          (∀ p ∈ (split_pairs (first :: rest)).1,
            Conn (split_pairs (first :: rest)).1 p.1
              (pairListFirst1 (split_pairs (first :: rest)).1) ∧
            Conn (split_pairs (first :: rest)).1 p.2
              (pairListFirst1 (split_pairs (first :: rest)).1)) := by
        refine ⟨hcne, hcmem, ?_⟩
        rw [hchead]
        exact hintra
      rw [fragLoop_succ]
      by_cases hu0 : (split_pairs (first :: rest)).2.isEmpty
      · rw [if_pos hu0]
        have hunil : (split_pairs (first :: rest)).2 = [] := by
          exact List.isEmpty_iff.mp hu0
        refine ⟨[(split_pairs (first :: rest)).1], rfl, List.cons_ne_nil _ _, ?_, ?_, ?_⟩
        · intro F hF
          rw [List.mem_singleton.mp hF]
          exact hcfacts
        · intro p hp
          refine ⟨(split_pairs (first :: rest)).1, List.mem_singleton.mpr rfl, ?_⟩
          rcases hcov p hp with h | h
          · exact h
          · rw [hunil] at h
            exact absurd h (List.not_mem_nil p)
        · exact List.pairwise_singleton _ _
      · rw [if_neg hu0]
        have hune : (split_pairs (first :: rest)).2 ≠ [] := by
          intro h
          rw [h] at hu0
          exact hu0 rfl
        have hulen2 : (split_pairs (first :: rest)).2.length ≤ f := by
          have : rest.length + 1 ≤ f + 1 := by
            simpa using hlen
          omega
        obtain ⟨d2, hd2, hd2ne, hd2facts, hd2cov, hd2pw⟩ :=
          ih (split_pairs (first :: rest)).2 (acc ++ [(split_pairs (first :: rest)).1])
            hune hulen2
        refine ⟨(split_pairs (first :: rest)).1 :: d2, ?_, List.cons_ne_nil _ _, ?_, ?_, ?_⟩
        · rw [hd2, List.append_assoc]
          rfl
        · intro F hF
          rcases List.mem_cons.mp hF with h | h
          · rw [h]
            exact hcfacts
          · obtain ⟨hFne, hFmem, hFconn⟩ := hd2facts F h
            refine ⟨hFne, ?_, hFconn⟩
            intro p hp
            exact List.mem_cons_of_mem _ (hu p (hFmem p hp))
        · intro p hp
          rcases hcov p hp with h | h
          · exact ⟨(split_pairs (first :: rest)).1, List.mem_cons_self _ _, h⟩
          · obtain ⟨F, hF, hpF⟩ := hd2cov p h
            exact ⟨F, List.mem_cons_of_mem _ hF, hpF⟩
        · rw [List.pairwise_cons]
          refine ⟨?_, hd2pw⟩
          intro G hG a haC haG
          obtain ⟨p, hpC, hap⟩ := mem_bondedList.mp haC
          obtain ⟨q, hqG, haq⟩ := mem_bondedList.mp haG
          have hqu : q ∈ (split_pairs (first :: rest)).2 :=
            (hd2facts G hG).2.1 q hqG
          have hqno : pairTouches conn2 q = false := hcno q hqu
          have haconn : a ∈ conn2 := by
            rcases hap with h | h
            · rw [h]
              exact (hcpairs p hpC).1
            · rw [h]
              exact (hcpairs p hpC).2
          have : pairTouches conn2 q = true := by
            rcases haq with h | h
            · exact pairTouches_iff.mpr (Or.inl (by rw [← h]; exact haconn))
            · exact pairTouches_iff.mpr (Or.inr (by rw [← h]; exact haconn))
          rw [hqno] at this
          exact Bool.noConfusion this

theorem molecule_fragments_spec (pairs : List (ℕ × ℕ)) :
    (∀ F ∈ molecule_fragments pairs, F ≠ [] ∧ (∀ p ∈ F, p ∈ pairs) ∧
      (∀ p ∈ F, Conn F p.1 (pairListFirst1 F) ∧ Conn F p.2 (pairListFirst1 F))) ∧
    (∀ p ∈ pairs, ∃ F ∈ molecule_fragments pairs, p ∈ F) ∧
    (molecule_fragments pairs).Pairwise
      (fun F G => ∀ a, a ∈ bondedList F → a ∉ bondedList G) ∧
    (pairs ≠ [] → molecule_fragments pairs ≠ []) := by
  unfold molecule_fragments
  by_cases h0 : pairs.length = 0
  · rw [if_pos h0]
    have hnil : pairs = [] := List.length_eq_zero.mp h0
    refine ⟨?_, ?_, List.Pairwise.nil, ?_⟩
    · intro F hF
      exact absurd hF (List.not_mem_nil F)
    · intro p hp
      rw [hnil] at hp
      exact absurd hp (List.not_mem_nil p)
    · intro hne
      exact absurd hnil hne
  · rw [if_neg h0]
    by_cases h1 : pairs.length = 1
    · rw [if_pos h1]
      obtain ⟨p, hp⟩ := List.length_eq_one.mp h1
      subst hp
      refine ⟨?_, ?_, List.pairwise_singleton _ _, ?_⟩
      · intro F hF
        rw [List.mem_singleton.mp hF]
        refine ⟨List.cons_ne_nil _ _, fun q hq => hq, ?_⟩
        intro q hq
        rw [List.mem_singleton.mp hq]
        constructor
        · exact Relation.ReflTransGen.refl
        · refine Relation.ReflTransGen.single (Or.inr ?_)
          exact List.mem_singleton.mpr rfl
      · intro q hq
        exact ⟨[p], List.mem_singleton.mpr rfl, hq⟩
      · intro _
        exact List.cons_ne_nil _ _
    · rw [if_neg h1]
      have hne : pairs ≠ [] := by
        intro h
        rw [h] at h0
        exact h0 rfl
      obtain ⟨d, hd, hdne, hdfacts, hdcov, hdpw⟩ :=
        fragLoop_spec pairs.length pairs [] hne (le_refl _)
      rw [List.nil_append] at hd
      rw [hd]
      exact ⟨hdfacts, hdcov, hdpw, fun _ => hdne⟩

theorem bonded_conn {F : List (ℕ × ℕ)}
    (hintra : ∀ p ∈ F, Conn F p.1 (pairListFirst1 F) ∧ Conn F p.2 (pairListFirst1 F)) :
    ∀ a ∈ bondedList F, Conn F a (pairListFirst1 F) := by
  intro a ha
  obtain ⟨p, hp, h | h⟩ := mem_bondedList.mp ha
  · rw [h]
    exact (hintra p hp).1
  · rw [h]
    exact (hintra p hp).2

theorem last2_mem_bonded {F : List (ℕ × ℕ)} (hne : F ≠ []) :
    pairListLast2 F ∈ bondedList F := by
  have h := List.getLast?_eq_getLast F hne
  unfold pairListLast2
  rw [h]
  exact mem_bondedList.mpr ⟨F.getLast hne, List.getLast_mem hne, Or.inr rfl⟩

theorem first1_mem_bonded {F : List (ℕ × ℕ)} (hne : F ≠ []) :
    pairListFirst1 F ∈ bondedList F := by
  match F, hne with
  | p :: rest, _ =>
    exact mem_bondedList.mpr ⟨p, List.mem_cons_self _ _, Or.inl rfl⟩

theorem bonded_conn_last2 {F : List (ℕ × ℕ)} (hne : F ≠ [])
    (hintra : ∀ p ∈ F, Conn F p.1 (pairListFirst1 F) ∧ Conn F p.2 (pairListFirst1 F)) :
    ∀ a ∈ bondedList F, Conn F a (pairListLast2 F) := by
  intro a ha
  exact Conn_trans (bonded_conn hintra a ha)
    (Conn_symm (bonded_conn hintra _ (last2_mem_bonded hne)))

theorem fragmentLinks_cons_cons (F G : List (ℕ × ℕ)) (t : List (List (ℕ × ℕ))) :
    fragmentLinks (F :: G :: t) =
      (pairListLast2 F, pairListFirst1 G) :: fragmentLinks (G :: t) := by
  cases t with
  | nil => rfl
  | cons x xs =>
    unfold fragmentLinks
    rw [if_pos (by simp), if_pos (by simp)]
    rfl

theorem frags_chain (E : List (ℕ × ℕ)) :
    ∀ frags : List (List (ℕ × ℕ)),
    (∀ F ∈ frags, F ≠ [] ∧ ∀ p ∈ F, p ∈ E) →
    (∀ q ∈ fragmentLinks frags, q ∈ E) →
    (∀ F ∈ frags, ∀ p ∈ F,
      Conn F p.1 (pairListFirst1 F) ∧ Conn F p.2 (pairListFirst1 F)) →
    ∀ F ∈ frags, ∀ a, a ∈ bondedList F →
      Conn E a (pairListLast2 ((frags.getLast?).getD [])) := by
  intro frags
  induction frags with
  | nil =>
    intro _ _ _ F hF
    exact absurd hF (List.not_mem_nil F)
  | cons F0 rest ih =>
    intro hfr hlinks hintra F hF a ha
    cases rest with
    | nil =>
      have hFeq : F = F0 := by
        rcases List.mem_cons.mp hF with h | h
        · exact h
        · exact absurd h (List.not_mem_nil F)
      subst hFeq
      have hne := (hfr F (List.mem_cons_self _ _)).1
      have hsub := (hfr F (List.mem_cons_self _ _)).2
      have h := bonded_conn_last2 hne (hintra F (List.mem_cons_self _ _)) a ha
      have hlast : ([F].getLast?).getD [] = F := rfl
      rw [hlast]
      exact Conn_mono hsub h
    | cons G t =>
      have hlast : ((F0 :: G :: t).getLast?).getD [] = ((G :: t).getLast?).getD [] := rfl
      rw [hlast]
      have hlinksGt : ∀ q ∈ fragmentLinks (G :: t), q ∈ E := by
        intro q hq
        refine hlinks q ?_
        rw [fragmentLinks_cons_cons]
        exact List.mem_cons_of_mem _ hq
      have hfrGt : ∀ K ∈ G :: t, K ≠ [] ∧ ∀ p ∈ K, p ∈ E := by
        intro K hK
        exact hfr K (List.mem_cons_of_mem _ hK)
      have hintraGt : ∀ K ∈ G :: t, ∀ p ∈ K,
          Conn K p.1 (pairListFirst1 K) ∧ Conn K p.2 (pairListFirst1 K) := by
        intro K hK
        exact hintra K (List.mem_cons_of_mem _ hK)
      rcases List.mem_cons.mp hF with hFeq | hFmem
      · subst hFeq
        have hne := (hfr F (List.mem_cons_self _ _)).1
        have hsub := (hfr F (List.mem_cons_self _ _)).2
        have h1 : Conn E a (pairListLast2 F) :=
          Conn_mono hsub (bonded_conn_last2 hne (hintra F (List.mem_cons_self _ _)) a ha)
        have hlink : (pairListLast2 F, pairListFirst1 G) ∈ E := by
          refine hlinks _ ?_
          rw [fragmentLinks_cons_cons]
          exact List.mem_cons_self _ _
        have h2 : Conn E (pairListLast2 F) (pairListFirst1 G) := Conn_edge hlink
        have hGne := (hfrGt G (List.mem_cons_self _ _)).1
        have h3 : Conn E (pairListFirst1 G) (pairListLast2 (((G :: t).getLast?).getD [])) :=
          ih hfrGt hlinksGt hintraGt G (List.mem_cons_self _ _) _ (first1_mem_bonded hGne)
        exact Conn_trans h1 (Conn_trans h2 h3)
      · exact ih hfrGt hlinksGt hintraGt F hFmem a ha

theorem connect_fragments_eq (atoms : List ℕ) (pairs : List (ℕ × ℕ)) :
    connect_fragments atoms pairs =
      (if (atoms.filter (fun a => !((bondedList pairs).contains a))).isEmpty then
        fragmentLinks (molecule_fragments pairs)
      else if !(molecule_fragments pairs).isEmpty then
        fragmentLinks (molecule_fragments pairs) ++
          (atoms.filter (fun a => !((bondedList pairs).contains a))).map
            (fun a => (pairListLast2 (((molecule_fragments pairs).getLast?).getD []), a))
      else
        match atoms.filter (fun a => !((bondedList pairs).contains a)) with
        | [] => fragmentLinks (molecule_fragments pairs)
        | anchor :: restOrphans =>
          fragmentLinks (molecule_fragments pairs)
            ++ restOrphans.map (fun a => (anchor, a))) := rfl

theorem fragmentLinks_length (frags : List (List (ℕ × ℕ))) (hne : frags ≠ []) :
    (fragmentLinks frags).length = frags.length - 1 := by
  unfold fragmentLinks
  by_cases h : 1 < frags.length
  · rw [if_pos h, List.length_map, List.length_zip, List.length_tail]
    omega
  · rw [if_neg h]
    have hpos : 0 < frags.length := List.length_pos.mpr hne
    show 0 = frags.length - 1
    omega

theorem connect_fragments_count (atoms : List ℕ) (pairs : List (ℕ × ℕ))
    (hatoms : atoms ≠ []) :
    ((connect_fragments atoms pairs).length : ℤ)
      = ((molecule_fragments pairs).length : ℤ) - 1
        + ((atoms.filter (fun a => !((bondedList pairs).contains a))).length : ℤ) := by
  obtain ⟨hfacts, hcov, hpw, hnonempty⟩ := molecule_fragments_spec pairs
  rw [connect_fragments_eq]
  by_cases hu : (atoms.filter (fun a => !((bondedList pairs).contains a))).isEmpty
  · rw [if_pos hu]
    have hunil : atoms.filter (fun a => !((bondedList pairs).contains a)) = [] :=
      List.isEmpty_iff.mp hu
    have hpne : pairs ≠ [] := by
      match atoms, hatoms with
      | a0 :: arest, _ =>
        intro hpnil
        have h := List.filter_eq_nil_iff.mp hunil a0 (List.mem_cons_self _ _)
        rw [hpnil] at h
        simp [bondedList] at h
    have hfragsne := hnonempty hpne
    rw [hunil, fragmentLinks_length _ hfragsne]
    have hK : 1 ≤ (molecule_fragments pairs).length := List.length_pos.mpr hfragsne
    simp only [List.length_nil]
    omega
  · rw [if_neg hu]
    by_cases hf : ((molecule_fragments pairs).isEmpty : Bool) = true
    · have hfnil : molecule_fragments pairs = [] := List.isEmpty_iff.mp hf
      rw [if_neg (by rw [hf]; exact fun h => Bool.noConfusion h)]
      have hune : atoms.filter (fun a => !((bondedList pairs).contains a)) ≠ [] := by
        intro h
        rw [h] at hu
        exact hu rfl
      match hul : atoms.filter (fun a => !((bondedList pairs).contains a)), hune with
      | anchor :: restOrphans, _ =>
        rw [hfnil]
        show ((restOrphans.map (fun a => (anchor, a))).length : ℤ) = _
        rw [List.length_map]
        simp only [List.length_nil, List.length_cons]
        omega
    · have hft : (!(molecule_fragments pairs).isEmpty) = true := by
        cases hb : ((molecule_fragments pairs).isEmpty : Bool)
        · rfl
        · exact absurd hb hf
      rw [if_pos hft]
      have hfragsne : molecule_fragments pairs ≠ [] := by
        intro h
        exact hf (by rw [h]; rfl)
      rw [List.length_append, List.length_map, fragmentLinks_length _ hfragsne]
      have hK : 1 ≤ (molecule_fragments pairs).length := List.length_pos.mpr hfragsne
      push_cast
      omega

theorem connect_fragments_conn (atoms : List ℕ) (pairs : List (ℕ × ℕ)) :
    ∀ a ∈ atoms, ∀ b ∈ atoms, Conn (pairs ++ connect_fragments atoms pairs) a b := by
  obtain ⟨hfacts, hcov, hpw, hnonempty⟩ := molecule_fragments_spec pairs
  have hchain : ∀ x, x ∈ bondedList pairs →
      (∀ q ∈ fragmentLinks (molecule_fragments pairs),
        q ∈ pairs ++ connect_fragments atoms pairs) →
      Conn (pairs ++ connect_fragments atoms pairs) x
        (pairListLast2 (((molecule_fragments pairs).getLast?).getD [])) := by
    intro x hx hql
    obtain ⟨p, hp, hxp⟩ := mem_bondedList.mp hx
    obtain ⟨F, hF, hpF⟩ := hcov p hp
    have hxF : x ∈ bondedList F := by
      rcases hxp with h | h
      · exact mem_bondedList.mpr ⟨p, hpF, Or.inl h⟩
      · exact mem_bondedList.mpr ⟨p, hpF, Or.inr h⟩
    refine frags_chain (pairs ++ connect_fragments atoms pairs) (molecule_fragments pairs)
      ?_ hql ?_ F hF x hxF
    · intro K hK
      exact ⟨(hfacts K hK).1, fun q hq =>
        List.mem_append.mpr (Or.inl ((hfacts K hK).2.1 q hq))⟩
    · intro K hK
      exact (hfacts K hK).2.2
  suffices hhub : ∃ hub, ∀ x ∈ atoms,
      Conn (pairs ++ connect_fragments atoms pairs) x hub by
    obtain ⟨hub, hh⟩ := hhub
    intro a ha b hb
    exact Conn_trans (hh a ha) (Conn_symm (hh b hb))
  by_cases hu : ((atoms.filter (fun a => !((bondedList pairs).contains a))).isEmpty : Bool)
      = true
  · have hcf : connect_fragments atoms pairs = fragmentLinks (molecule_fragments pairs) := by
      rw [connect_fragments_eq, if_pos hu]
    have hunil : atoms.filter (fun a => !((bondedList pairs).contains a)) = [] :=
      List.isEmpty_iff.mp hu
    refine ⟨pairListLast2 (((molecule_fragments pairs).getLast?).getD []), ?_⟩
    intro x hx
    have hxb : x ∈ bondedList pairs := by
      have h := List.filter_eq_nil_iff.mp hunil x hx
      cases hxc : (bondedList pairs).contains x
      · rw [hxc] at h
        exact absurd rfl h
      · exact List.elem_iff.mp hxc
    refine hchain x hxb ?_
    intro q hq
    rw [hcf]
    exact List.mem_append.mpr (Or.inr hq)
  · by_cases hf : ((molecule_fragments pairs).isEmpty : Bool) = true
    · have hfnil : molecule_fragments pairs = [] := List.isEmpty_iff.mp hf
      have hpnil : pairs = [] := by
        by_cases hp : pairs = []
        · exact hp
        · exact absurd hfnil (hnonempty hp)
      have hune : atoms.filter (fun a => !((bondedList pairs).contains a)) ≠ [] := by
        intro h
        rw [h] at hu
        exact hu rfl
      match hul : atoms.filter (fun a => !((bondedList pairs).contains a)), hune with
      | anchor :: restOrphans, _ =>
        have hcf : connect_fragments atoms pairs
            = fragmentLinks (molecule_fragments pairs)
              ++ restOrphans.map (fun a => (anchor, a)) := by
          rw [connect_fragments_eq, if_neg hu,
            if_neg (by rw [hf]; exact fun h => Bool.noConfusion h), hul]
        refine ⟨anchor, ?_⟩
        intro x hx
        have hxu : x ∈ anchor :: restOrphans := by
          rw [← hul]
          refine List.mem_filter.mpr ⟨hx, ?_⟩
          rw [hpnil]
          rfl
        rcases List.mem_cons.mp hxu with h | h
        · rw [h]
          exact Relation.ReflTransGen.refl
        · refine Relation.ReflTransGen.single (Or.inr ?_)
          refine List.mem_append.mpr (Or.inr ?_)
          rw [hcf]
          refine List.mem_append.mpr (Or.inr ?_)
          exact List.mem_map.mpr ⟨x, h, rfl⟩
    · have hft : (!(molecule_fragments pairs).isEmpty) = true := by
        cases hb : ((molecule_fragments pairs).isEmpty : Bool)
        · rfl
        · exact absurd hb hf
      have hcf : connect_fragments atoms pairs
          = fragmentLinks (molecule_fragments pairs) ++
            (atoms.filter (fun a => !((bondedList pairs).contains a))).map
              (fun a => (pairListLast2 (((molecule_fragments pairs).getLast?).getD []), a)) := by
        rw [connect_fragments_eq, if_neg hu, if_pos hft]
      refine ⟨pairListLast2 (((molecule_fragments pairs).getLast?).getD []), ?_⟩
      intro x hx
      cases hxc : (bondedList pairs).contains x
      · refine Relation.ReflTransGen.single (Or.inr ?_)
        refine List.mem_append.mpr (Or.inr ?_)
        rw [hcf]
        refine List.mem_append.mpr (Or.inr ?_)
        refine List.mem_map.mpr ⟨x, ?_, rfl⟩
        refine List.mem_filter.mpr ⟨hx, ?_⟩
        rw [hxc]
        rfl
      · have hxb : x ∈ bondedList pairs := List.elem_iff.mp hxc
        refine hchain x hxb ?_
        intro q hq
        refine List.mem_append.mpr (Or.inr ?_)
        rw [hcf]
        exact List.mem_append.mpr (Or.inl hq)

/-- C5: for a molecule with a nonempty, duplicate-free atom key list,
connect_fragments synthesizes exactly (number of fragments) - 1 plus
(number of orphan atoms) link bonds; the fragments are precisely the
connected components of the bond-pair graph (each nonempty, covering all
pairs, internally connected, and mutually atom-disjoint), and after
adding the links every two atoms are connected, so a single-tree
traversal is possible. -/
theorem c5_fragment_linking (atoms : List ℕ) (pairs : List (ℕ × ℕ))
    (hatoms : atoms ≠ []) (hnodup : atoms.Nodup) :
    ((connect_fragments atoms pairs).length : ℤ)
      = ((molecule_fragments pairs).length : ℤ) - 1
        + ((atoms.filter (fun a => !((bondedList pairs).contains a))).length : ℤ) ∧
    (∀ F ∈ molecule_fragments pairs, F ≠ [] ∧ ∀ p ∈ F, p ∈ pairs) ∧
    (∀ p ∈ pairs, ∃ F ∈ molecule_fragments pairs, p ∈ F) ∧
    (∀ F ∈ molecule_fragments pairs, ∀ a b, a ∈ bondedList F → b ∈ bondedList F →
      Conn F a b) ∧
    (molecule_fragments pairs).Pairwise
      (fun F G => ∀ a, a ∈ bondedList F → a ∉ bondedList G) ∧
    (∀ a ∈ atoms, ∀ b ∈ atoms, Conn (pairs ++ connect_fragments atoms pairs) a b) := by
  obtain ⟨hfacts, hcov, hpw, hnonempty⟩ := molecule_fragments_spec pairs
  refine ⟨connect_fragments_count atoms pairs hatoms, ?_, hcov, ?_, hpw,
    connect_fragments_conn atoms pairs⟩
  · intro F hF
    exact ⟨(hfacts F hF).1, (hfacts F hF).2.1⟩
  · intro F hF a b ha hb
    exact Conn_trans (bonded_conn (hfacts F hF).2.2 a ha)
      (Conn_symm (bonded_conn (hfacts F hF).2.2 b hb))

/-- The atom keys of the C5 witness molecule: five atoms, two bonds,
one orphan. -/
def c5Atoms : List ℕ := [0, 1, 2, 3, 4]

/-- The bond pairs of the C5 witness molecule: two fragments. -/
def c5Pairs : List (ℕ × ℕ) := [(0, 1), (2, 3)]

/-- C5 witness: the theorem applied to the concrete two-fragment,
one-orphan molecule. -/
theorem c5_fragment_linking_witness :
    c5Atoms ≠ [] ∧ c5Atoms.Nodup ∧
    connect_fragments c5Atoms c5Pairs = [(1, 2), (3, 4)] ∧
    (((connect_fragments c5Atoms c5Pairs).length : ℤ)
        = ((molecule_fragments c5Pairs).length : ℤ) - 1
          + ((c5Atoms.filter (fun a => !((bondedList c5Pairs).contains a))).length : ℤ) ∧
      (∀ F ∈ molecule_fragments c5Pairs, F ≠ [] ∧ ∀ p ∈ F, p ∈ c5Pairs) ∧
      (∀ p ∈ c5Pairs, ∃ F ∈ molecule_fragments c5Pairs, p ∈ F) ∧
      (∀ F ∈ molecule_fragments c5Pairs, ∀ a b, a ∈ bondedList F → b ∈ bondedList F →
        Conn F a b) ∧
      (molecule_fragments c5Pairs).Pairwise
        (fun F G => ∀ a, a ∈ bondedList F → a ∉ bondedList G) ∧
      (∀ a ∈ c5Atoms, ∀ b ∈ c5Atoms,
        Conn (c5Pairs ++ connect_fragments c5Atoms c5Pairs) a b)) := by
  have h1 : c5Atoms ≠ [] := by
    intro h
    exact List.noConfusion h
  have h2 : c5Atoms.Nodup := by decide
  have h3 : connect_fragments c5Atoms c5Pairs = [(1, 2), (3, 4)] := by rfl
  exact ⟨h1, h2, h3, c5_fragment_linking c5Atoms c5Pairs h1 h2⟩
